import Mathlib

/-!
Verification of the VectorEasy raster-to-vector engine
(src/app/vectorizer/) against its natural-language specification.

The Python source is shallowly embedded: images are flat lists of BGR
pixels (row-major, as the code itself reshapes every image to an
(N, 3) pixel array), uint8 channels are natural numbers, and the
floating-point comparisons of the source are replaced by exact
scaled-integer arithmetic wherever the float computation is exact on
the values the code feeds it (each such place carries a comment).
-/

/-- A BGR pixel, channel order as used throughout the source
(OpenCV convention): component 0 is blue, 1 is green, 2 is red.
Mirrors the rows of the (N, 3) uint8 pixel arrays of
color_quantizer.py. -/
structure Px where
  b : ℕ
  g : ℕ
  r : ℕ
deriving DecidableEq

instance : Inhabited Px := ⟨⟨0, 0, 0⟩⟩

namespace VectorEasy

/-! ## color_quantizer.py: helpers -/

/-- One lowercase hex digit. -/
def hexDigit (n : ℕ) : Char :=
  if n < 10 then Char.ofNat (48 + n) else Char.ofNat (87 + n)

/-- Two-digit lowercase hex rendering of a byte, as Python f"{v:02x}". -/
def hexByte (n : ℕ) : List Char :=
  [hexDigit (n / 16 % 16), hexDigit (n % 16)]

/-- Embeds _bgr_to_hex (color_quantizer.py lines 17-19):
"#rrggbb" lowercase. -/
def bgrToHex (p : Px) : String :=
  ⟨'#' :: (hexByte p.r ++ hexByte p.g ++ hexByte p.b)⟩

/-- 512 times the square of the perceptual distance of
_color_distance (color_quantizer.py lines 30-36):
  d = sqrt((2 + rmean/256)*dr^2 + 4*dg^2 + (2 + (255-rmean)/256)*db^2),
  rmean = (r1+r2)/2.
Multiplying d^2 by 512 clears both denominators:
  512*d^2 = (1024 + (r1+r2))*dr^2 + 2048*dg^2 + (1534 - (r1+r2))*db^2.
All quantities are integers, so the comparison below is exact. -/
def percepDistSq512 (c1 c2 : Px) : ℤ :=
  let dr : ℤ := (c1.r : ℤ) - (c2.r : ℤ)
  let dg : ℤ := (c1.g : ℤ) - (c2.g : ℤ)
  let db : ℤ := (c1.b : ℤ) - (c2.b : ℤ)
  let s : ℤ := (c1.r : ℤ) + (c2.r : ℤ)
  (1024 + s) * dr ^ 2 + 2048 * dg ^ 2 + (1534 - s) * db ^ 2

/-- The source's test `_color_distance(c1, c2) < 15`.  In the source the
comparison is done on the float square root; for uint8 channels every
intermediate value of the radicand is an exact dyadic rational well
inside double precision and 15 is representable, so the float test
agrees with the exact test d^2 < 225, i.e. 512*d^2 < 115200. -/
def percepLt15 (c1 c2 : Px) : Bool :=
  percepDistSq512 c1 c2 < 115200

/-! ## Index of the first minimum / maximum (np.argmin / np.argmax
return the FIRST occurrence of the extremum). -/

def argminAux (xs : List ℤ) (cur : ℤ) (i best : ℕ) : ℕ :=
  match xs with
  | [] => best
  | x :: rest =>
      if x < cur then argminAux rest x (i + 1) i
      else argminAux rest cur (i + 1) best

/-- First index of the minimum of a list (np.argmin); 0 on []. -/
def argminIdx : List ℤ → ℕ
  | [] => 0
  | x :: rest => argminAux rest x 1 0

def argmaxAux (xs : List ℤ) (cur : ℤ) (i best : ℕ) : ℕ :=
  match xs with
  | [] => best
  | x :: rest =>
      if x > cur then argmaxAux rest x (i + 1) i
      else argmaxAux rest cur (i + 1) best

/-- First index of the maximum of a list (np.argmax); 0 on []. -/
def argmaxIdx : List ℤ → ℕ
  | [] => 0
  | x :: rest => argmaxAux rest x 1 0

/-! ## Median cut (color_quantizer.py lines 43-74) -/

/-- Insert x before the first element NOT strictly below it: the
insertion step of a stable insertion sort. -/
def insertBy (lt : α → α → Bool) (x : α) : List α → List α
  | [] => [x]
  | y :: ys => if lt y x then y :: insertBy lt x ys else x :: y :: ys

/-- Stable sort by a strict comparison: elements with equal keys keep
their input order (the guarantee of Python list.sort / a stable key
sort, used here so the embedding matches it on every tie the theorems
touch). -/
def stableSort (lt : α → α → Bool) : List α → List α
  | [] => []
  | x :: xs => insertBy lt x (stableSort lt xs)

/-- Channel accessor: axis order of the pixel array is (b, g, r). -/
def chGet (ch : ℕ) (p : Px) : ℕ :=
  match ch with
  | 0 => p.b
  | 1 => p.g
  | _ => p.r

def chMax (ch : ℕ) (box : List Px) : ℕ := (box.map (chGet ch)).foldr max 0
def chMin (ch : ℕ) (box : List Px) : ℕ :=
  match box.map (chGet ch) with
  | [] => 0
  | x :: rest => rest.foldr min x

/-- Embeds _MedianCutBox._channel_range (lines 47-49): the index of the
channel with largest (max - min) range, first on ties (np.argmax). -/
def channelRange (box : List Px) : ℕ :=
  argmaxIdx ((List.range 3).map fun ch => (chMax ch box : ℤ) - (chMin ch box : ℤ))

/-- Embeds _MedianCutBox.split (lines 51-55): sort by the widest channel
and cut at len // 2.  np.argsort ties are implementation-defined; a
stable sort is used here, and no theorem below depends on the order of
equal keys. -/
def boxSplit (box : List Px) : List Px × List Px :=
  let ch := channelRange box
  let sorted := stableSort (fun a b => chGet ch a < chGet ch b) box
  (sorted.take (sorted.length / 2), sorted.drop (sorted.length / 2))

/-- Mean of a box, truncated to uint8 (pixels.mean(axis=0).astype(np.uint8));
astype truncates toward zero, which on nonnegative values is floor. -/
def boxAvg (box : List Px) : Px :=
  let n := box.length
  { b := (box.map Px.b).sum / n
    g := (box.map Px.g).sum / n
    r := (box.map Px.r).sum / n }

/-- The loop of _median_cut (lines 64-73).  Python list.sort is stable,
so sorting with key len descending keeps insertion order among boxes of
equal size; boxes.pop(0) takes the largest, and the two halves are
appended at the end.  One iteration adds one box (or breaks), so
fuel = n suffices for the while-condition len(boxes) < n. -/
def medianCutLoop (n : ℕ) : ℕ → List (List Px) → List (List Px)
  | 0, boxes => boxes
  | fuel + 1, boxes =>
      if boxes.length < n then
        match stableSort (fun a b => b.length < a.length) boxes with
        | [] => []
        | largest :: rest =>
            if largest.length < 2 then largest :: rest
            else medianCutLoop n fuel (rest ++ [(boxSplit largest).1, (boxSplit largest).2])
      else boxes

/-- Embeds _median_cut (color_quantizer.py lines 62-74). -/
def medianCut (pixels : List Px) (n : ℕ) : List Px :=
  (medianCutLoop n n [pixels]).map boxAvg

/-! ## Pixel assignment (color_quantizer.py lines 217-224) -/

/-- Squared Euclidean BGR distance.  The source computes it on float32
values obtained from uint8 data; all squares and sums stay below 2^24,
hence are exact in float32, and np.argmin agrees with this integer
computation. -/
def assignDistSq (p q : Px) : ℤ :=
  ((p.b : ℤ) - q.b) ^ 2 + ((p.g : ℤ) - q.g) ^ 2 + ((p.r : ℤ) - q.r) ^ 2

/-- Embeds _assign_labels: each pixel goes to the palette index with
minimal squared distance, ties to the lower index (np.argmin). -/
def assignLabels (pixels : List Px) (palette : List Px) : List ℕ :=
  pixels.map fun p => argminIdx (palette.map (assignDistSq p))

/-! ## Auto-K (color_quantizer.py lines 226-233) -/

/-- OpenCV BGR2GRAY for 8-bit data: fixed-point
y = (4899*R + 9617*G + 1868*B + 8192) >> 14 (coefficients
0.299/0.587/0.114 scaled by 2^14, round-half-up bias). -/
def grayOf (p : Px) : ℕ :=
  (4899 * p.r + 9617 * p.g + 1868 * p.b + 8192) / 16384

/-- Embeds _auto_k (lines 226-233): count nonzero 256-bin histogram
entries of the grayscale image, K = clamp(2, 32, bins // 8). -/
def autoK (pixels : List Px) : ℕ :=
  let grays := pixels.map grayOf
  let nonZeroBins := ((List.range 256).filter fun v => 0 < grays.count v).length
  max 2 (min 32 (nonZeroBins / 8))

/-! ## Palette refinement (color_quantizer.py lines 235-288) -/

/-- np.bincount(labels, minlength=k). -/
def bincount (labels : List ℕ) (k : ℕ) : List ℕ :=
  (List.range k).map fun i => labels.count i

/-- Embeds lines 247-250: the kept indices are those with coverage
counts[i]/total >= 0.001; in exact arithmetic 1000*counts[i] >= total.
(The float division the source performs is a red herring only at exact
ties, where the double nearest to counts/total coincides with the
double literal 0.001 precisely when 1000*counts = total.)  If nothing
survives, keep the first index of maximal count (np.argmax). -/
def keepIdx (counts : List ℕ) (total : ℕ) : List ℕ :=
  let keep := (List.range counts.length).filter fun i => total ≤ 1000 * counts.getD i 0
  if keep = [] then [argmaxIdx (counts.map (Int.ofNat))] else keep

/-- Embeds the label remapping of lines 252-263: labels of kept entries
are renumbered by their position in keep; pixels of dropped entries are
reassigned to the nearest surviving palette entry, measured from their
quantized color old_palette[label]. -/
def remapLabels (labels : List ℕ) (oldPal : List Px) (keep : List ℕ) : List ℕ :=
  let newPal := keep.map fun i => oldPal.getD i default
  labels.map fun l =>
    match keep.findIdx? (fun i => i = l) with
    | some j => j
    | none => argminIdx (newPal.map (assignDistSq (oldPal.getD l default)))

/-- All ordered pairs (i, j) with i < j < n, in the scan order of the
double loop at lines 269-270: i over range(n), j over range(i+1, n). -/
def pairScan (n : ℕ) : List (ℕ × ℕ) :=
  (List.range n).flatMap fun i => (List.range' (i + 1) (n - (i + 1))).map fun j => (i, j)

/-- The first pair of palette entries at perceptual distance < 15 in
scan order (the pair the inner loops of lines 269-271 find), if any. -/
def findMergePair (pal : List Px) : Option (ℕ × ℕ) :=
  (pairScan pal.length).find? fun ij => percepLt15 (pal.getD ij.1 default) (pal.getD ij.2 default)

/-- new_labels[new_labels == j] = i (line 273). -/
def relabel (labels : List ℕ) (j i : ℕ) : List ℕ :=
  labels.map fun l => if l = j then i else l

/-- Embeds _compact_labels (lines 284-288): labels above the removed
index shift down by one. -/
def compactLabels (labels : List ℕ) (removed : ℕ) : List ℕ :=
  labels.map fun l => if removed < l then l - 1 else l

/-- The merge loop of lines 266-280: while the palette has more than
two entries and some pair is closer than 15, merge j into i, delete
entry j and compact the labels.  Every merge removes one palette entry,
so fuel = initial palette length bounds the iteration count. -/
def mergeLoop : ℕ → List Px → List ℕ → List Px × List ℕ
  | 0, pal, labels => (pal, labels)
  | fuel + 1, pal, labels =>
      if pal.length ≤ 2 then (pal, labels)
      else
        match findMergePair pal with
        | none => (pal, labels)
        | some (i, j) => mergeLoop fuel (pal.eraseIdx j) (compactLabels (relabel labels j i) j)

/-- Embeds _refine_palette (color_quantizer.py lines 235-282):
coverage pruning followed by the perceptual merge loop. -/
def refinePalette (palette : List Px) (labels : List ℕ) : List Px × List ℕ :=
  let counts := bincount labels palette.length
  let keep := keepIdx counts labels.length
  let pal1 := keep.map fun i => palette.getD i default
  let labels1 := remapLabels labels palette keep
  mergeLoop pal1.length pal1 labels1

/-! ## Masks and alpha (color_quantizer.py lines 186-192, 300-305) -/

/-- Embeds _build_masks: mask i is 255 where the label equals i, else 0. -/
def buildMasks (labels : List ℕ) (k : ℕ) : List (List ℕ) :=
  (List.range k).map fun i => labels.map fun l => if l = i then 255 else 0

/-- Embeds the alpha re-application of lines 189-191:
masks[i] = cv2.bitwise_and(masks[i], alpha), pixel-wise. -/
def applyAlpha (masks : List (List ℕ)) (alpha : List ℕ) : List (List ℕ) :=
  masks.map fun m => m.zipWith Nat.land alpha

/-! ## quantize (color_quantizer.py lines 122-193) -/

/-- The result bundle of ColorQuantizer.quantize.  The source returns
(quantized_img, hex_colors, masks); the final BGR palette, of which
hexColors is the hex rendering (line 185), is exposed as well. -/
structure QuantOut where
  qimg : List Px
  palette : List Px
  hexColors : List String
  masks : List (List ℕ)
deriving DecidableEq

/-- n_colors = max(2, min(64, n_colors)) (line 149). -/
def clampK (n : ℤ) : ℤ := max 2 (min 64 n)

/-- The part of quantize after the palette has been computed
(lines 173-193): assignment, refinement, rebuild, hex palette, masks,
alpha AND. -/
def quantizeCore (pixels : List Px) (alpha : Option (List ℕ)) (palette0 : List Px) :
    QuantOut :=
  let labels := assignLabels pixels palette0
  let pr := refinePalette palette0 labels
  let pal2 := pr.1
  let labels2 := pr.2
  let qimg := labels2.map fun l => pal2.getD l default
  let hexColors := pal2.map bgrToHex
  let masksRaw := buildMasks labels2 pal2.length
  let masks :=
    match alpha with
    | some a => applyAlpha masksRaw a
    | none => masksRaw
  { qimg := qimg, palette := pal2, hexColors := hexColors, masks := masks }

/-- Embeds ColorQuantizer.quantize (lines 122-193) with the palette
computation abstracted into paletteFn (the method dispatch of lines
166-171; medianCut is the pure in-repo instantiation, kmeans and octree
call external clustering libraries on the same pixel data).  The order
of operations is the source's: the clamp of line 149 runs BEFORE the
n_colors == 0 test of line 160, so K can never be 0 at that test. -/
def quantize (paletteFn : List Px → ℕ → List Px) (pixels : List Px)
    (alpha : Option (List ℕ)) (nColors : ℤ) : QuantOut :=
  let n1 := clampK nColors
  let k : ℤ := if n1 = 0 then (autoK pixels : ℤ) else n1
  quantizeCore pixels alpha (paletteFn pixels k.toNat)

/-! ## The k-means sampling step (color_quantizer.py lines 199-205) -/

/-- Embeds the sampling step of ColorQuantizer._kmeans: when the image
has more than 100000 pixels, the sample handed to MiniBatchKMeans is
pixels[idx] for idx drawn by np.random.choice from the GLOBAL, UNSEEDED
numpy generator; the draw is therefore an explicit argument here.  The
random_state=42 at line 209 seeds only the clustering fit, not this
draw, so two runs of the same process draw different index vectors. -/
def kmeansSample (pixels : List Px) (draw : List ℕ) : List Px :=
  if 100000 < pixels.length then draw.map fun i => pixels.getD i default else pixels

/-! ## Mode detection (engine.py lines 44-71) -/

/-- Embeds the decision chart of _detect_mode.  The image statistics it
branches on (unique-color count of a 10000-pixel sample, Canny edge
density, grayscale standard deviation) are taken as inputs: the claims
about this function quantify over images exactly through them.
singleChannel models the ndim == 2 / one-channel test of line 46. -/
def detectMode (singleChannel : Bool) (uniqueColors : ℕ)
    (edgeDensity stdDev : ℚ) : String :=
  if singleChannel then "line_art"
  else if uniqueColors < 64 ∧ edgeDensity < 5 / 100 then "logo"
  else if uniqueColors < 16 then "pixel_art"
  else if stdDev < 30 then "line_art"
  else if 1000 < uniqueColors then "photo"
  else "auto"

/-- Embeds engine.py lines 130-131: when the caller requested mode
"auto" the detector result is stored into cfg and used downstream
unchanged; any other requested mode is kept. -/
def resolvedMode (requested detected : String) : String :=
  if requested = "auto" then detected else requested

/-! ## Supporting lemmas on the quantizer embedding -/

theorem argminAux_lt (xs : List ℤ) : ∀ (cur : ℤ) (i best : ℕ), best < i →
    argminAux xs cur i best < i + xs.length := by
  induction xs with
  | nil =>
      intro cur i best h
      simpa [argminAux] using h
  | cons x rest ih =>
      intro cur i best h
      simp only [argminAux, List.length_cons]
      split
      · have := ih x (i + 1) i (Nat.lt_succ_self i)
        omega
      · have := ih cur (i + 1) best (h.trans (Nat.lt_succ_self i))
        omega

theorem argminIdx_lt {l : List ℤ} (h : l ≠ []) : argminIdx l < l.length := by
  cases l with
  | nil => exact absurd rfl h
  | cons x rest =>
      have := argminAux_lt rest x 1 0 Nat.one_pos
      simpa [argminIdx, Nat.add_comm] using this

theorem assignLabels_length (pixels palette : List Px) :
    (assignLabels pixels palette).length = pixels.length := by
  simp [assignLabels]

theorem assignLabels_lt {palette : List Px} (hpal : palette ≠ []) (pixels : List Px) :
    ∀ l ∈ assignLabels pixels palette, l < palette.length := by
  intro l hl
  simp only [assignLabels, List.mem_map] at hl
  obtain ⟨p, -, rfl⟩ := hl
  have hne : palette.map (assignDistSq p) ≠ [] := by
    simpa [List.map_eq_nil_iff] using hpal
  simpa using argminIdx_lt hne

theorem keepIdx_ne_nil (counts : List ℕ) (total : ℕ) : keepIdx counts total ≠ [] := by
  unfold keepIdx
  simp only []
  split
  · simp
  · assumption

theorem remapLabels_length (labels : List ℕ) (oldPal : List Px) (keep : List ℕ) :
    (remapLabels labels oldPal keep).length = labels.length := by
  simp [remapLabels]

theorem remapLabels_lt {keep : List ℕ} (hk : keep ≠ []) (labels : List ℕ) (oldPal : List Px) :
    ∀ l ∈ remapLabels labels oldPal keep, l < keep.length := by
  intro l hl
  simp only [remapLabels, List.mem_map] at hl
  obtain ⟨l0, -, rfl⟩ := hl
  split
  · next j hj =>
      exact (List.findIdx?_eq_some_iff_findIdx_eq.1 hj).1
  · have hne : keep.map (fun i => oldPal.getD i default) ≠ [] := by
      simpa [List.map_eq_nil_iff] using hk
    have := argminIdx_lt (l := (keep.map fun i => oldPal.getD i default).map
      (assignDistSq (oldPal.getD l0 default))) (by simpa [List.map_eq_nil_iff] using hk)
    simpa using this

theorem pairScan_mem {n i j : ℕ} : (i, j) ∈ pairScan n ↔ i < j ∧ j < n := by
  simp only [pairScan, List.mem_flatMap, List.mem_map, List.mem_range, List.mem_range',
    Prod.mk.injEq]
  constructor
  · rintro ⟨a, ha, b, ⟨t, ht, rfl⟩, rfl, rfl⟩
    omega
  · rintro ⟨hij, hj⟩
    exact ⟨i, by omega, j, ⟨j - (i + 1), by omega⟩, rfl, rfl⟩

theorem findMergePair_some {pal : List Px} {i j : ℕ}
    (h : findMergePair pal = some (i, j)) :
    i < j ∧ j < pal.length ∧
      percepLt15 (pal.getD i default) (pal.getD j default) = true := by
  have hmem := List.mem_of_find?_eq_some h
  have hp := List.find?_some h
  have hb := pairScan_mem.1 hmem
  exact ⟨hb.1, hb.2, hp⟩

theorem findMergePair_none {pal : List Px} (h : findMergePair pal = none) :
    ∀ i j, i < j → j < pal.length →
      percepLt15 (pal.getD i default) (pal.getD j default) = false := by
  intro i j hij hj
  have := List.find?_eq_none.1 h (i, j) (pairScan_mem.2 ⟨hij, hj⟩)
  simpa using this

theorem mergeLoop_labels_length : ∀ (fuel : ℕ) (pal : List Px) (labels : List ℕ),
    ((mergeLoop fuel pal labels).2).length = labels.length := by
  intro fuel
  induction fuel with
  | zero => intro pal labels; rfl
  | succ fuel ih =>
      intro pal labels
      simp only [mergeLoop]
      split
      · rfl
      · split
        · rfl
        · next i j _ =>
            rw [ih]
            simp [compactLabels, relabel]

theorem mergeLoop_pal_pos : ∀ (fuel : ℕ) (pal : List Px) (labels : List ℕ),
    1 ≤ pal.length → 1 ≤ (mergeLoop fuel pal labels).1.length := by
  intro fuel
  induction fuel with
  | zero => intro pal labels h; exact h
  | succ fuel ih =>
      intro pal labels h
      simp only [mergeLoop]
      split
      · exact h
      · next h2 =>
        split
        · exact h
        · next i j hfm =>
            apply ih
            have hj := (findMergePair_some hfm).2.1
            rw [List.length_eraseIdx]
            simp only [hj, if_true]
            omega

theorem mergeLoop_labels_lt : ∀ (fuel : ℕ) (pal : List Px) (labels : List ℕ),
    (∀ l ∈ labels, l < pal.length) →
    ∀ l ∈ (mergeLoop fuel pal labels).2, l < (mergeLoop fuel pal labels).1.length := by
  intro fuel
  induction fuel with
  | zero => intro pal labels h; exact h
  | succ fuel ih =>
      intro pal labels h
      simp only [mergeLoop]
      split
      · exact h
      · next h2 =>
        split
        · exact h
        · next i j hfm =>
            obtain ⟨hij, hj, -⟩ := findMergePair_some hfm
            apply ih
            intro l hl
            simp only [compactLabels, relabel, List.mem_map] at hl
            obtain ⟨l1, hl1, rfl⟩ := hl
            obtain ⟨l0, hl0, rfl⟩ := hl1
            have hl0' := h l0 hl0
            rw [List.length_eraseIdx]
            simp only [hj, if_true]
            split <;> split <;> omega

theorem mergeLoop_no_close_pair : ∀ (fuel : ℕ) (pal : List Px) (labels : List ℕ),
    pal.length ≤ fuel + 2 →
    2 < (mergeLoop fuel pal labels).1.length →
    ∀ i j, i < j → j < (mergeLoop fuel pal labels).1.length →
      percepLt15 ((mergeLoop fuel pal labels).1.getD i default)
        ((mergeLoop fuel pal labels).1.getD j default) = false := by
  intro fuel
  induction fuel with
  | zero =>
      intro pal labels hfuel h3
      simp only [mergeLoop] at h3 ⊢
      omega
  | succ fuel ih =>
      intro pal labels hfuel h3
      simp only [mergeLoop] at h3 ⊢
      split
      · next h2 => simp only [if_pos h2] at h3; omega
      · next h2 =>
        simp only [if_neg h2] at h3
        split
        · next hfm =>
            simp only [hfm] at h3 ⊢
            exact fun i j hij hj => findMergePair_none hfm i j hij hj
        · next i j hfm =>
            simp only [hfm] at h3 ⊢
            apply ih
            · have hj := (findMergePair_some hfm).2.1
              rw [List.length_eraseIdx]
              simp only [hj, if_true]
              omega
            · exact h3

theorem refinePalette_no_close_pair (palette : List Px) (labels : List ℕ)
    (h3 : 2 < (refinePalette palette labels).1.length) :
    ∀ i j, i < j → j < (refinePalette palette labels).1.length →
      percepLt15 ((refinePalette palette labels).1.getD i default)
        ((refinePalette palette labels).1.getD j default) = false := by
  have := mergeLoop_no_close_pair
    ((keepIdx (bincount labels palette.length) labels.length).map
      (fun i => palette.getD i default)).length
    ((keepIdx (bincount labels palette.length) labels.length).map
      (fun i => palette.getD i default))
    (remapLabels labels palette (keepIdx (bincount labels palette.length) labels.length))
    (by omega)
  exact this h3

theorem refinePalette_labels_length (palette : List Px) (labels : List ℕ) :
    ((refinePalette palette labels).2).length = labels.length := by
  unfold refinePalette
  rw [mergeLoop_labels_length, remapLabels_length]

theorem refinePalette_labels_lt (palette : List Px) (labels : List ℕ) :
    ∀ l ∈ (refinePalette palette labels).2, l < (refinePalette palette labels).1.length := by
  unfold refinePalette
  apply mergeLoop_labels_lt
  intro l hl
  have hk := keepIdx_ne_nil (bincount labels palette.length) labels.length
  have := remapLabels_lt hk labels palette l hl
  simpa using this

theorem refinePalette_pal_pos (palette : List Px) (labels : List ℕ) :
    1 ≤ (refinePalette palette labels).1.length := by
  unfold refinePalette
  apply mergeLoop_pal_pos
  have hk := keepIdx_ne_nil (bincount labels palette.length) labels.length
  have : (keepIdx (bincount labels palette.length) labels.length).length ≠ 0 := by
    simpa [List.length_eq_zero] using hk
  simp only [List.length_map]
  omega

/-! ## Mask lemmas -/

theorem buildMasks_length (labels : List ℕ) (k : ℕ) : (buildMasks labels k).length = k := by
  simp [buildMasks]

theorem buildMasks_val {labels : List ℕ} {k i p : ℕ} (hi : i < k) (hp : p < labels.length) :
    ((buildMasks labels k).getD i []).getD p 0 =
      if labels.getD p 0 = i then 255 else 0 := by
  have hi' : i < (buildMasks labels k).length := by rwa [buildMasks_length]
  rw [List.getD_eq_getElem _ _ hi']
  simp only [buildMasks, List.getElem_map, List.getElem_range]
  have hp' : p < (labels.map fun l => if l = i then (255 : ℕ) else 0).length := by
    simpa using hp
  rw [List.getD_eq_getElem _ _ hp', List.getElem_map, List.getD_eq_getElem _ _ hp]

theorem buildMasks_elem_length {labels : List ℕ} {k i : ℕ} (hi : i < k) :
    ((buildMasks labels k).getD i []).length = labels.length := by
  have hi' : i < (buildMasks labels k).length := by rwa [buildMasks_length]
  rw [List.getD_eq_getElem _ _ hi']
  simp [buildMasks]

theorem applyAlpha_length (masks : List (List ℕ)) (alpha : List ℕ) :
    (applyAlpha masks alpha).length = masks.length := by
  simp [applyAlpha]

theorem applyAlpha_val {masks : List (List ℕ)} {alpha : List ℕ} {i p : ℕ}
    (hi : i < masks.length) (hp : p < (masks.getD i []).length) (hp2 : p < alpha.length) :
    ((applyAlpha masks alpha).getD i []).getD p 0 =
      Nat.land ((masks.getD i []).getD p 0) (alpha.getD p 0) := by
  have hi' : i < (applyAlpha masks alpha).length := by rwa [applyAlpha_length]
  rw [List.getD_eq_getElem _ _ hi']
  simp only [applyAlpha, List.getElem_map]
  have hiM : i < masks.length := hi
  have hmg : masks.getD i [] = masks[i] := List.getD_eq_getElem _ _ hiM
  rw [hmg] at hp ⊢
  have hpz : p < (List.zipWith Nat.land masks[i] alpha).length := by
    rw [List.length_zipWith]; omega
  rw [List.getD_eq_getElem _ _ hpz, List.getElem_zipWith,
    List.getD_eq_getElem _ _ hp, List.getD_eq_getElem _ _ hp2]

set_option maxRecDepth 4000 in
theorem land_255_of_lt (a : ℕ) (h : a < 256) : Nat.land 255 a = a := by
  have : ∀ x < 256, Nat.land 255 x = x := by decide
  exact this a h

theorem land_zero_left (a : ℕ) : Nat.land 0 a = 0 := by
  simp [Nat.land]

/-! ## Structure of the quantize output -/

theorem quantize_eq_core (paletteFn : List Px → ℕ → List Px) (pixels : List Px)
    (alpha : Option (List ℕ)) (nColors : ℤ) :
    quantize paletteFn pixels alpha nColors =
      quantizeCore pixels alpha (paletteFn pixels (clampK nColors).toNat) := by
  unfold quantize
  have h : clampK nColors ≠ 0 := by unfold clampK; omega
  simp [h]

theorem quantizeCore_palette (pixels : List Px) (alpha : Option (List ℕ))
    (palette0 : List Px) :
    (quantizeCore pixels alpha palette0).palette =
      (refinePalette palette0 (assignLabels pixels palette0)).1 := rfl

theorem quantizeCore_masks_none (pixels : List Px) (palette0 : List Px) :
    (quantizeCore pixels none palette0).masks =
      buildMasks (refinePalette palette0 (assignLabels pixels palette0)).2
        (refinePalette palette0 (assignLabels pixels palette0)).1.length := rfl

theorem quantizeCore_masks_some (pixels : List Px) (alpha : List ℕ) (palette0 : List Px) :
    (quantizeCore pixels (some alpha) palette0).masks =
      applyAlpha
        (buildMasks (refinePalette palette0 (assignLabels pixels palette0)).2
          (refinePalette palette0 (assignLabels pixels palette0)).1.length) alpha := rfl

/-- The label of pixel p after refinement is a valid palette index, and
the refined label image has one label per pixel. -/
theorem refined_label_lt (pixels palette0 : List Px) {p : ℕ} (hp : p < pixels.length) :
    (refinePalette palette0 (assignLabels pixels palette0)).2.length = pixels.length ∧
    (refinePalette palette0 (assignLabels pixels palette0)).2.getD p 0 <
      (refinePalette palette0 (assignLabels pixels palette0)).1.length := by
  have hlen : (refinePalette palette0 (assignLabels pixels palette0)).2.length
      = pixels.length := by
    rw [refinePalette_labels_length, assignLabels_length]
  refine ⟨hlen, ?_⟩
  have hp' : p < (refinePalette palette0 (assignLabels pixels palette0)).2.length := by
    omega
  have hmem : (refinePalette palette0 (assignLabels pixels palette0)).2.getD p 0 ∈
      (refinePalette palette0 (assignLabels pixels palette0)).2 := by
    rw [List.getD_eq_getElem _ _ hp']
    exact List.getElem_mem hp'
  exact refinePalette_labels_lt palette0 (assignLabels pixels palette0) _ hmem

/-! ## Claim C1 -/

/-- A 24-level gray ramp: 24 pixels with 24 distinct grayscale values,
so _auto_k would report 24 nonzero histogram bins and return 3. -/
def grayRamp24 : List Px := (List.range 24).map fun i => ⟨i, i, i⟩

/-- C1: the claimed auto-K path for n_colors = 0 is unreachable in the
code.  Line 149 clamps n_colors into [2, 64] BEFORE the n_colors == 0
test of line 160, so the clamp result is never 0, a request of 0 always
reaches the palette computation with K = 2, and _auto_k is dead code:
on the 24-level gray ramp it would return 3, not the 2 actually used. -/
theorem C1_autoK_unreachable :
    (∀ n : ℤ, clampK n ≠ 0) ∧
    (∀ (paletteFn : List Px → ℕ → List Px) (pixels : List Px) (alpha : Option (List ℕ)),
      quantize paletteFn pixels alpha 0 = quantizeCore pixels alpha (paletteFn pixels 2)) ∧
    autoK grayRamp24 = 3 ∧ (2 : ℕ) ≠ 3 := by
  refine ⟨?_, ?_, ?_, by decide⟩
  · intro n; unfold clampK; omega
  · intro paletteFn pixels alpha
    rw [quantize_eq_core]
    rfl
  · decide

/-! ## Claim C2 -/

/-- An image of 100001 pixels: 100000 black ones and a single white
one at the last index.  Any concrete image with more than 100000 pixels
(e.g. 317 x 317) reaches the sampling branch of _kmeans. -/
def largeImage : List Px := List.replicate 100000 ⟨0, 0, 0⟩ ++ [⟨255, 255, 255⟩]

/-- Two different index draws over a mostly constant image read
different samples: the draw range(n) misses the odd pixel at index n,
the draw range(1, n+1) (i.e. range' 1 n) hits it.  Stated for general n
so that no proof step ever evaluates a 100001-element list. -/
theorem sampleOf_draw_sensitive (a c : Px) (hne : a ≠ c) (n : ℕ) (hn : 0 < n) :
    ((List.range n).map fun i => (List.replicate n a ++ [c]).getD i default) ≠
      ((List.range' 1 n).map fun i => (List.replicate n a ++ [c]).getD i default) := by
  intro heq
  have hmem : c ∈ (List.range' 1 n).map
      fun i => (List.replicate n a ++ [c]).getD i default := by
    refine List.mem_map.2 ⟨n, List.mem_range'.2 ⟨n - 1, by omega, by omega⟩, ?_⟩
    rw [List.getD_append_right _ _ _ _ (by rw [List.length_replicate])]
    rw [List.length_replicate]
    simp
  rw [← heq] at hmem
  obtain ⟨i, hi, hvx⟩ := List.mem_map.1 hmem
  have hi' : i < n := List.mem_range.1 hi
  have hia : (List.replicate n a ++ [c]).getD i default = a := by
    rw [List.getD_append _ _ _ i (by rw [List.length_replicate]; omega)]
    rw [List.getD_eq_getElem _ _ (by rw [List.length_replicate]; omega)]
    exact List.getElem_replicate _ _
  rw [hia] at hvx
  exact hne hvx

/-- C2: the sample handed to the clustering is NOT controlled by the
fixed seed 42: it is drawn by np.random.choice from the unseeded global
numpy generator.  Two admissible draws (both are 100000-element index
vectors without repetition, as np.random.choice(100001, 100000,
replace=False) can produce on consecutive runs) give different samples
on the same image, so the clustering input - and hence the palette and
the SVG derived from it - depends on hidden global RNG state. -/
theorem C2_sampling_unseeded :
    kmeansSample largeImage (List.range 100000) ≠
      kmeansSample largeImage (List.range' 1 100000) := by
  have hlen : largeImage.length = 100000 + 1 := by
    unfold largeImage
    rw [List.length_append, List.length_replicate, List.length_singleton]
  have hif : 100000 < largeImage.length := by omega
  simp only [kmeansSample, if_pos hif]
  unfold largeImage
  exact sampleOf_draw_sensitive ⟨0, 0, 0⟩ ⟨255, 255, 255⟩ (by decide) 100000 (by omega)

/-! ## Claim C3 -/

/-- C3 (counterexample): a 1x2 BGRA image, black and white pixels, with
alpha 128 at pixel 0 and 255 at pixel 1, quantized with method
median_cut and n_colors = 2.  The returned masks are [[128, 0], [0,
255]]: at pixel 0 the alpha is nonzero (128) yet NO mask holds 255
there, because line 191 writes bitwise_and(255, 128) = 128 into the
owning mask.  This falsifies the claim that exactly one mask has value
255 wherever alpha is nonzero. -/
theorem C3_counterexample :
    (quantize medianCut [⟨0, 0, 0⟩, ⟨255, 255, 255⟩] (some [128, 255]) 2).masks
      = [[128, 0], [0, 255]] ∧
    (128 : ℕ) ≠ 0 ∧
    ∀ m ∈ (quantize medianCut [⟨0, 0, 0⟩, ⟨255, 255, 255⟩] (some [128, 255]) 2).masks,
      m.getD 0 0 ≠ 255 := by
  refine ⟨by decide, by decide, ?_⟩
  intro m hm
  rw [(by decide :
    (quantize medianCut [⟨0, 0, 0⟩, ⟨255, 255, 255⟩] (some [128, 255]) 2).masks
      = [[128, 0], [0, 255]])] at hm
  simp only [List.mem_cons, List.not_mem_nil, or_false] at hm
  rcases hm with rfl | rfl <;> decide

/-- C3 (amended): before alpha is applied the masks are binary {0, 255}
images and exactly one of them holds 255 at each pixel; after the
bitwise AND with alpha, a pixel with alpha 0 is 0 in every mask, and a
pixel with nonzero alpha has exactly one mask with a NONZERO value
(namely the alpha value itself, not necessarily 255). -/
theorem C3_masks_partition (paletteFn : List Px → ℕ → List Px)
    (pixels : List Px) (alpha : List ℕ) (nColors : ℤ)
    (hlen : alpha.length = pixels.length)
    (hbyte : ∀ a ∈ alpha, a < 256) (p : ℕ) (hp : p < pixels.length) :
    (∃! i, i < (quantize paletteFn pixels none nColors).masks.length ∧
      ((quantize paletteFn pixels none nColors).masks.getD i []).getD p 0 = 255) ∧
    (∀ i < (quantize paletteFn pixels none nColors).masks.length,
      ((quantize paletteFn pixels none nColors).masks.getD i []).getD p 0 = 0 ∨
      ((quantize paletteFn pixels none nColors).masks.getD i []).getD p 0 = 255) ∧
    (alpha.getD p 0 = 0 →
      ∀ i < (quantize paletteFn pixels (some alpha) nColors).masks.length,
        ((quantize paletteFn pixels (some alpha) nColors).masks.getD i []).getD p 0 = 0) ∧
    (alpha.getD p 0 ≠ 0 →
      ∃! i, i < (quantize paletteFn pixels (some alpha) nColors).masks.length ∧
        ((quantize paletteFn pixels (some alpha) nColors).masks.getD i []).getD p 0 ≠ 0) := by
  rw [quantize_eq_core, quantize_eq_core, quantizeCore_masks_none, quantizeCore_masks_some]
  set pal0 := paletteFn pixels (clampK nColors).toNat with hpal0
  obtain ⟨hlab, hlt⟩ := refined_label_lt pixels pal0 hp
  set pr := refinePalette pal0 (assignLabels pixels pal0) with hpr
  set l := pr.2.getD p 0 with hldef
  have hpplen : p < pr.2.length := by omega
  have halen : p < alpha.length := by omega
  have hone : ∀ i < pr.1.length,
      ((buildMasks pr.2 pr.1.length).getD i []).getD p 0 =
        if l = i then 255 else 0 := by
    intro i hi
    rw [buildMasks_val hi hpplen]
  have hval : ∀ i < pr.1.length,
      (((applyAlpha (buildMasks pr.2 pr.1.length) alpha).getD i []).getD p 0) =
        Nat.land (if l = i then 255 else 0) (alpha.getD p 0) := by
    intro i hi
    rw [applyAlpha_val (by rwa [buildMasks_length])
        (by rw [buildMasks_elem_length hi]; omega) halen, hone i hi]
  refine ⟨⟨l, ⟨?_, ?_⟩, ?_⟩, ?_, ?_, ?_⟩
  · rwa [buildMasks_length]
  · rw [hone l hlt, if_pos rfl]
  · rintro i ⟨hi1, hi2⟩
    rw [buildMasks_length] at hi1
    rw [hone i hi1] at hi2
    by_contra hne
    rw [if_neg (fun h => hne h.symm)] at hi2
    exact absurd hi2 (by decide)
  · intro i hi
    rw [buildMasks_length] at hi
    rw [hone i hi]
    split
    · right; rfl
    · left; rfl
  · intro ha0 i hi
    rw [applyAlpha_length, buildMasks_length] at hi
    rw [hval i hi, ha0]
    split <;> decide
  · intro hane
    have ha256 : alpha.getD p 0 < 256 := by
      apply hbyte
      rw [List.getD_eq_getElem _ _ halen]
      exact List.getElem_mem halen
    refine ⟨l, ⟨?_, ?_⟩, ?_⟩
    · rwa [applyAlpha_length, buildMasks_length]
    · rw [hval l hlt, if_pos rfl, land_255_of_lt _ ha256]
      exact hane
    · rintro i ⟨hi1, hi2⟩
      rw [applyAlpha_length, buildMasks_length] at hi1
      rw [hval i hi1] at hi2
      by_contra hne
      rw [if_neg (fun h => hne h.symm), land_zero_left] at hi2
      exact hi2 rfl

/-- Witness for C3_masks_partition: on the 1x2 black/white BGRA image
with alpha [128, 255], pixel 0 has nonzero alpha and exactly one mask
with a nonzero entry there. -/
theorem C3_masks_partition_witness :
    ∃! i, i < (quantize medianCut [⟨0, 0, 0⟩, ⟨255, 255, 255⟩] (some [128, 255]) 2).masks.length ∧
      ((quantize medianCut [⟨0, 0, 0⟩, ⟨255, 255, 255⟩] (some [128, 255]) 2).masks.getD i []).getD 0 0 ≠ 0 :=
  (C3_masks_partition medianCut [⟨0, 0, 0⟩, ⟨255, 255, 255⟩] [128, 255] 2
    (by decide) (by decide) 0 (by decide)).2.2.2 (by decide)

/-! ## Claim C4 -/

/-- C4 (counterexample): a 1x2 image of the nearly identical colors BGR
(0,0,0) and (5,0,0), quantized with median_cut and n_colors = 2.  Both
colors survive refinement (each covers 50 percent), the merge loop does
not run because the palette already has only 2 entries (the while
condition of line 267 requires len > 2), and the final palette retains
a pair at perceptual distance below 15 (d ~ 8.7). -/
theorem C4_counterexample :
    (quantize medianCut [⟨0, 0, 0⟩, ⟨5, 0, 0⟩] none 2).palette
      = [⟨0, 0, 0⟩, ⟨5, 0, 0⟩] ∧
    percepLt15 ⟨0, 0, 0⟩ ⟨5, 0, 0⟩ = true := by
  exact ⟨by decide, by decide⟩

/-- C4 (amended): whenever the final palette has MORE than two entries,
every pair of distinct entries is at perceptual distance at least 15;
the merge loop stops at two entries, so a two-entry palette may retain
a closer pair. -/
theorem C4_palette_separation (paletteFn : List Px → ℕ → List Px)
    (pixels : List Px) (alpha : Option (List ℕ)) (nColors : ℤ)
    (h3 : 2 < (quantize paletteFn pixels alpha nColors).palette.length) :
    ∀ i j, i < j → j < (quantize paletteFn pixels alpha nColors).palette.length →
      percepLt15 ((quantize paletteFn pixels alpha nColors).palette.getD i default)
        ((quantize paletteFn pixels alpha nColors).palette.getD j default) = false := by
  rw [quantize_eq_core] at h3 ⊢
  rw [quantizeCore_palette] at h3 ⊢
  exact refinePalette_no_close_pair _ _ h3

/-- Witness for C4_palette_separation: a 3-pixel image with three far
apart colors keeps a 3-entry palette, and its first two entries are
not within distance 15. -/
theorem C4_palette_separation_witness :
    2 < (quantize medianCut [⟨0, 0, 0⟩, ⟨255, 255, 255⟩, ⟨0, 0, 255⟩] none 3).palette.length ∧
    percepLt15
      ((quantize medianCut [⟨0, 0, 0⟩, ⟨255, 255, 255⟩, ⟨0, 0, 255⟩] none 3).palette.getD 0 default)
      ((quantize medianCut [⟨0, 0, 0⟩, ⟨255, 255, 255⟩, ⟨0, 0, 255⟩] none 3).palette.getD 1 default)
      = false :=
  ⟨by decide,
    C4_palette_separation medianCut [⟨0, 0, 0⟩, ⟨255, 255, 255⟩, ⟨0, 0, 255⟩] none 3
      (by decide) 0 1 (by decide) (by decide)⟩

/-! ## Claim C5 -/

/-- C5 (counterexample): statistics that fail all four decision rules -
here 100 sampled unique colors, edge density 0.06 and grayscale
standard deviation 50, values any mid-complexity textured image attains
- make _detect_mode return "auto", not "photo"; "auto" is also outside
the advertised codomain {photo, logo, line_art, pixel_art}. -/
theorem C5_counterexample :
    detectMode false 100 (6 / 100) 50 = "auto" ∧
    "auto" ≠ "photo" ∧
    "auto" ∉ ["photo", "logo", "line_art", "pixel_art"] := by
  refine ⟨?_, by decide, by decide⟩
  unfold detectMode
  norm_num

/-- C5 (amended): the residual case of _detect_mode returns "auto", and
engine.py line 131 stores that detector result into cfg unchanged, so
the value used downstream ranges over {photo, logo, line_art,
pixel_art, auto} - with "auto" (not "photo") on residual statistics. -/
theorem C5_residual_is_auto (u : ℕ) (e s : ℚ)
    (h1 : ¬(u < 64 ∧ e < 5 / 100)) (h2 : ¬ u < 16) (h3 : ¬ s < 30) (h4 : ¬ 1000 < u) :
    detectMode false u e s = "auto" ∧
    resolvedMode "auto" (detectMode false u e s) = detectMode false u e s ∧
    ∀ (sc : Bool) (u' : ℕ) (e' s' : ℚ),
      detectMode sc u' e' s' ∈ ["photo", "logo", "line_art", "pixel_art", "auto"] := by
  refine ⟨?_, by simp [resolvedMode], ?_⟩
  · simp [detectMode, h1, h2, h3, h4]
  · intro sc u' e' s'
    unfold detectMode
    split_ifs <;> simp

/-- Witness for C5_residual_is_auto at the concrete residual statistics
of the counterexample. -/
theorem C5_residual_is_auto_witness :
    detectMode false 100 (6 / 100) 50 = "auto" :=
  (C5_residual_is_auto 100 (6 / 100) 50 (by norm_num) (by norm_num) (by norm_num)
    (by norm_num)).1

/-! ## engine.py: settings dictionaries (lines 24-38, 115) -/

/-- A Python settings value: the settings bag mixes strings, integers
and booleans (engine.py lines 24-38). -/
inductive SVal where
  | s (v : String)
  | i (v : ℤ)
  | b (v : Bool)
deriving DecidableEq

/-- A Python dict with string keys, as an insertion-ordered
association list. -/
abbrev Dict := List (String × SVal)

def dictGet (d : Dict) (k : String) : Option SVal :=
  (d.find? fun kv => kv.1 = k).map fun kv => kv.2

/-- Python d[k] = v: replace in place when the key exists (position
kept), append otherwise. -/
def dictSet (d : Dict) (k : String) (v : SVal) : Dict :=
  if (d.find? fun kv => kv.1 = k).isSome then
    d.map fun kv => if kv.1 = k then (k, v) else kv
  else d ++ [(k, v)]

/-- Python {**a, **b}: keys of a in insertion order with values of b
winning, followed by the keys only in b. -/
def dictMerge (a b : Dict) : Dict :=
  (a.map fun kv =>
    match dictGet b kv.1 with
    | some v => (kv.1, v)
    | none => kv) ++
  b.filter fun kv => (dictGet a kv.1).isNone

/-- DEFAULT_SETTINGS (engine.py lines 24-38). -/
def defaultSettings : Dict :=
  [("mode", SVal.s "auto"), ("n_colors", SVal.i 16),
   ("quantize_method", SVal.s "kmeans"), ("detail", SVal.s "medium"),
   ("smooth", SVal.b true), ("upscale", SVal.b true), ("denoise", SVal.b true),
   ("bilateral", SVal.b true), ("clahe", SVal.b true), ("sharpen", SVal.b true),
   ("background", SVal.s "none"), ("optimize", SVal.b true),
   ("min_area", SVal.i 4)]

/-! ## engine.py: the vectorize orchestration (lines 87-223)

The pipeline stages themselves call OpenCV / PIL / sklearn; for the
control-flow claims (progress reporting, error containment) they are
oracles bundled in a record, with an Option result for the stages the
engine explicitly guards or re-raises (decode at line 233/248,
preprocess at lines 137-141, quantize at lines 177-183, optimize at
lines 205-210).  trace_layer and assemble_svg are pure string
computations over valid masks and are modelled total; the per-layer
try of lines 190-195 is defensive and no claim quantifies over it. -/

structure Stages (Img : Type) where
  decode : Option Img
  detected : String
  preprocess : Img → Option Img
  isSingleColor : Img → Bool
  singleColorHex : Img → String
  dims : Img → ℕ × ℕ
  quantizeSt : Img → ℤ → String → Option (Img × List String × List (List ℕ))
  traceLayer : List ℕ → String → String
  assembleSvg : List (String × String) → ℕ → ℕ → Dict → String
  optimizeSvg : String → Dict → Option String

/-- The result dict of vectorize (engine.py lines 216-223 and the fast
path at 171-172). -/
structure RunResult (Img : Type) where
  svg : String
  qimg : Img
  palette : List String
  masks : List (List ℕ)
  width : ℕ
  height : ℕ
deriving DecidableEq

/-- The image the quantizer receives: the preprocessed image, or the
raw decoded image when preprocessing raised (lines 137-141). -/
def procOf {Img : Type} (st : Stages Img) (img : Img) : Img :=
  match st.preprocess img with
  | some pimg => pimg
  | none => img

/-- cfg after merging defaults (line 115) and resolving mode auto
(lines 130-131). -/
def cfgOf {Img : Type} (st : Stages Img) (settings : Dict) : Dict :=
  let cfg0 := dictMerge defaultSettings settings
  if dictGet cfg0 "mode" = some (SVal.s "auto")
  then dictSet cfg0 "mode" (SVal.s st.detected) else cfg0

/-- cfg.get("n_colors", 16) (line 175). -/
def nColorsOf (cfg : Dict) : ℤ :=
  match dictGet cfg "n_colors" with
  | some (SVal.i v) => v
  | _ => 16

/-- cfg.get("quantize_method", "kmeans") (line 176). -/
def methodOf (cfg : Dict) : String :=
  match dictGet cfg "quantize_method" with
  | some (SVal.s v) => v
  | _ => "kmeans"

/-- cfg.get("optimize", True) (line 205). -/
def optimizeFlagOf (cfg : Dict) : Bool :=
  match dictGet cfg "optimize" with
  | some (SVal.b v) => v
  | _ => true

/-- The seven progress boundaries of a full successful run, with the
stage strings the code passes (lines 124, 134, 143, 185, 197, 202,
214). -/
def sevenEvents : List (ℕ × String) :=
  [(0, "loading"), (10, "preprocessing"), (30, "quantizing"), (55, "tracing"),
   (80, "assembling"), (90, "optimizing"), (100, "done")]

/-- The three progress boundaries the single-color fast path reaches
before returning at line 171. -/
def fastPathEvents : List (ℕ × String) :=
  [(0, "loading"), (10, "preprocessing"), (30, "quantizing")]

/-- Embeds VectorizationEngine.vectorize (engine.py lines 87-223):
the control flow, the progress invocations (returned as an event
trace: the callback itself is wrapped at lines 117-122 so that its
exceptions never matter), the error containment, and the single-color
fast path of lines 161-172. -/
def vectorizeRun {Img : Type} (st : Stages Img) (settings : Dict) :
    List (ℕ × String) × Except String (RunResult Img) :=
  let cfg := cfgOf st settings
  match st.decode with
  | none => ([(0, "loading")], Except.error "decode")
  | some img =>
    let processed := procOf st img
    let wh := st.dims processed
    if st.isSingleColor processed then
      let hexc := st.singleColorHex processed
      let fullMask := List.replicate (wh.2 * wh.1) 255
      let svg := st.assembleSvg [(hexc, st.traceLayer fullMask hexc)] wh.1 wh.2 cfg
      (fastPathEvents,
        Except.ok ⟨svg, processed, [hexc], [fullMask], wh.1, wh.2⟩)
    else
      match st.quantizeSt processed (nColorsOf cfg) (methodOf cfg) with
      | none => (fastPathEvents, Except.error "quantize")
      | some (qimg, palette, masks) =>
        let layers := (palette.zip masks).filterMap fun cm =>
          let pe := st.traceLayer cm.2 cm.1
          if pe = "" then none else some (cm.1, pe)
        let svgRaw := st.assembleSvg layers wh.1 wh.2 cfg
        let svgFinal :=
          if optimizeFlagOf cfg then
            match st.optimizeSvg svgRaw cfg with
            | some s2 => s2
            | none => svgRaw
          else svgRaw
        (sevenEvents, Except.ok ⟨svgFinal, qimg, palette, masks, wh.1, wh.2⟩)

/-! ## Claim C6 -/

/-- A stage instantiation realized by e.g. a 1x1 all-white PNG with
default settings: decode succeeds and the preprocessed image has a
single unique color, so the fast path of lines 161-172 returns early. -/
def singleColorStages : Stages Unit :=
  { decode := some ()
    detected := "logo"
    preprocess := fun _ => some ()
    isSingleColor := fun _ => true
    singleColorHex := fun _ => "#ffffff"
    dims := fun _ => (1, 1)
    quantizeSt := fun _ _ _ => some ((), ["#ffffff"], [[255]])
    traceLayer := fun _ _ => "<path/>"
    assembleSvg := fun _ _ _ _ => "<svg/>"
    optimizeSvg := fun s _ => some s }

/-- C6 (counterexample): a successful single-color run invokes the
progress callback only at (0, loading), (10, preprocessing),
(30, quantizing) and returns - not at the seven claimed boundaries. -/
theorem C6_counterexample :
    (vectorizeRun singleColorStages []).1 = fastPathEvents ∧
    (vectorizeRun singleColorStages []).2 =
      Except.ok ⟨"<svg/>", (), ["#ffffff"], [[255]], 1, 1⟩ ∧
    fastPathEvents ≠ sevenEvents := by
  refine ⟨by decide, by rfl, by decide⟩

/-- C6 (amended): a successful run that does not take the single-color
fast path reports exactly the seven boundaries (0, loading),
(10, preprocessing), (30, quantizing), (55, tracing), (80, assembling),
(90, optimizing), (100, done) in order; a successful single-color run
reports only the first three. -/
theorem C6_progress_events {Img : Type} (st : Stages Img) (settings : Dict) :
    (∀ img, st.decode = some img →
      st.isSingleColor (procOf st img) = false →
      ∀ q, st.quantizeSt (procOf st img) (nColorsOf (cfgOf st settings))
          (methodOf (cfgOf st settings)) = some q →
      (vectorizeRun st settings).1 = sevenEvents) ∧
    (∀ img, st.decode = some img →
      st.isSingleColor (procOf st img) = true →
      (vectorizeRun st settings).1 = fastPathEvents) := by
  constructor
  · intro img hdec hsc q hq
    simp only [vectorizeRun, hdec, hsc, Bool.false_eq_true, if_false, hq]
  · intro img hdec hsc
    simp only [vectorizeRun, hdec, hsc, if_true]

/-- A stage instantiation realized by e.g. a 2x1 black/white PNG with
default settings: the full pipeline runs to completion. -/
def fullRunStages : Stages Unit :=
  { decode := some ()
    detected := "logo"
    preprocess := fun _ => some ()
    isSingleColor := fun _ => false
    singleColorHex := fun _ => "#ffffff"
    dims := fun _ => (2, 1)
    quantizeSt := fun _ _ _ => some ((), ["#000000", "#ffffff"], [[255, 0], [0, 255]])
    traceLayer := fun _ _ => "<path/>"
    assembleSvg := fun _ _ _ _ => "<svg/>"
    optimizeSvg := fun s _ => some s }

/-- Witness for C6_progress_events: the concrete full run reports all
seven boundaries, the concrete single-color run only three. -/
theorem C6_progress_events_witness :
    (vectorizeRun fullRunStages []).1 = sevenEvents ∧
    (vectorizeRun singleColorStages []).1 = fastPathEvents :=
  ⟨(C6_progress_events fullRunStages []).1 () rfl rfl
      ((), ["#000000", "#ffffff"], [[255, 0], [0, 255]]) rfl,
    (C6_progress_events singleColorStages []).2 () rfl rfl⟩

/-! ## Claim C9 -/

/-- C9: a preprocessor failure is absorbed - the run is identical to a
run whose preprocessor is the identity (lines 137-141); an optimizer
failure is absorbed - the run is identical to a run whose optimizer
returns its input unchanged (lines 204-210); and an error escapes
vectorize only when the decoder failed or the quantizer failed
(lines 177-183, 229-248). -/
theorem C9_error_containment {Img : Type} (st : Stages Img) (settings : Dict) :
    (vectorizeRun { st with preprocess := fun _ => none } settings =
      vectorizeRun { st with preprocess := fun i => some i } settings) ∧
    (vectorizeRun { st with optimizeSvg := fun _ _ => none } settings =
      vectorizeRun { st with optimizeSvg := fun s _ => some s } settings) ∧
    (∀ e, (vectorizeRun st settings).2 = Except.error e →
      st.decode = none ∨
      ∃ img, st.decode = some img ∧
        st.quantizeSt (procOf st img) (nColorsOf (cfgOf st settings))
          (methodOf (cfgOf st settings)) = none) := by
  refine ⟨rfl, rfl, ?_⟩
  intro e herr
  cases hdec : st.decode with
  | none => exact Or.inl rfl
  | some img =>
    right
    refine ⟨img, rfl, ?_⟩
    simp only [vectorizeRun, hdec] at herr
    by_cases hsc : st.isSingleColor (procOf st img) = true
    · simp only [hsc, if_true] at herr
      simp at herr
    · have hsc' : st.isSingleColor (procOf st img) = false := by
        revert hsc; cases st.isSingleColor (procOf st img) <;> simp
      simp only [hsc', Bool.false_eq_true, if_false] at herr
      cases hq : st.quantizeSt (procOf st img) (nColorsOf (cfgOf st settings))
          (methodOf (cfgOf st settings)) with
      | none => rfl
      | some q =>
          rw [hq] at herr
          simp at herr

/-- A stage instantiation whose decoder fails: realized by handing
vectorize bytes no image decoder accepts. -/
def badBytesStages : Stages Unit :=
  { decode := none
    detected := "logo"
    preprocess := fun _ => some ()
    isSingleColor := fun _ => true
    singleColorHex := fun _ => "#ffffff"
    dims := fun _ => (1, 1)
    quantizeSt := fun _ _ _ => none
    traceLayer := fun _ _ => "<path/>"
    assembleSvg := fun _ _ _ _ => "<svg/>"
    optimizeSvg := fun s _ => some s }

/-- Witness for C9_error_containment: the error of the concrete
decoder-failure run is traced back to the decoder. -/
theorem C9_error_containment_witness :
    badBytesStages.decode = none ∨
    ∃ img, badBytesStages.decode = some img ∧
      badBytesStages.quantizeSt (procOf badBytesStages img)
        (nColorsOf (cfgOf badBytesStages [])) (methodOf (cfgOf badBytesStages [])) = none :=
  (C9_error_containment badBytesStages []).2.2 "decode" rfl

/-! ## Claim C10: the caller's settings dict is never mutated

Python dicts are mutable heap objects, so the frame property is stated
over an explicit store of dict objects addressed by references. -/

abbrev Ref := ℕ

abbrev Store := List (Ref × Dict)

def storeGet (σ : Store) (r : Ref) : Option Dict :=
  (σ.find? fun e => e.1 = r).map fun e => e.2

def storeSet (σ : Store) (r : Ref) (d : Dict) : Store :=
  σ.map fun e => if e.1 = r then (r, d) else e

/-- A reference unused by the store: allocation in CPython always
returns an object distinct from every live object. -/
def freshRef (σ : Store) : Ref := (σ.map fun e => e.1).foldr max 0 + 1

/-- Embeds every dict WRITE the body of VectorizationEngine.vectorize
performs on the heap (engine.py lines 115-131): line 115 builds
cfg = {**DEFAULT_SETTINGS, **settings}, a FRESH object holding a merged
copy, and line 131 stores the detected mode into cfg with
cfg["mode"] = ...; every later use of cfg or settings in vectorize and
in the stages it calls (preprocessor, quantizer, tracer, optimizer) is
a read (dict.get / subscript read), so the rest of the call leaves the
store untouched. -/
def vectorizeDictEffects (σ : Store) (settingsRef : Ref) (detected : String) :
    Store × Ref :=
  let sd := (storeGet σ settingsRef).getD []
  let cfg := dictMerge defaultSettings sd
  let r := freshRef σ
  let σ1 := (r, cfg) :: σ
  let σ2 :=
    if dictGet cfg "mode" = some (SVal.s "auto")
    then storeSet σ1 r (dictSet cfg "mode" (SVal.s detected))
    else σ1
  (σ2, r)

theorem mem_le_foldr_max {l : List ℕ} {x : ℕ} (h : x ∈ l) : x ≤ l.foldr max 0 := by
  induction l with
  | nil => cases h
  | cons y ys ih =>
      rcases List.mem_cons.1 h with rfl | h2
      · exact le_max_left _ _
      · exact le_trans (ih h2) (le_max_right _ _)

theorem storeGet_mem_refs {σ : Store} {r : Ref} {d : Dict} (h : storeGet σ r = some d) :
    r ∈ σ.map fun e => e.1 := by
  unfold storeGet at h
  cases hf : σ.find? fun e => e.1 = r with
  | none => rw [hf] at h; cases h
  | some e =>
      have hmem := List.mem_of_find?_eq_some hf
      have hp := List.find?_some hf
      have : e.1 = r := by simpa using hp
      subst this
      exact List.mem_map.2 ⟨e, hmem, rfl⟩

theorem storeGet_cons_ne {σ : Store} {r r' : Ref} {d : Dict} (hne : r ≠ r') :
    storeGet ((r', d) :: σ) r = storeGet σ r := by
  unfold storeGet
  rw [List.find?_cons_of_neg]
  simpa using fun h => hne h.symm

theorem storeGet_set_ne {σ : Store} {r r' : Ref} {d : Dict} (hne : r ≠ r') :
    storeGet (storeSet σ r' d) r = storeGet σ r := by
  induction σ with
  | nil => rfl
  | cons e σ ih =>
      simp only [storeSet, List.map_cons]
      by_cases he : e.1 = r'
      · rw [if_pos he]
        unfold storeGet
        rw [List.find?_cons_of_neg _ (by simpa using fun h => hne h.symm),
          List.find?_cons_of_neg _ (by simp [he]; exact fun h => hne h.symm)]
        exact ih
      · rw [if_neg he]
        unfold storeGet
        by_cases her : e.1 = r
        · rw [List.find?_cons_of_pos _ (by simpa using her),
            List.find?_cons_of_pos _ (by simpa using her)]
        · rw [List.find?_cons_of_neg _ (by simpa using her),
            List.find?_cons_of_neg _ (by simpa using her)]
          exact ih

/-- C10: vectorize never mutates the caller's settings dict: the merged
defaults and the resolved auto mode are written only to the freshly
allocated cfg object, so after the call the settings reference still
holds exactly the dict it held before. -/
theorem C10_settings_not_mutated (σ : Store) (ref : Ref) (detected : String) (d : Dict)
    (h : storeGet σ ref = some d) :
    storeGet (vectorizeDictEffects σ ref detected).1 ref = some d ∧
    (vectorizeDictEffects σ ref detected).2 ≠ ref := by
  have hle : ref ≤ (σ.map fun e => e.1).foldr max 0 :=
    mem_le_foldr_max (storeGet_mem_refs h)
  have hfresh : ref ≠ freshRef σ := by
    intro hc
    rw [hc] at hle
    exact Nat.not_succ_le_self _ hle
  constructor
  · unfold vectorizeDictEffects
    simp only []
    split
    · rw [storeGet_set_ne hfresh, storeGet_cons_ne hfresh]
      exact h
    · rw [storeGet_cons_ne hfresh]
      exact h
  · unfold vectorizeDictEffects
    simp only []
    exact fun hcontra => hfresh hcontra.symm

/-- Witness for C10_settings_not_mutated: a concrete one-dict store. -/
theorem C10_settings_not_mutated_witness :
    storeGet (vectorizeDictEffects [(1, [("n_colors", SVal.i 8)])] 1 "photo").1 1 =
      some [("n_colors", SVal.i 8)] :=
  (C10_settings_not_mutated [(1, [("n_colors", SVal.i 8)])] 1 "photo"
    [("n_colors", SVal.i 8)] rfl).1

/-! ## preprocessor.py (lines 27-236) -/

/-- The two interpolation modes the preprocessor selects between
(cv2.INTER_NEAREST for pixel_art at line 128, cv2.INTER_LANCZOS4
everywhere else, including the alpha resize at line 87). -/
inductive Interp where
  | nearest
  | lanczos4
deriving DecidableEq

/-- The adaptive parameter dict built by ImagePreprocessor._analyse
(lines 96-177).  Fractional source values (clahe_clip, sharpen_amount)
are stored scaled by 10 so every field stays integral. -/
structure PreParams where
  scale : ℕ
  interp : Interp
  denoise : Bool
  bilateral : Bool
  clahe : Bool
  sharpen : Bool
  hLum : ℕ
  bilateralD : ℕ
  bilateralSigma : ℕ
  claheClipX10 : ℕ
  sharpenAmountX10 : ℕ
deriving DecidableEq

/-- Embeds ImagePreprocessor._analyse (lines 96-177): upscale factor
from the longest side, then the mode-indexed parameter matrix.  The
two image statistics the photo/auto branch consults (Laplacian
variance, unique-gray ratio) are inputs. -/
def analyse (mode : String) (longest : ℕ) (laplacianVar uniqueRatio : ℚ) : PreParams :=
  let scale : ℕ :=
    if longest < 200 then 4 else if longest < 500 then 3
    else if longest < 1000 then 2 else 1
  if mode = "pixel_art" then
    ⟨scale, Interp.nearest, false, false, false, false, 5, 5, 50, 20, 5⟩
  else if mode = "line_art" then
    ⟨if 1 < scale then scale else 1, Interp.lanczos4, true, false, true, true,
      4, 7, 75, 30, 15⟩
  else if mode = "logo" then
    ⟨scale, Interp.lanczos4, true, true, true, true, 5, 9, 75, 20, 8⟩
  else
    ⟨scale, Interp.lanczos4,
      decide (500 < laplacianVar) || decide (mode = "photo"), true,
      decide (uniqueRatio < 3 / 10) || decide (mode = "photo"), true,
      if 500 < laplacianVar then 10 else 6, 9,
      if 500 < laplacianVar then 100 else 75, 20, 10⟩

/-- The color-plane operations of the preprocessor.  They wrap OpenCV
kernels, so they are oracles over an abstract color-image type; the
alpha plane stays a concrete list so its data flow is visible. -/
structure PreOracles (C : Type) where
  dimsOf : C → ℕ × ℕ
  resize : C → ℕ → Interp → C
  denoiseF : C → PreParams → C
  bilateralF : C → PreParams → C
  claheF : C → PreParams → C
  sharpenF : C → PreParams → C
  resizeAlpha : List ℕ → ℕ × ℕ → Interp → List ℕ

/-- settings.get(key, True) for the preprocessor toggles. -/
def dGetB (d : Dict) (k : String) : Bool :=
  match dictGet d k with
  | some (SVal.b v) => v
  | _ => true

/-- The params dict computed at line 62 for a given color input:
_analyse on the longest side and the two statistics. -/
def paramsOf {C : Type} (O : PreOracles C) (mode : String)
    (laplacianVar uniqueRatio : ℚ) (color : C) : PreParams :=
  analyse mode (max (O.dimsOf color).1 (O.dimsOf color).2) laplacianVar uniqueRatio

/-- The color planes after the optional upscale (lines 65-66 and
_upscale, lines 183-189: unchanged when scale <= 1, else resized with
params.interp). -/
def upscaled {C : Type} (O : PreOracles C) (settings : Dict) (params : PreParams)
    (color : C) : C :=
  if dGetB settings "upscale" then
    (if params.scale ≤ 1 then color else O.resize color params.scale params.interp)
  else color

/-- The denoise / bilateral / CLAHE / sharpen cascade on the color
planes (lines 68-82): each stage runs when both the settings toggle and
the analysed parameter enable it. -/
def colorChain {C : Type} (O : PreOracles C) (settings : Dict) (params : PreParams)
    (img1 : C) : C :=
  let img2 := if dGetB settings "denoise" && params.denoise then O.denoiseF img1 params else img1
  let img3 := if dGetB settings "bilateral" && params.bilateral then O.bilateralF img2 params else img2
  let img4 := if dGetB settings "clahe" && params.clahe then O.claheF img3 params else img3
  if dGetB settings "sharpen" && params.sharpen then O.sharpenF img4 params else img4

def preprocessRun {C : Type} (O : PreOracles C) (settings : Dict) (mode : String)
    (laplacianVar uniqueRatio : ℚ) (color : C) (alpha : Option (List ℕ)) :
    C × Option (List ℕ) :=
  let params := paramsOf O mode laplacianVar uniqueRatio color
  let img5 := colorChain O settings params (upscaled O settings params color)
  let alphaOut :=
    match alpha with
    | some a =>
        some (O.resizeAlpha a ((O.dimsOf img5).2, (O.dimsOf img5).1) Interp.lanczos4)
    | none => none
  (img5, alphaOut)

/-- Encoding of an interpolation flag as it would appear in a logged
alpha plane. -/
def interpCode (i : Interp) : ℕ :=
  match i with
  | Interp.nearest => 0
  | Interp.lanczos4 => 1

/-- An oracle instantiation over interpolation-logging images: each
resize appends the interpolation flag it was invoked with, so the
produced logs show which interpolation each plane actually got. -/
def logOracles : PreOracles (List Interp) :=
  { dimsOf := fun _ => (100, 100)
    resize := fun c _ i => c ++ [i]
    denoiseF := fun c _ => c
    bilateralF := fun c _ => c
    claheF := fun c _ => c
    sharpenF := fun c _ => c
    resizeAlpha := fun a _ i => a ++ [interpCode i] }

/-! ## Claim C8 -/

/-- C8 (counterexample): in pixel_art mode with upscaling (longest side
100 < 200, so scale 4), the color planes are resized with
INTER_NEAREST (line 128) but the alpha plane is resized with
INTER_LANCZOS4 (line 87): the interpolations differ, falsifying "same
interpolation as the color planes". -/
theorem C8_counterexample :
    (analyse "pixel_art" 100 0 0).interp = Interp.nearest ∧
    (preprocessRun logOracles [] "pixel_art" 0 0 [] (some [])).1 = [Interp.nearest] ∧
    (preprocessRun logOracles [] "pixel_art" 0 0 [] (some [])).2 =
      some [interpCode Interp.lanczos4] ∧
    Interp.nearest ≠ Interp.lanczos4 := by
  refine ⟨by decide, by decide, by decide, by decide⟩

/-- Dimension preservation of the filter cascade: each OpenCV kernel
the cascade wraps returns an image of its input size, so the cascade
does not change the color planes' dimensions. -/
theorem colorChain_dims {C : Type} (O : PreOracles C) (settings : Dict)
    (params : PreParams) (img1 : C)
    (hd : ∀ c p, O.dimsOf (O.denoiseF c p) = O.dimsOf c)
    (hb : ∀ c p, O.dimsOf (O.bilateralF c p) = O.dimsOf c)
    (hc : ∀ c p, O.dimsOf (O.claheF c p) = O.dimsOf c)
    (hs : ∀ c p, O.dimsOf (O.sharpenF c p) = O.dimsOf c) :
    O.dimsOf (colorChain O settings params img1) = O.dimsOf img1 := by
  simp only [colorChain]
  split <;> split <;> split <;> split <;> simp [hd, hb, hc, hs]

/-- The alpha plane produced by the preprocessor is exactly one
resizeAlpha call on the input alpha, targeted at the upscaled color
planes' dimensions and always with Lanczos interpolation: it is never
fed to any filter stage. -/
theorem preprocessRun_alpha {C : Type} (O : PreOracles C) (settings : Dict)
    (mode : String) (lv ur : ℚ) (color : C) (a : List ℕ)
    (hd : ∀ c p, O.dimsOf (O.denoiseF c p) = O.dimsOf c)
    (hb : ∀ c p, O.dimsOf (O.bilateralF c p) = O.dimsOf c)
    (hc : ∀ c p, O.dimsOf (O.claheF c p) = O.dimsOf c)
    (hs : ∀ c p, O.dimsOf (O.sharpenF c p) = O.dimsOf c) :
    (preprocessRun O settings mode lv ur color (some a)).2 =
      some (O.resizeAlpha a
        ((O.dimsOf (upscaled O settings (paramsOf O mode lv ur color) color)).2,
         (O.dimsOf (upscaled O settings (paramsOf O mode lv ur color) color)).1)
        Interp.lanczos4) := by
  simp only [preprocessRun]
  rw [colorChain_dims O settings _ _ hd hb hc hs]

/-- C8 (amended): the alpha plane is never passed through any color
stage: the output alpha is exactly one resizeAlpha call on the input
alpha, targeted at the color planes' output dimensions (same scale as
the color planes), ALWAYS with Lanczos interpolation - which matches
the color interpolation except in pixel_art mode, where color uses
nearest-neighbor (see the counterexample); replacing the four filter
kernels by arbitrary other size-preserving kernels leaves the alpha
output unchanged; and at quantizer exit each produced mask is the
bitwise AND of the binary mask with alpha. -/
theorem C8_alpha_never_filtered {C : Type} (O O2 : PreOracles C) (settings : Dict)
    (mode : String) (lv ur : ℚ) (color : C) (a : List ℕ)
    (hdims : O2.dimsOf = O.dimsOf) (hres : O2.resize = O.resize)
    (hra : O2.resizeAlpha = O.resizeAlpha)
    (hdn : ∀ c p, O.dimsOf (O.denoiseF c p) = O.dimsOf c)
    (hbl : ∀ c p, O.dimsOf (O.bilateralF c p) = O.dimsOf c)
    (hcl : ∀ c p, O.dimsOf (O.claheF c p) = O.dimsOf c)
    (hsh : ∀ c p, O.dimsOf (O.sharpenF c p) = O.dimsOf c)
    (hdn2 : ∀ c p, O2.dimsOf (O2.denoiseF c p) = O2.dimsOf c)
    (hbl2 : ∀ c p, O2.dimsOf (O2.bilateralF c p) = O2.dimsOf c)
    (hcl2 : ∀ c p, O2.dimsOf (O2.claheF c p) = O2.dimsOf c)
    (hsh2 : ∀ c p, O2.dimsOf (O2.sharpenF c p) = O2.dimsOf c) :
    (preprocessRun O settings mode lv ur color (some a)).2 =
      some (O.resizeAlpha a
        ((O.dimsOf (upscaled O settings (paramsOf O mode lv ur color) color)).2,
         (O.dimsOf (upscaled O settings (paramsOf O mode lv ur color) color)).1)
        Interp.lanczos4) ∧
    (preprocessRun O2 settings mode lv ur color (some a)).2 =
      (preprocessRun O settings mode lv ur color (some a)).2 ∧
    (∀ (pixels : List Px) (alpha2 : List ℕ) (pal0 : List Px),
      (quantizeCore pixels (some alpha2) pal0).masks =
        applyAlpha ((quantizeCore pixels none pal0).masks) alpha2) := by
  refine ⟨preprocessRun_alpha O settings mode lv ur color a hdn hbl hcl hsh,
    ?_, fun _ _ _ => rfl⟩
  rw [preprocessRun_alpha O settings mode lv ur color a hdn hbl hcl hsh,
    preprocessRun_alpha O2 settings mode lv ur color a hdn2 hbl2 hcl2 hsh2]
  simp only [upscaled, paramsOf, hdims, hres, hra]

/-- Witness for C8_alpha_never_filtered at the logging oracles (their
filters keep the constant dimensions, so every hypothesis holds). -/
theorem C8_alpha_never_filtered_witness :
    (preprocessRun logOracles [] "pixel_art" 0 0 [] (some [])).2 =
      some (logOracles.resizeAlpha []
        ((logOracles.dimsOf (upscaled logOracles []
            (paramsOf logOracles "pixel_art" 0 0 []) [])).2,
         (logOracles.dimsOf (upscaled logOracles []
            (paramsOf logOracles "pixel_art" 0 0 []) [])).1)
        Interp.lanczos4) :=
  (C8_alpha_never_filtered logOracles logOracles [] "pixel_art" 0 0 [] []
    rfl rfl rfl (fun _ _ => rfl) (fun _ _ => rfl) (fun _ _ => rfl) (fun _ _ => rfl)
    (fun _ _ => rfl) (fun _ _ => rfl) (fun _ _ => rfl) (fun _ _ => rfl)).1

/-! ## optimizer.py (lines 14-206)

SVGOptimizer.optimize_svg round-trips the SVG string through Python's
ElementTree.  The embedding covers the XML fragment this pipeline
actually emits and manipulates: elements with double-quoted attributes,
no text nodes, no character escaping, no namespace remapping (xmlns is
an ordinary attribute), ASCII whitespace.  Strings outside this
fragment simply fail the embedded parse, exactly as strings outside
what expat accepts fail ET.fromstring; all theorems quantify only over
the fragment (through the parse-success and clean-document
hypotheses) or over concrete strings inside it. -/

/-- Python str whitespace relevant here (ASCII): space, tab, newline,
carriage return, vertical tab, form feed. -/
def pyIsSpace (c : Char) : Bool :=
  c = ' ' || c = Char.ofNat 9 || c = Char.ofNat 10 || c = Char.ofNat 13 ||
  c = Char.ofNat 11 || c = Char.ofNat 12

mutual
/-- XML trees over the embedded fragment.  Children are a mutual
forest so that every function below is structural and kernel
reducible. -/
inductive XTree where
  | node (name : String) (attrs : List (String × String)) (children : XForest)
deriving DecidableEq
/-- A list of sibling elements (no text nodes in the fragment). -/
inductive XForest where
  | nil
  | cons (t : XTree) (ts : XForest)
deriving DecidableEq
end

/-- tag.split(CLOSE-BRACE)[-1] (optimizer.py lines 135, 166-167): the
segment after the last closing brace of an ElementTree tag.  The brace
characters are written numerically (ofNat 123 / 125). -/
def afterLastBrace (cs : List Char) : List Char :=
  (cs.foldl (fun acc c => if c = Char.ofNat 125 then [] else acc ++ [c]) [])

def localName (n : String) : String := ⟨afterLastBrace n.data⟩

/-- elem.get(key): first matching attribute. -/
def attrGet (attrs : List (String × String)) (k : String) : Option String :=
  (attrs.find? fun kv => kv.1 = k).map fun kv => kv.2

/-- elem.set(key, value): replace in place, else append. -/
def attrSet (attrs : List (String × String)) (k v : String) : List (String × String) :=
  if (attrs.find? fun kv => kv.1 = k).isSome then
    attrs.map fun kv => if kv.1 = k then (k, v) else kv
  else attrs ++ [(k, v)]

/-! ### Exact decimal numbers

optimizer.py rounds with Python floats; on the short decimal literals
the pipeline produces, float parse / round(x, 2) / shortest-repr
formatting are exact, so they are embedded as exact decimal
arithmetic: a sign, an integer part and the list of fraction digits.
Rounding to two decimals is to nearest with ties away from zero
(Python rounds ties of the underlying binary double to even; the two
differ only on values whose decimal is an exact multiple of 0.005,
which no theorem below exercises). -/

structure DecNum where
  neg : Bool
  ip : ℕ
  fr : List ℕ
deriving DecidableEq

/-- The magnitude in hundredths after rounding to two decimals. -/
def round2H (d : DecNum) : ℕ :=
  d.ip * 100 + d.fr.getD 0 0 * 10 + d.fr.getD 1 0 +
    (if 5 ≤ d.fr.getD 2 0 then 1 else 0)

def digitChar (n : ℕ) : Char := Char.ofNat (48 + n)

def isDigitCh (c : Char) : Bool := 48 ≤ c.toNat && c.toNat ≤ 57

def digitVal (c : Char) : ℕ := c.toNat - 48

/-- The value of a big-endian decimal digit string (int(s)). -/
def digitsVal (cs : List Char) : ℕ := cs.foldl (fun a c => a * 10 + digitVal c) 0

/-- Decimal digits of n, most significant first. -/
def natDigitsAux : ℕ → ℕ → List Char
  | 0, _ => []
  | fuel + 1, n => if n < 10 then [digitChar n] else
      natDigitsAux fuel (n / 10) ++ [digitChar (n % 10)]

def natDecimal (n : ℕ) : List Char := natDigitsAux (n + 1) n

/-- f"{x:.2f}" followed by rstrip("0").rstrip(".") - the _round_coords
formatting of optimizer.py lines 19-25, on a sign and a magnitude in
hundredths.  A negative value that rounds to zero renders as "-0",
exactly as in Python. -/
def fmt2strip (neg : Bool) (h : ℕ) : List Char :=
  let d1 := h / 10 % 10
  let d2 := h % 10
  let base := natDecimal (h / 100)
  let s :=
    if d2 ≠ 0 then base ++ ['.', digitChar d1, digitChar d2]
    else if d1 ≠ 0 then base ++ ['.', digitChar d1]
    else base
  if neg then '-' :: s else s

/-- str(round(x, 2)) for the attribute rounding of lines 118-125:
Python str of a float keeps at least one fraction digit. -/
def fmtStr2 (neg : Bool) (h : ℕ) : List Char :=
  let d1 := h / 10 % 10
  let d2 := h % 10
  let base := natDecimal (h / 100)
  let s :=
    if d2 ≠ 0 then base ++ ['.', digitChar d1, digitChar d2]
    else if d1 ≠ 0 then base ++ ['.', digitChar d1]
    else base ++ ['.', '0']
  if neg then '-' :: s else s

/-- f"{x:.2f}" with both digits kept (the viewBox formatting of line
192). -/
def fmtFixed2 (neg : Bool) (h : ℕ) : List Char :=
  let s := natDecimal (h / 100) ++ ['.', digitChar (h / 10 % 10), digitChar (h % 10)]
  if neg then '-' :: s else s

/-- The float() grammar fragment used on attribute values: optional
sign, digits with an optional fraction (no exponent, no whitespace, no
inf/nan - values outside this stay outside the clean fragment). -/
def pyFloatCore (s : List Char) (neg : Bool) : Option DecNum :=
  if s.takeWhile isDigitCh = [] then none
  else
    match s.dropWhile isDigitCh with
    | [] => some ⟨neg, digitsVal (s.takeWhile isDigitCh), []⟩
    | '.' :: rest2 =>
        if rest2.dropWhile isDigitCh = [] then
          some ⟨neg, digitsVal (s.takeWhile isDigitCh),
            (rest2.takeWhile isDigitCh).map digitVal⟩
        else none
    | _ => none

def pyFloatParse (cs : List Char) : Option DecNum :=
  match cs with
  | '-' :: rest => pyFloatCore rest true
  | '+' :: rest => pyFloatCore rest false
  | _ => pyFloatCore cs false

/-! ### The d-attribute tokenizer

_COORD_RE (line 14) matches -?digits(.digits?)? tokens (the exponent
alternative never fires on data without digit-adjacent e, which the
clean fragment excludes); everything between matches is copied
verbatim (lines 28-30). -/

def dTokGo (s : List Char) (neg : Bool) : DecNum × List Char :=
  match s.dropWhile isDigitCh with
  | '.' :: rest2 =>
      (⟨neg, digitsVal (s.takeWhile isDigitCh), (rest2.takeWhile isDigitCh).map digitVal⟩,
        rest2.dropWhile isDigitCh)
  | _ => (⟨neg, digitsVal (s.takeWhile isDigitCh), []⟩, s.dropWhile isDigitCh)

/-- One numeric token at the head: the matched (neg, ip, fr) and the
remaining characters.  Callers only invoke it when the head matches. -/
def dTokenTake (cs : List Char) : DecNum × List Char :=
  match cs with
  | '-' :: rest => dTokGo rest true
  | _ => dTokGo cs false

/-- Whether a numeric token starts at the head (digit, or minus
followed by a digit). -/
def dTokenStarts (cs : List Char) : Bool :=
  match cs with
  | c :: rest =>
      isDigitCh c ||
        (c = '-' && (match rest with
          | c2 :: _ => isDigitCh c2
          | [] => false))
  | [] => false

/-- _round_path_coords (lines 28-30): replace every numeric token by
its rounded, zero-stripped form; copy all other characters. -/
def roundDChars : ℕ → List Char → List Char
  | 0, s => s
  | fuel + 1, s =>
      match s with
      | [] => []
      | c :: rest =>
          if dTokenStarts (c :: rest) then
            let tr := dTokenTake (c :: rest)
            fmt2strip tr.1.neg (round2H tr.1) ++ roundDChars fuel tr.2
          else c :: roundDChars fuel rest

/-! ### The four tree transforms (flags all on) -/

/-- The numeric attributes rounded by _round_all_paths
(lines 118-119). -/
def numericAttrKeys : List String :=
  ["x", "y", "x1", "y1", "x2", "y2", "cx", "cy", "r", "rx", "ry", "width", "height"]

/-- One attribute under _round_all_paths (lines 111-125): the d
attribute through the path tokenizer, the listed numeric attributes
through str(round(float(v), 2)) with a ValueError leaving the value
unchanged, everything else untouched. -/
def roundAttr (kv : String × String) : String × String :=
  if kv.1 = "d" then (kv.1, ⟨roundDChars (kv.2.data.length + 1) kv.2.data⟩)
  else if kv.1 ∈ numericAttrKeys then
    match pyFloatParse kv.2.data with
    | some d => (kv.1, ⟨fmtStr2 d.neg (round2H d)⟩)
    | none => kv
  else kv

mutual
/-- _round_all_paths over the whole tree (root.iter() visits every
element). -/
def roundTree : XTree → XTree
  | .node n attrs c => .node n (attrs.map roundAttr) (roundForest c)
def roundForest : XForest → XForest
  | .nil => .nil
  | .cons t ts => .cons (roundTree t) (roundForest ts)
end

/-- Whether the attribute dict is empty apart from id
(lines 137-138). -/
def onlyIdAttrs (attrs : List (String × String)) : Bool :=
  (attrs.filter fun kv => kv.1 ≠ "id").isEmpty

def fappend : XForest → XForest → XForest
  | .nil, g => g
  | .cons t ts, g => .cons t (fappend ts g)

mutual
/-- _collapse_empty_groups (lines 127-152).  The source sweeps the
tree repeatedly until no unwrap happened; one bottom-up pass computes
the same fixed point: children are fully collapsed first, so splicing
a group's children introduces no further collapsible group at that
position, and a childless only-id group is dropped. -/
def collapseT : XTree → XTree
  | .node n attrs c => .node n attrs (collapseF c)
def collapseF : XForest → XForest
  | .nil => .nil
  | .cons t ts =>
      match collapseT t with
      | .node n attrs c =>
          if localName n == "g" && onlyIdAttrs attrs then fappend c (collapseF ts)
          else .cons (.node n attrs c) (collapseF ts)
end

/-- The merge condition of lines 169-174: both consecutive siblings
are path elements sharing an identical nonempty fill and identical
fill-rule. -/
def mergeableB (a b : XTree) : Bool :=
  match a, b with
  | .node na aa _, .node nb ab _ =>
      localName na == "path" && localName nb == "path" &&
      (attrGet aa "fill").getD "" == (attrGet ab "fill").getD "" &&
      (attrGet aa "fill-rule").getD "" == (attrGet ab "fill-rule").getD "" &&
      !((attrGet aa "fill").getD "" == "")

/-- str.strip() on ASCII whitespace. -/
def stripChars (s : List Char) : List Char :=
  ((s.dropWhile pyIsSpace).reverse.dropWhile pyIsSpace).reverse

/-- The merge action of lines 175-178: concatenate the d attributes
space-separated, strip, store into the first element, drop the
second. -/
def mergeTwo (a b : XTree) : XTree :=
  match a, b with
  | .node na aa ca, .node _ ab _ =>
      .node na
        (attrSet aa "d"
          ⟨stripChars (((attrGet aa "d").getD "").data ++ ' ' ::
            ((attrGet ab "d").getD "").data)⟩) ca

def flen : XForest → ℕ
  | .nil => 0
  | .cons _ ts => 1 + flen ts

/-- The sibling walk of lines 161-181: after a merge the same position
is re-checked; every merge shortens the list, so fuel = length
suffices. -/
def mergeRun : ℕ → XForest → XForest
  | 0, f => f
  | fuel + 1, f =>
      match f with
      | .cons a (.cons b rest) =>
          if mergeableB a b then mergeRun fuel (.cons (mergeTwo a b) rest)
          else .cons a (mergeRun fuel (.cons b rest))
      | other => other

mutual
/-- _merge_same_fill_paths (lines 154-181) over the whole tree: the
children of every element are walked; merging only deletes path
elements and only rewrites their d attribute, so the source's pre-order
sweep and this recursion compute the same result. -/
def mergeT : XTree → XTree
  | .node n attrs c =>
      .node n attrs (mergeRun (flen (mergeF c)) (mergeF c))
def mergeF : XForest → XForest
  | .nil => .nil
  | .cons t ts => .cons (mergeT t) (mergeF ts)
end

/-- _optimize_viewbox (lines 183-194): when the root has width and
height but no viewBox, add viewBox = "0 0 w.2f h.2f"; a float parse
failure leaves the tree unchanged. -/
def viewboxFix (t : XTree) : XTree :=
  match t with
  | .node n attrs c =>
      match attrGet attrs "width", attrGet attrs "height", attrGet attrs "viewBox" with
      | some w, some h, none =>
          match pyFloatParse w.data, pyFloatParse h.data with
          | some dw, some dh =>
              .node n
                (attrSet attrs "viewBox"
                  ⟨'0' :: ' ' :: '0' :: ' ' :: fmtFixed2 dw.neg (round2H dw) ++
                    ' ' :: fmtFixed2 dh.neg (round2H dh)⟩) c
          | _, _ => t
      | _, _, _ => t

/-! ### Serialization (ET.tostring, line 97) -/

def attrsChars (attrs : List (String × String)) : List Char :=
  attrs.flatMap fun kv => ' ' :: (kv.1.data ++ '=' :: '"' :: kv.2.data ++ ['"'])

mutual
/-- ET.tostring on the fragment: attributes in order, self-closing
elements as "name />", children juxtaposed without whitespace. -/
def serializeT : XTree → List Char
  | .node n attrs c =>
      match c with
      | .nil => '<' :: (n.data ++ attrsChars attrs ++ [' ', '/', '>'])
      | .cons t ts =>
          '<' :: (n.data ++ attrsChars attrs ++ '>' ::
            (serializeF (.cons t ts) ++ ('<' :: '/' :: n.data ++ ['>'])))
def serializeF : XForest → List Char
  | .nil => []
  | .cons t ts => serializeT t ++ serializeF ts
end

/-! ### Parsing (ET.fromstring / expat, lines 68-76, restricted to the
fragment) -/

def nameChar (c : Char) : Bool :=
  isDigitCh c || (65 ≤ c.toNat && c.toNat ≤ 90) || (97 ≤ c.toNat && c.toNat ≤ 122) ||
  c = '-' || c = '_' || c = ':' || c = '.'

def parseNameCs (cs : List Char) : Option (String × List Char) :=
  let nm := cs.takeWhile nameChar
  if nm = [] then none else some (⟨nm⟩, cs.dropWhile nameChar)

def skipWsCs (cs : List Char) : List Char := cs.dropWhile pyIsSpace

def parseAttrsCs : ℕ → List Char → Option (List (String × String) × List Char)
  | 0, _ => none
  | fuel + 1, cs =>
      let s := skipWsCs cs
      match s with
      | '/' :: _ => some ([], s)
      | '>' :: _ => some ([], s)
      | _ =>
          match parseNameCs s with
          | none => none
          | some (k, rest) =>
              match rest with
              | '=' :: '"' :: rest2 =>
                  let v := rest2.takeWhile fun c => c ≠ '"'
                  match rest2.dropWhile (fun c => c ≠ '"') with
                  | '"' :: rest3 =>
                      match parseAttrsCs fuel rest3 with
                      | some (attrs, rest4) => some ((k, ⟨v⟩) :: attrs, rest4)
                      | none => none
                  | _ => none
              | _ => none

mutual
/-- One element: name, attributes, then either a self-closing tag or
children followed by a matching close tag. -/
def parseElemCs : ℕ → List Char → Option (XTree × List Char)
  | 0, _ => none
  | fuel + 1, cs =>
      match cs with
      | '<' :: rest =>
          match parseNameCs rest with
          | none => none
          | some (n, rest2) =>
              match parseAttrsCs (fuel + 1) rest2 with
              | none => none
              | some (attrs, rest3) =>
                  match rest3 with
                  | '/' :: '>' :: rest4 => some (.node n attrs .nil, rest4)
                  | '>' :: rest4 =>
                      match parseForestCs fuel rest4 with
                      | none => none
                      | some (c, rest5) =>
                          match rest5 with
                          | '<' :: '/' :: rest6 =>
                              match parseNameCs rest6 with
                              | some (n2, rest7) =>
                                  if n2 = n then
                                    match skipWsCs rest7 with
                                    | '>' :: rest8 => some (.node n attrs c, rest8)
                                    | _ => none
                                  else none
                              | none => none
                          | _ => none
                  | _ => none
      | _ => none
/-- Sibling elements separated by whitespace, stopping before a close
tag or at the end; any text content is outside the fragment and
fails. -/
def parseForestCs : ℕ → List Char → Option (XForest × List Char)
  | 0, _ => none
  | fuel + 1, cs =>
      match skipWsCs cs with
      | '<' :: '/' :: rest => some (.nil, '<' :: '/' :: rest)
      | '<' :: rest =>
          match parseElemCs fuel ('<' :: rest) with
          | none => none
          | some (t, rest2) =>
              match parseForestCs fuel rest2 with
              | some (ts, rest3) => some (.cons t ts, rest3)
              | none => none
      | [] => some (.nil, [])
      | _ => none
end

def hasPrefixCs : List Char → List Char → Bool
  | [], _ => true
  | _ :: _, [] => false
  | p :: ps, c :: cs => p = c && hasPrefixCs ps cs

/-- Skip past the first "?>" of an XML declaration. -/
def dropThroughQgt : ℕ → List Char → Option (List Char)
  | 0, _ => none
  | fuel + 1, cs =>
      match cs with
      | '?' :: '>' :: rest => some rest
      | _ :: rest => dropThroughQgt fuel rest
      | [] => none

/-- ET.fromstring on the fragment: an XML declaration is accepted only
at the very start of the entity (expat raises "XML or text declaration
not at start of entity" otherwise, which is how a leading newline
before the declaration makes the whole parse fail); then one root
element and trailing whitespace. -/
def parseDocCs (cs : List Char) : Option XTree :=
  let body :=
    if hasPrefixCs "<?xml ".data cs then dropThroughQgt cs.length cs
    else if hasPrefixCs "<?".data (skipWsCs cs) then none
    else some cs
  match body with
  | none => none
  | some b =>
      match parseElemCs (2 * b.length + 4) (skipWsCs b) with
      | some (t, rest) => if skipWsCs rest = [] then some t else none
      | none => none

/-! ### Minification (_minify, lines 196-206) -/

def isCtlWs (c : Char) : Bool :=
  c = Char.ofNat 10 || c = Char.ofNat 13 || c = Char.ofNat 9

/-- replace("newline"/"return"/"tab", " ") (line 199). -/
def rmCtl (s : List Char) : List Char :=
  s.map fun c => if isCtlWs c then ' ' else c

def cwGo : Bool → List Char → List Char
  | _, [] => []
  | prevSp, c :: rest =>
      if pyIsSpace c then
        (if prevSp then cwGo true rest else ' ' :: cwGo true rest)
      else c :: cwGo false rest

/-- The whitespace-run collapse regex (line 201): every maximal
whitespace run becomes one space. -/
def collapseWs (s : List Char) : List Char := cwGo false s

def dsnGo (t : Char) : Option Char → List Char → List Char
  | _, [] => []
  | prev, c :: rest =>
      if c = ' ' && (prev = some t || rest.head? = some t) then dsnGo t (some c) rest
      else c :: dsnGo t (some c) rest

/-- The three punctuation regexes of lines 203-205 on a run-collapsed
string: a space is deleted exactly when it is adjacent to the target
character. -/
def dropSpacesNear (t : Char) (s : List Char) : List Char := dsnGo t none s

def minifyChars (s : List Char) : List Char :=
  stripChars (dropSpacesNear '='
    (dropSpacesNear '<' (dropSpacesNear '>' (collapseWs (rmCtl s)))))

/-- Skip past the first "-->". -/
def dropThroughDashGt : ℕ → List Char → Option (List Char)
  | 0, _ => none
  | fuel + 1, cs =>
      match cs with
      | '-' :: '-' :: '>' :: rest => some rest
      | _ :: rest => dropThroughDashGt fuel rest
      | [] => none

/-- The comment-strip regex of lines 16, 64-65: every non-overlapping
comment from its first opener to the next closer is deleted;
an unclosed opener has no closer anywhere after it and stays. -/
def stripCommentsCs : ℕ → List Char → List Char
  | 0, s => s
  | fuel + 1, s =>
      match s with
      | '<' :: '!' :: '-' :: '-' :: rest =>
          match dropThroughDashGt rest.length rest with
          | some rest2 => stripCommentsCs fuel rest2
          | none => '<' :: '!' :: '-' :: '-' :: rest
      | c :: rest => c :: stripCommentsCs fuel rest
      | [] => []

/-- The XML declaration re-added at line 99. -/
def xmlDecl : List Char := "<?xml version=\"1.0\" encoding=\"UTF-8\"?>".data

/-- Embeds SVGOptimizer.optimize_svg (lines 40-105) with every flag at
its default True, the configuration all claims are about: strip
comments, parse (falling back to whitespace-collapse + strip when the
parse fails, lines 72-76), round coordinates, collapse groups, merge
same-fill paths, fix the viewBox, serialize behind a fresh XML
declaration, and minify. -/
def optimizeSvg (svg : String) : String :=
  if svg = "" then svg
  else
    let s1 := stripCommentsCs svg.data.length svg.data
    match parseDocCs s1 with
    | none => ⟨stripChars (collapseWs s1)⟩
    | some t =>
        let t4 := viewboxFix (mergeT (collapseT (roundTree t)))
        ⟨minifyChars (xmlDecl ++ '\n' :: serializeT t4)⟩

/-! ## Claim C7: counterexample -/

/-- C7 (counterexample): optimize_svg is NOT idempotent on every SVG
string.  On a document whose XML declaration is preceded by a newline,
the first pass fails to parse (expat requires the declaration at the
start of the entity) and returns the whitespace-collapsed, stripped
string; that string parses, so the second pass rewrites it (new
declaration, re-serialized root).  The two outputs differ. -/
theorem C7_counterexample :
    optimizeSvg "\n<?xml version=\"1.0\"?><svg/>" = "<?xml version=\"1.0\"?><svg/>" ∧
    optimizeSvg (optimizeSvg "\n<?xml version=\"1.0\"?><svg/>") =
      "<?xml version=\"1.0\" encoding=\"UTF-8\"?><svg />" ∧
    optimizeSvg (optimizeSvg "\n<?xml version=\"1.0\"?><svg/>") ≠
      optimizeSvg "\n<?xml version=\"1.0\"?><svg/>" := by
  refine ⟨by decide, by decide, by decide⟩

/-! ## Digit and token lemmas for the round transform -/

theorem digitChar_digit {n : ℕ} (h : n < 10) : isDigitCh (digitChar n) = true := by
  interval_cases n <;> decide

theorem digitVal_digitChar {n : ℕ} (h : n < 10) : digitVal (digitChar n) = n := by
  interval_cases n <;> decide


theorem digitsVal_go (cs : List Char) : ∀ a : ℕ,
    cs.foldl (fun a c => a * 10 + digitVal c) a = a * 10 ^ cs.length + digitsVal cs := by
  induction cs with
  | nil => intro a; simp [digitsVal]
  | cons c rest ih =>
      intro a
      simp only [List.foldl_cons, digitsVal, List.length_cons]
      rw [ih (a * 10 + digitVal c), ih (0 * 10 + digitVal c)]
      ring

theorem digitsVal_append (xs : List Char) (c : Char) :
    digitsVal (xs ++ [c]) = digitsVal xs * 10 + digitVal c := by
  unfold digitsVal
  rw [List.foldl_append]
  simp

theorem natDigitsAux_digits : ∀ (fuel n : ℕ), ∀ c ∈ natDigitsAux fuel n, isDigitCh c = true := by
  intro fuel
  induction fuel with
  | zero => intro n c hc; cases hc
  | succ fuel ih =>
      intro n c hc
      simp only [natDigitsAux] at hc
      split at hc
      · next h =>
          rcases List.mem_singleton.1 hc with rfl
          exact digitChar_digit h
      · rcases List.mem_append.1 hc with h2 | h2
        · exact ih _ c h2
        · rcases List.mem_singleton.1 h2 with rfl
          exact digitChar_digit (Nat.mod_lt _ (by omega))

theorem natDigitsAux_val : ∀ (fuel n : ℕ), n < 10 ^ fuel →
    digitsVal (natDigitsAux fuel n) = n := by
  intro fuel
  induction fuel with
  | zero => intro n h; interval_cases n; rfl
  | succ fuel ih =>
      intro n h
      simp only [natDigitsAux]
      split
      · next h10 =>
          simp [digitsVal, digitVal_digitChar h10]
      · next h10 =>
          have hdiv : n / 10 < 10 ^ fuel := by
            have hps : 10 ^ (fuel + 1) = 10 ^ fuel * 10 := Nat.pow_succ 10 fuel
            omega
          rw [digitsVal_append, ih (n / 10) hdiv,
            digitVal_digitChar (Nat.mod_lt _ (by omega))]
          omega

theorem natDecimal_digits (n : ℕ) : ∀ c ∈ natDecimal n, isDigitCh c = true :=
  natDigitsAux_digits (n + 1) n

theorem natDecimal_val (n : ℕ) : digitsVal (natDecimal n) = n := by
  apply natDigitsAux_val
  calc n < 10 ^ n := Nat.lt_pow_self (by omega) n
    _ ≤ 10 ^ (n + 1) := Nat.pow_le_pow_right (by omega) (by omega)

theorem natDecimal_ne_nil (n : ℕ) : natDecimal n ≠ [] := by
  unfold natDecimal natDigitsAux
  split
  · simp
  · next h =>
      intro hcontra
      exact absurd (List.append_eq_nil.1 hcontra).2 (by simp)

/-! ### takeWhile / dropWhile over appends -/

/-- The head of cs, when present, fails p. -/
def headNot (p : Char → Bool) (cs : List Char) : Prop :=
  ∀ c, cs.head? = some c → p c = false

theorem takeWhile_append_all {p : Char → Bool} {xs rest : List Char}
    (hx : ∀ c ∈ xs, p c = true) (hr : headNot p rest) :
    (xs ++ rest).takeWhile p = xs := by
  induction xs with
  | nil =>
      simp only [List.nil_append]
      cases rest with
      | nil => rfl
      | cons c cs =>
          simp [List.takeWhile, hr c rfl]
  | cons x xs ih =>
      simp only [List.cons_append, List.takeWhile]
      rw [hx x (List.mem_cons_self _ _)]
      rw [List.append_eq, ih fun c hc => hx c (List.mem_cons_of_mem _ hc)]

theorem dropWhile_append_all {p : Char → Bool} {xs rest : List Char}
    (hx : ∀ c ∈ xs, p c = true) (hr : headNot p rest) :
    (xs ++ rest).dropWhile p = rest := by
  induction xs with
  | nil =>
      simp only [List.nil_append]
      cases rest with
      | nil => rfl
      | cons c cs =>
          simp [List.dropWhile, hr c rfl]
  | cons x xs ih =>
      simp only [List.cons_append, List.dropWhile]
      rw [hx x (List.mem_cons_self _ _)]
      rw [List.append_eq, ih fun c hc => hx c (List.mem_cons_of_mem _ hc)]

/-! ### Reparsing a rounded token -/

/-- The fraction digits of fmt2strip applied to h hundredths. -/
def fmtFr (h : ℕ) : List ℕ :=
  if h % 10 ≠ 0 then [h / 10 % 10, h % 10]
  else if h / 10 % 10 ≠ 0 then [h / 10 % 10] else []

theorem round2H_fmtFr (neg : Bool) (h : ℕ) :
    round2H ⟨neg, h / 100, fmtFr h⟩ = h := by
  have hdd : h / 10 / 10 = h / 100 := Nat.div_div_eq_div_mul h 10 10
  unfold round2H fmtFr
  split
  · simp only [List.getD_cons_zero, List.getD_cons_succ, List.getD_nil,
      Nat.le_zero, OfNat.ofNat_ne_zero, if_false]
    omega
  · split
    · simp only [List.getD_cons_zero, List.getD_cons_succ, List.getD_nil,
        Nat.le_zero, OfNat.ofNat_ne_zero, if_false]
      omega
    · simp only [List.getD_nil, Nat.le_zero, OfNat.ofNat_ne_zero, if_false]
      omega

theorem fmtFr_lt (h : ℕ) : ∀ d ∈ fmtFr h, d < 10 := by
  unfold fmtFr
  split
  · intro d hd
    rcases List.mem_cons.1 hd with rfl | hd2
    · omega
    · rcases List.mem_singleton.1 hd2 with rfl
      omega
  · split
    · intro d hd
      rcases List.mem_singleton.1 hd with rfl
      omega
    · intro d hd
      cases hd

theorem map_digitVal_digitChar {l : List ℕ} (hl : ∀ d ∈ l, d < 10) :
    (l.map digitChar).map digitVal = l := by
  induction l with
  | nil => rfl
  | cons d ds ih =>
      simp only [List.map_cons, List.cons.injEq]
      exact ⟨digitVal_digitChar (hl d (List.mem_cons_self _ _)),
        ih fun x hx => hl x (List.mem_cons_of_mem _ hx)⟩

theorem dTokGo_shape_dot (ipd frd : List Char) (neg : Bool) (rest : List Char)
    (hipd : ∀ c ∈ ipd, isDigitCh c = true) (hfrd : ∀ c ∈ frd, isDigitCh c = true)
    (hrd : headNot isDigitCh rest) :
    dTokGo ((ipd ++ '.' :: frd) ++ rest) neg =
      (⟨neg, digitsVal ipd, frd.map digitVal⟩, rest) := by
  unfold dTokGo
  rw [List.append_assoc, List.cons_append,
    dropWhile_append_all hipd (fun c hc => by cases hc; rfl),
    takeWhile_append_all hipd (fun c hc => by cases hc; rfl)]
  simp only []
  rw [takeWhile_append_all hfrd hrd, dropWhile_append_all hfrd hrd]

theorem dTokGo_shape_nodot (ipd : List Char) (neg : Bool) (rest : List Char)
    (hipd : ∀ c ∈ ipd, isDigitCh c = true)
    (hrd : headNot isDigitCh rest) (hrdot : rest.head? ≠ some '.') :
    dTokGo (ipd ++ rest) neg = (⟨neg, digitsVal ipd, []⟩, rest) := by
  unfold dTokGo
  rw [dropWhile_append_all hipd hrd, takeWhile_append_all hipd hrd]
  cases rest with
  | nil => simp
  | cons c rl =>
      have hc : c ≠ '.' := fun hce => hrdot (by rw [hce]; rfl)
      split
      · next rest2 heq =>
          injection heq with h1 h2
          exact absurd h1 hc
      · rfl

/-- The fraction part rendered after the dot, if any. -/
def dotPartOf (hasDot : Bool) (frd : List Char) : List Char :=
  if hasDot then '.' :: frd else []

theorem dTokenTake_shape (ipd frd : List Char) (hasDot : Bool) (neg : Bool)
    (rest : List Char) (hne : ipd ≠ [])
    (hipd : ∀ c ∈ ipd, isDigitCh c = true) (hfrd : ∀ c ∈ frd, isDigitCh c = true)
    (hrd : headNot isDigitCh rest) (hrdot : rest.head? ≠ some '.')
    (hnd : hasDot = false → frd = []) :
    dTokenTake (((if neg then ['-'] else []) ++ (ipd ++ dotPartOf hasDot frd)) ++ rest) =
      (⟨neg, digitsVal ipd, frd.map digitVal⟩, rest) ∧
    dTokenStarts (((if neg then ['-'] else []) ++ (ipd ++ dotPartOf hasDot frd)) ++ rest)
      = true := by
  obtain ⟨d0, dtl, rfl⟩ : ∃ d0 dtl, ipd = d0 :: dtl := by
    cases ipd with
    | nil => exact absurd rfl hne
    | cons x xs => exact ⟨x, xs, rfl⟩
  have hd0 : isDigitCh d0 = true := hipd d0 (List.mem_cons_self _ _)
  have hd0m : d0 ≠ '-' := by
    intro hcontra
    rw [hcontra] at hd0
    exact absurd hd0 (by decide)
  have hgo : ∀ b, dTokGo (((d0 :: dtl) ++ dotPartOf hasDot frd) ++ rest) b =
      (⟨b, digitsVal (d0 :: dtl), frd.map digitVal⟩, rest) := by
    intro b
    cases hasDot with
    | true => exact dTokGo_shape_dot _ _ _ _ hipd hfrd hrd
    | false =>
        rw [hnd rfl]
        have h2 := dTokGo_shape_nodot (d0 :: dtl) b rest hipd hrd hrdot
        simpa [dotPartOf] using h2
  cases neg with
  | true =>
      constructor
      · show dTokenTake ('-' :: (((d0 :: dtl) ++ dotPartOf hasDot frd) ++ rest)) = _
        unfold dTokenTake
        exact hgo true
      · show dTokenStarts ('-' :: (d0 :: (dtl ++ dotPartOf hasDot frd ++ rest))) = true
        simp [dTokenStarts, hd0]
  | false =>
      constructor
      · show dTokenTake (d0 :: (dtl ++ dotPartOf hasDot frd ++ rest)) = _
        unfold dTokenTake
        split
        · next heq =>
            injection heq with h1 h2
            exact absurd h1 hd0m
        · have := hgo false
          simpa [List.append_assoc] using this
      · show dTokenStarts (d0 :: (dtl ++ dotPartOf hasDot frd ++ rest)) = true
        simp [dTokenStarts, hd0]

/-! ### The word model for clean path data

A clean d value is a single-space-separated sequence of words, each
word either one complete numeric token or characters the tokenizer
copies verbatim.  _round_path_coords maps such a value wordwise. -/

/-- One complete numeric token and nothing else: a nonempty digit run,
optionally a dot followed by digits only. -/
def numCore (s : List Char) : Bool :=
  !(s.takeWhile isDigitCh).isEmpty &&
    (match s.dropWhile isDigitCh with
     | [] => true
     | '.' :: fr => fr.all isDigitCh
     | _ => false)

/-- A word that is exactly one numeric token (optional leading minus). -/
def numShape (w : List Char) : Bool :=
  match w with
  | '-' :: rest => numCore rest
  | _ => numCore w

/-- The rounding of one word: a numeric token is replaced by its
rounded, zero-stripped form, any other word is copied. -/
def roundWord (w : List Char) : List Char :=
  if numShape w then
    fmt2strip (dTokenTake w).1.neg (round2H (dTokenTake w).1)
  else w

/-- Characters allowed inside a clean attribute value: not a quote,
not markup, not a comment or entity character, and the only
whitespace is a plain space. -/
def valOkChar (c : Char) : Bool :=
  !isCtlWs c && (!pyIsSpace c || c = ' ') && c ≠ '"' && c ≠ '<' && c ≠ '>' &&
    c ≠ '=' && c ≠ '!' && c ≠ '&'

/-- A word character that can never start or join a numeric token. -/
def plainChar (c : Char) : Bool :=
  valOkChar c && !isDigitCh c && c ≠ '-' && c ≠ '.' && c ≠ ' '

/-- Scan of a clean value: every character allowed and no two
adjacent spaces (the first argument is the preceding character). -/
def cleanValGo : Option Char → List Char → Bool
  | _, [] => true
  | p, c :: rest =>
      (valOkChar c && !(c = ' ' && p = some ' ')) && cleanValGo (some c) rest

def cleanVal (v : String) : Bool := cleanValGo none v.data

def splitSpGo : List Char → List Char → List (List Char)
  | acc, [] => [acc.reverse]
  | acc, c :: rest =>
      if c = ' ' then acc.reverse :: splitSpGo [] rest
      else splitSpGo (c :: acc) rest

/-- value.split(" "): the space-separated fields, empty fields kept. -/
def splitSp (s : List Char) : List (List Char) := splitSpGo [] s

def joinSpTail : List (List Char) → List Char
  | [] => []
  | w :: ws => ' ' :: (w ++ joinSpTail ws)

/-- " ".join of a word list. -/
def joinSp : List (List Char) → List Char
  | [] => []
  | w :: ws => w ++ joinSpTail ws

/-- Every word is nonempty and either one numeric token or all plain
characters. -/
def wordsOk (ws : List (List Char)) : Bool :=
  ws.all fun w => !w.isEmpty && (numShape w || w.all plainChar)

theorem splitSpGo_join : ∀ (s acc : List Char),
    joinSp (splitSpGo acc s) = acc.reverse ++ s ∧
    joinSpTail (splitSpGo acc s) = ' ' :: (acc.reverse ++ s) := by
  intro s
  induction s with
  | nil => intro acc; simp [splitSpGo, joinSp, joinSpTail]
  | cons c rest ih =>
      intro acc
      simp only [splitSpGo]
      split
      · next hc =>
          subst hc
          constructor
          · show acc.reverse ++ joinSpTail (splitSpGo [] rest) = _
            rw [(ih []).2]
            simp
          · show ' ' :: (acc.reverse ++ joinSpTail (splitSpGo [] rest)) = _
            rw [(ih []).2]
            simp
      · rw [(ih (c :: acc)).1, (ih (c :: acc)).2]
        simp

theorem joinSp_splitSp (s : List Char) : joinSp (splitSp s) = s :=
  (splitSpGo_join s []).1

/-! ### Rounded tokens reparse to themselves -/

theorem fmt2strip_eq (neg : Bool) (h : ℕ) :
    fmt2strip neg h = (if neg then ['-'] else []) ++
      (natDecimal (h / 100) ++
        dotPartOf (!(fmtFr h).isEmpty) ((fmtFr h).map digitChar)) := by
  unfold fmt2strip fmtFr dotPartOf
  cases neg with
  | true =>
      simp only [if_true]
      split
      · simp
      · split
        · simp
        · simp
  | false =>
      simp only [if_false, Bool.false_eq_true, List.nil_append]
      split
      · simp
      · split
        · simp
        · simp

theorem fmtFr_map_digits (h : ℕ) :
    ∀ c ∈ (fmtFr h).map digitChar, isDigitCh c = true := by
  intro c hc
  rcases List.mem_map.1 hc with ⟨d, hd, rfl⟩
  exact digitChar_digit (fmtFr_lt h d hd)

theorem headNot_dotPart (hd : Bool) (frd : List Char) :
    headNot isDigitCh (dotPartOf hd frd) := by
  intro c hc
  unfold dotPartOf at hc
  cases hd with
  | true => simp only [if_pos] at hc; cases hc; rfl
  | false => simp at hc

theorem fmt2strip_token (neg : Bool) (h : ℕ) (rest : List Char)
    (hrd : headNot isDigitCh rest) (hrdot : rest.head? ≠ some '.') :
    dTokenTake (fmt2strip neg h ++ rest) = (⟨neg, h / 100, fmtFr h⟩, rest) ∧
    dTokenStarts (fmt2strip neg h ++ rest) = true := by
  rw [fmt2strip_eq]
  have hsh := dTokenTake_shape (natDecimal (h / 100)) ((fmtFr h).map digitChar)
    (!(fmtFr h).isEmpty) neg rest (natDecimal_ne_nil _) (natDecimal_digits _)
    (fmtFr_map_digits h) hrd hrdot
    (by intro hfe
        rw [Bool.not_eq_false', List.isEmpty_iff] at hfe
        rw [hfe]
        rfl)
  rw [hsh.1, hsh.2]
  rw [natDecimal_val, map_digitVal_digitChar (fmtFr_lt h)]
  exact ⟨rfl, rfl⟩

theorem numCore_of_parts (h : ℕ) :
    numCore (natDecimal (h / 100) ++
      dotPartOf (!(fmtFr h).isEmpty) ((fmtFr h).map digitChar)) = true := by
  unfold numCore
  rw [takeWhile_append_all (natDecimal_digits _) (headNot_dotPart _ _),
    dropWhile_append_all (natDecimal_digits _) (headNot_dotPart _ _)]
  rw [Bool.and_eq_true]
  constructor
  · cases hnd : natDecimal (h / 100) with
    | nil => exact absurd hnd (natDecimal_ne_nil _)
    | cons x xs => rfl
  · cases hfe : (!(fmtFr h).isEmpty) with
    | false => rfl
    | true =>
        show ((fmtFr h).map digitChar).all isDigitCh = true
        rw [List.all_eq_true]
        exact fmtFr_map_digits h

theorem numShape_fmt2strip (neg : Bool) (h : ℕ) :
    numShape (fmt2strip neg h) = true := by
  rw [fmt2strip_eq]
  cases neg with
  | true =>
      show numShape ('-' :: _) = true
      unfold numShape
      exact numCore_of_parts h
  | false =>
      simp only [if_false, Bool.false_eq_true, List.nil_append]
      obtain ⟨d0, dtl, hnd⟩ : ∃ d0 dtl, natDecimal (h / 100) = d0 :: dtl := by
        cases hc : natDecimal (h / 100) with
        | nil => exact absurd hc (natDecimal_ne_nil _)
        | cons x xs => exact ⟨x, xs, rfl⟩
      have hd0 : isDigitCh d0 = true := by
        apply natDecimal_digits
        rw [hnd]; exact List.mem_cons_self _ _
      rw [hnd, List.cons_append]
      unfold numShape
      split
      · next heq =>
          injection heq with h1 h2
          rw [h1] at hd0
          exact absurd hd0 (by decide)
      · rw [← List.cons_append, ← hnd]
        exact numCore_of_parts h

theorem roundWord_fmt2strip (neg : Bool) (h : ℕ) :
    roundWord (fmt2strip neg h) = fmt2strip neg h := by
  unfold roundWord
  rw [if_pos (numShape_fmt2strip neg h)]
  have htok := (fmt2strip_token neg h [] (fun c hc => by simp at hc)
    (by simp)).1
  rw [List.append_nil] at htok
  rw [htok]
  simp only []
  rw [round2H_fmtFr]

theorem fmt2strip_ne_nil (neg : Bool) (h : ℕ) : fmt2strip neg h ≠ [] := by
  rw [fmt2strip_eq]
  cases neg with
  | true => simp
  | false =>
      simp only [if_false, Bool.false_eq_true, List.nil_append]
      intro hc
      exact natDecimal_ne_nil _ (List.append_eq_nil.1 hc).1

theorem numShape_plain_false {w : List Char} (hw : w.all plainChar = true) :
    numShape w = false := by
  cases w with
  | nil => rfl
  | cons c rest =>
      have hc : plainChar c = true := by
        rw [List.all_eq_true] at hw
        exact hw c (List.mem_cons_self _ _)
      unfold plainChar at hc
      simp only [Bool.and_eq_true, Bool.not_eq_true', decide_eq_true_eq] at hc
      unfold numShape
      split
      · next heq =>
          injection heq with h1 h2
          exact absurd h1 hc.1.1.2
      · unfold numCore
        simp only [List.takeWhile]
        rw [hc.1.1.1.2]
        simp

theorem roundWord_plain {w : List Char} (hw : w.all plainChar = true) :
    roundWord w = w := by
  unfold roundWord
  rw [numShape_plain_false hw]
  simp

/-! ### Decomposing a numeric word -/

theorem numCore_decomp {s : List Char} (hs : numCore s = true) :
    ∃ ipd hasDot frd, s = ipd ++ dotPartOf hasDot frd ∧ ipd ≠ [] ∧
      (∀ c ∈ ipd, isDigitCh c = true) ∧ (∀ c ∈ frd, isDigitCh c = true) ∧
      (hasDot = false → frd = []) := by
  unfold numCore at hs
  rw [Bool.and_eq_true] at hs
  obtain ⟨h1, h2⟩ := hs
  have hne : s.takeWhile isDigitCh ≠ [] := by
    intro hcon
    rw [hcon] at h1
    exact absurd h1 (by decide)
  have hdig : ∀ c ∈ s.takeWhile isDigitCh, isDigitCh c = true :=
    fun c hc => List.mem_takeWhile_imp hc
  cases hd : s.dropWhile isDigitCh with
  | nil =>
      refine ⟨s.takeWhile isDigitCh, false, [], ?_, hne, hdig, ?_, fun _ => rfl⟩
      · show s = s.takeWhile isDigitCh ++ []
        rw [← hd, List.takeWhile_append_dropWhile]
      · intro c hc; cases hc
  | cons c fr =>
      rw [hd] at h2
      split at h2
      · next heq => exact absurd heq (List.cons_ne_nil c fr)
      · next fr2 heq =>
          injection heq with hc hfr
          subst hc hfr
          refine ⟨s.takeWhile isDigitCh, true, fr, ?_, hne, hdig, ?_, ?_⟩
          · show s = s.takeWhile isDigitCh ++ '.' :: fr
            rw [← hd, List.takeWhile_append_dropWhile]
          · rw [List.all_eq_true] at h2
            exact h2
          · intro hfalse; cases hfalse
      · exact absurd h2 (by decide)

theorem numShape_decomp {w : List Char} (hw : numShape w = true) :
    ∃ (neg : Bool) (ipd : List Char) (hasDot : Bool) (frd : List Char),
      w = (if neg then ['-'] else []) ++ (ipd ++ dotPartOf hasDot frd) ∧ ipd ≠ [] ∧
      (∀ c ∈ ipd, isDigitCh c = true) ∧ (∀ c ∈ frd, isDigitCh c = true) ∧
      (hasDot = false → frd = []) := by
  unfold numShape at hw
  split at hw
  · next rest =>
      obtain ⟨ipd, hasDot, frd, hs, hne, hipd, hfrd, hnd⟩ := numCore_decomp hw
      exact ⟨true, ipd, hasDot, frd, by rw [hs]; rfl, hne, hipd, hfrd, hnd⟩
  · obtain ⟨ipd, hasDot, frd, hs, hne, hipd, hfrd, hnd⟩ := numCore_decomp hw
    exact ⟨false, ipd, hasDot, frd, by rw [hs]; rfl, hne, hipd, hfrd, hnd⟩

theorem numShape_token {w rest : List Char} (hw : numShape w = true)
    (hrd : headNot isDigitCh rest) (hrdot : rest.head? ≠ some '.') :
    dTokenStarts (w ++ rest) = true ∧
    dTokenTake (w ++ rest) = ((dTokenTake w).1, rest) ∧
    roundWord w = fmt2strip (dTokenTake w).1.neg (round2H (dTokenTake w).1) := by
  obtain ⟨neg, ipd, hasDot, frd, hweq, hne, hipd, hfrd, hnd⟩ := numShape_decomp hw
  subst hweq
  have h1 := dTokenTake_shape ipd frd hasDot neg rest hne hipd hfrd hrd hrdot hnd
  have h2 := dTokenTake_shape ipd frd hasDot neg [] hne hipd hfrd
    (fun c hc => by simp at hc) (by simp) hnd
  rw [List.append_nil] at h2
  refine ⟨h1.2, ?_, ?_⟩
  · rw [h1.1, h2.1]
  · unfold roundWord
    rw [if_pos hw, h2.1]

theorem numShape_ne_nil {w : List Char} (hw : numShape w = true) : w ≠ [] := by
  intro hcon
  rw [hcon] at hw
  exact absurd hw (by decide)

/-! ### roundDChars word by word -/

theorem roundD_nil : ∀ fuel, roundDChars fuel [] = [] := by
  intro fuel
  cases fuel <;> rfl

theorem roundD_cons (fuel : ℕ) (c : Char) (rest : List Char) :
    roundDChars (fuel + 1) (c :: rest) =
      if dTokenStarts (c :: rest) = true then
        fmt2strip (dTokenTake (c :: rest)).1.neg (round2H (dTokenTake (c :: rest)).1) ++
          roundDChars fuel (dTokenTake (c :: rest)).2
      else c :: roundDChars fuel rest := rfl

theorem roundD_plain_step {w : List Char}
    (hw : ∀ c ∈ w, isDigitCh c = false ∧ c ≠ '-') :
    ∀ (fuel : ℕ) (rest : List Char),
      roundDChars (fuel + w.length) (w ++ rest) = w ++ roundDChars fuel rest := by
  induction w with
  | nil => intro fuel rest; simp
  | cons c w ih =>
      intro fuel rest
      have hts : dTokenStarts (c :: (w ++ rest)) = false := by
        simp [dTokenStarts, (hw c (List.mem_cons_self _ _)).1,
          (hw c (List.mem_cons_self _ _)).2]
      have hlen : fuel + (c :: w).length = (fuel + w.length) + 1 := by
        rw [List.length_cons]
        omega
      rw [hlen]
      show roundDChars ((fuel + w.length) + 1) (c :: (w ++ rest)) = _
      rw [roundD_cons, if_neg (by rw [hts]; exact Bool.false_ne_true)]
      rw [ih (fun d hd => hw d (List.mem_cons_of_mem _ hd)) fuel rest]
      rfl

theorem roundD_num_step {w rest : List Char} (hw : numShape w = true)
    (hrd : headNot isDigitCh rest) (hrdot : rest.head? ≠ some '.') :
    ∀ fuel, roundDChars (fuel + 1) (w ++ rest) = roundWord w ++ roundDChars fuel rest := by
  obtain ⟨hstarts, htake, hround⟩ := numShape_token hw hrd hrdot
  intro fuel
  obtain ⟨c, w2, rfl⟩ : ∃ c w2, w = c :: w2 := by
    cases w with
    | nil => exact absurd rfl (numShape_ne_nil hw)
    | cons x xs => exact ⟨x, xs, rfl⟩
  rw [List.cons_append] at hstarts htake
  show roundDChars (fuel + 1) (c :: (w2 ++ rest)) = _
  rw [roundD_cons, if_pos hstarts, htake, hround]

theorem roundD_space_step (rest : List Char) (fuel : ℕ) :
    roundDChars (fuel + 1) (' ' :: rest) = ' ' :: roundDChars fuel rest := by
  rw [roundD_cons]
  rw [show dTokenStarts (' ' :: rest) = false from rfl]
  simp

/-- Fuel consumed by one word. -/
def needW (w : List Char) : ℕ := if numShape w then 1 else w.length

def needT : List (List Char) → ℕ
  | [] => 0
  | w :: ws => 1 + needW w + needT ws

def needF : List (List Char) → ℕ
  | [] => 0
  | w :: ws => needW w + needT ws

theorem joinSpTail_clean (ws : List (List Char)) :
    headNot isDigitCh (joinSpTail ws) ∧ (joinSpTail ws).head? ≠ some '.' := by
  cases ws with
  | nil => exact ⟨fun c hc => by simp [joinSpTail] at hc, by simp [joinSpTail]⟩
  | cons w ws =>
      constructor
      · intro c hc
        simp only [joinSpTail, List.head?_cons, Option.some.injEq] at hc
        rw [← hc]
        rfl
      · simp [joinSpTail]

theorem wordOk_elim {w : List Char}
    (h : (!w.isEmpty && (numShape w || w.all plainChar)) = true) :
    w ≠ [] ∧ (numShape w = true ∨ w.all plainChar = true) := by
  rw [Bool.and_eq_true, Bool.or_eq_true] at h
  refine ⟨?_, h.2⟩
  intro hcon
  rw [hcon] at h
  exact absurd h.1 (by decide)

theorem plainChar_notTok {c : Char} (hc : plainChar c = true) :
    isDigitCh c = false ∧ c ≠ '-' := by
  unfold plainChar at hc
  simp only [Bool.and_eq_true, Bool.not_eq_true', decide_eq_true_eq] at hc
  exact ⟨hc.1.1.1.2, hc.1.1.2⟩

theorem roundD_word_step {w rest : List Char}
    (hw : (!w.isEmpty && (numShape w || w.all plainChar)) = true)
    (hrd : headNot isDigitCh rest) (hrdot : rest.head? ≠ some '.') (fuel : ℕ) :
    roundDChars (fuel + needW w) (w ++ rest) = roundWord w ++ roundDChars fuel rest := by
  obtain ⟨hne, hcase⟩ := wordOk_elim hw
  rcases hcase with hnum | hplain
  · unfold needW
    rw [if_pos hnum]
    exact roundD_num_step hnum hrd hrdot fuel
  · unfold needW
    rw [if_neg (by rw [numShape_plain_false hplain]; exact Bool.false_ne_true)]
    rw [roundD_plain_step (fun c hc => plainChar_notTok
      (by rw [List.all_eq_true] at hplain; exact hplain c hc)) fuel rest]
    rw [roundWord_plain hplain]

theorem roundD_joinSpTail : ∀ (ws : List (List Char)), wordsOk ws = true →
    ∀ fuel, roundDChars (fuel + needT ws) (joinSpTail ws) =
      joinSpTail (ws.map roundWord) := by
  intro ws
  induction ws with
  | nil => intro _ fuel; exact roundD_nil _
  | cons w ws ih =>
      intro h fuel
      unfold wordsOk at h
      rw [List.all_cons, Bool.and_eq_true] at h
      show roundDChars (fuel + needT (w :: ws)) (' ' :: (w ++ joinSpTail ws)) = _
      have hlen : fuel + needT (w :: ws) = (((fuel + needT ws) + needW w)) + 1 := by
        rw [show needT (w :: ws) = 1 + needW w + needT ws from rfl]
        omega
      rw [hlen, roundD_space_step]
      rw [roundD_word_step h.1 (joinSpTail_clean ws).1 (joinSpTail_clean ws).2]
      rw [ih h.2 fuel]
      rfl

theorem roundD_joinSp (ws : List (List Char)) (h : wordsOk ws = true) (fuel : ℕ) :
    roundDChars (fuel + needF ws) (joinSp ws) = joinSp (ws.map roundWord) := by
  cases ws with
  | nil => exact roundD_nil _
  | cons w ws =>
      unfold wordsOk at h
      rw [List.all_cons, Bool.and_eq_true] at h
      show roundDChars (fuel + needF (w :: ws)) (w ++ joinSpTail ws) = _
      have hlen : fuel + needF (w :: ws) = ((fuel + needT ws)) + needW w := by
        rw [show needF (w :: ws) = needW w + needT ws from rfl]
        omega
      rw [hlen]
      rw [roundD_word_step h.1 (joinSpTail_clean ws).1 (joinSpTail_clean ws).2]
      rw [roundD_joinSpTail ws h.2 fuel]
      rfl

/-! ### Stability of rounded path data -/

theorem roundWord_of_num {w : List Char} (hw : numShape w = true) :
    roundWord w = fmt2strip (dTokenTake w).1.neg (round2H (dTokenTake w).1) :=
  (@numShape_token w [] hw (fun c hc => by simp at hc) (by simp)).2.2

theorem roundWord_roundWord {w : List Char}
    (hok : (!w.isEmpty && (numShape w || w.all plainChar)) = true) :
    roundWord (roundWord w) = roundWord w ∧
    (!(roundWord w).isEmpty && (numShape (roundWord w) || (roundWord w).all plainChar))
      = true := by
  obtain ⟨hne, hcase⟩ := wordOk_elim hok
  rcases hcase with hnum | hplain
  · rw [roundWord_of_num hnum]
    refine ⟨roundWord_fmt2strip _ _, ?_⟩
    rw [Bool.and_eq_true, Bool.or_eq_true]
    constructor
    · cases hc : fmt2strip (dTokenTake w).1.neg (round2H (dTokenTake w).1) with
      | nil => exact absurd hc (fmt2strip_ne_nil _ _)
      | cons x xs => rfl
    · exact Or.inl (numShape_fmt2strip _ _)
  · rw [roundWord_plain hplain]
    refine ⟨roundWord_plain hplain, ?_⟩
    rw [Bool.and_eq_true, Bool.or_eq_true]
    constructor
    · cases hc : w with
      | nil => exact absurd hc hne
      | cons x xs => rfl
    · exact Or.inr hplain

theorem wordsOk_map_round {ws : List (List Char)} (h : wordsOk ws = true) :
    wordsOk (ws.map roundWord) = true ∧
    (ws.map roundWord).map roundWord = ws.map roundWord := by
  unfold wordsOk at h ⊢
  rw [List.all_eq_true] at h
  constructor
  · rw [List.all_eq_true]
    intro w hw
    rcases List.mem_map.1 hw with ⟨w0, hw0, rfl⟩
    exact (roundWord_roundWord (h w0 hw0)).2
  · rw [List.map_map]
    apply List.map_congr_left
    intro w0 hw0
    exact (roundWord_roundWord (h w0 hw0)).1

theorem wordsOk_ne_nil {ws : List (List Char)} (h : wordsOk ws = true) :
    ∀ w ∈ ws, w ≠ [] := by
  unfold wordsOk at h
  rw [List.all_eq_true] at h
  exact fun w hw => (wordOk_elim (h w hw)).1

theorem needW_le {w : List Char} (hne : w ≠ []) : needW w ≤ w.length := by
  unfold needW
  split
  · have := List.length_pos.2 hne
    omega
  · exact Nat.le_refl _

theorem needT_le : ∀ (ws : List (List Char)), (∀ w ∈ ws, w ≠ []) →
    needT ws ≤ (joinSpTail ws).length := by
  intro ws
  induction ws with
  | nil => intro _; exact Nat.le_refl _
  | cons w ws ih =>
      intro h
      rw [show needT (w :: ws) = 1 + needW w + needT ws from rfl]
      show _ ≤ (' ' :: (w ++ joinSpTail ws)).length
      rw [List.length_cons, List.length_append]
      have h1 := needW_le (h w (List.mem_cons_self _ _))
      have h2 := ih fun u hu => h u (List.mem_cons_of_mem _ hu)
      omega

theorem needF_le (ws : List (List Char)) (h : ∀ w ∈ ws, w ≠ []) :
    needF ws ≤ (joinSp ws).length := by
  cases ws with
  | nil => exact Nat.le_refl _
  | cons w ws =>
      rw [show needF (w :: ws) = needW w + needT ws from rfl]
      show _ ≤ (w ++ joinSpTail ws).length
      rw [List.length_append]
      have h1 := needW_le (h w (List.mem_cons_self _ _))
      have h2 := needT_le ws fun u hu => h u (List.mem_cons_of_mem _ hu)
      omega

theorem roundD_joinSp_full (ws : List (List Char)) (h : wordsOk ws = true) :
    roundDChars ((joinSp ws).length + 1) (joinSp ws) = joinSp (ws.map roundWord) := by
  have hle := needF_le ws (wordsOk_ne_nil h)
  have hsplit : (joinSp ws).length + 1 =
      ((joinSp ws).length + 1 - needF ws) + needF ws := by omega
  rw [hsplit, roundD_joinSp ws h]

/-- A d value the rounding pass maps to itself: a join of stable
words. -/
def stableD (v : String) : Prop :=
  ∃ ws, wordsOk ws = true ∧ ws.map roundWord = ws ∧ v.data = joinSp ws

theorem roundAttr_d_stable (v : String) (hv : stableD v) :
    roundAttr ("d", v) = ("d", v) := by
  obtain ⟨ws, hok, hfix, hdata⟩ := hv
  unfold roundAttr
  rw [if_pos rfl]
  show ("d", (⟨roundDChars (v.data.length + 1) v.data⟩ : String)) = _
  rw [hdata, roundD_joinSp_full ws hok, hfix, ← hdata]

/-- A clean d value: empty, or single-space-joined acceptable words. -/
def dOk (v : String) : Bool := v.data.isEmpty || wordsOk (splitSp v.data)

theorem roundAttr_d_of_dOk (v : String) (hv : dOk v = true) :
    ∃ v2, roundAttr ("d", v) = ("d", v2) ∧ stableD v2 := by
  unfold dOk at hv
  rw [Bool.or_eq_true] at hv
  rcases hv with hv | hv
  · rw [List.isEmpty_iff] at hv
    refine ⟨v, ?_, [], rfl, rfl, by rw [hv]; rfl⟩
    unfold roundAttr
    rw [if_pos rfl]
    show ("d", (⟨roundDChars (v.data.length + 1) v.data⟩ : String)) = _
    rw [hv]
    exact congrArg (fun l => ("d", String.mk l)) hv.symm
  · refine ⟨⟨joinSp ((splitSp v.data).map roundWord)⟩, ?_, ?_⟩
    · unfold roundAttr
      rw [if_pos rfl]
      show ("d", (⟨roundDChars (v.data.length + 1) v.data⟩ : String)) = _
      have hj := joinSp_splitSp v.data
      have hcalc : roundDChars (v.data.length + 1) v.data
          = joinSp ((splitSp v.data).map roundWord) := by
        conv_lhs => rw [← hj]
        rw [roundD_joinSp_full _ hv]
      rw [hcalc]
    · exact ⟨(splitSp v.data).map roundWord, (wordsOk_map_round hv).1,
        (wordsOk_map_round hv).2, rfl⟩

/-! ### Stability of rounded numeric attributes -/

/-- The fraction digits of str(round(x, 2)): at least one digit. -/
def fmtFrS (h : ℕ) : List ℕ :=
  if h % 10 ≠ 0 then [h / 10 % 10, h % 10]
  else if h / 10 % 10 ≠ 0 then [h / 10 % 10] else [0]

theorem round2H_fmtFrS (neg : Bool) (h : ℕ) :
    round2H ⟨neg, h / 100, fmtFrS h⟩ = h := by
  have hdd : h / 10 / 10 = h / 100 := Nat.div_div_eq_div_mul h 10 10
  unfold round2H fmtFrS
  split
  · simp only [List.getD_cons_zero, List.getD_cons_succ, List.getD_nil,
      Nat.le_zero, OfNat.ofNat_ne_zero, if_false]
    omega
  · split
    · simp only [List.getD_cons_zero, List.getD_cons_succ, List.getD_nil,
        Nat.le_zero, OfNat.ofNat_ne_zero, if_false]
      omega
    · simp only [List.getD_cons_zero, List.getD_cons_succ, List.getD_nil,
        Nat.le_zero, OfNat.ofNat_ne_zero, if_false]
      omega

theorem fmtFrS_lt (h : ℕ) : ∀ d ∈ fmtFrS h, d < 10 := by
  unfold fmtFrS
  split
  · intro d hd
    rcases List.mem_cons.1 hd with rfl | hd2
    · omega
    · rcases List.mem_singleton.1 hd2 with rfl
      omega
  · split
    · intro d hd
      rcases List.mem_singleton.1 hd with rfl
      omega
    · intro d hd
      rcases List.mem_singleton.1 hd with rfl
      omega

theorem fmtStr2_eq (neg : Bool) (h : ℕ) :
    fmtStr2 neg h = (if neg then ['-'] else []) ++
      (natDecimal (h / 100) ++ '.' :: (fmtFrS h).map digitChar) := by
  unfold fmtStr2 fmtFrS
  cases neg with
  | true =>
      simp only [if_true]
      split
      · simp
      · split
        · simp
        · simp [digitChar]
  | false =>
      simp only [if_false, Bool.false_eq_true, List.nil_append]
      split
      · simp
      · split
        · simp
        · simp [digitChar]

theorem takeWhile_all {p : Char → Bool} {l : List Char} (h : ∀ c ∈ l, p c = true) :
    l.takeWhile p = l := by
  have h2 := @takeWhile_append_all p l [] h (fun c hc => by simp at hc)
  rwa [List.append_nil] at h2

theorem dropWhile_all {p : Char → Bool} {l : List Char} (h : ∀ c ∈ l, p c = true) :
    l.dropWhile p = [] := by
  have h2 := @dropWhile_append_all p l [] h (fun c hc => by simp at hc)
  rwa [List.append_nil] at h2

theorem fmtFrS_map_digits (h : ℕ) :
    ∀ c ∈ (fmtFrS h).map digitChar, isDigitCh c = true := by
  intro c hc
  rcases List.mem_map.1 hc with ⟨d, hd, rfl⟩
  exact digitChar_digit (fmtFrS_lt h d hd)

theorem pyFloatCore_parts (neg : Bool) (h : ℕ) :
    pyFloatCore (natDecimal (h / 100) ++ '.' :: (fmtFrS h).map digitChar) neg =
      some ⟨neg, h / 100, fmtFrS h⟩ := by
  have hnd : headNot isDigitCh ('.' :: (fmtFrS h).map digitChar) := by
    intro c hc
    simp only [List.head?_cons, Option.some.injEq] at hc
    rw [← hc]; rfl
  unfold pyFloatCore
  rw [takeWhile_append_all (natDecimal_digits _) hnd,
    dropWhile_append_all (natDecimal_digits _) hnd]
  rw [if_neg (natDecimal_ne_nil _)]
  split
  · next heq => exact absurd heq (by simp)
  · next rest2 heq =>
      injection heq with h1 h2
      subst h2
      rw [dropWhile_all (fmtFrS_map_digits h), if_pos rfl,
        takeWhile_all (fmtFrS_map_digits h),
        map_digitVal_digitChar (fmtFrS_lt h), natDecimal_val]
  · next h1 h2 => exact absurd rfl (h2 (List.map digitChar (fmtFrS h)))

theorem isDigitCh_ne_sign {c : Char} (hc : isDigitCh c = true) :
    c ≠ '-' ∧ c ≠ '+' := by
  constructor <;> intro hcon <;> rw [hcon] at hc <;> exact absurd hc (by decide)

theorem pyFloatParse_fmtStr2 (neg : Bool) (h : ℕ) :
    pyFloatParse (fmtStr2 neg h) = some ⟨neg, h / 100, fmtFrS h⟩ := by
  rw [fmtStr2_eq]
  cases neg with
  | true =>
      show pyFloatParse ('-' :: _) = _
      unfold pyFloatParse
      exact pyFloatCore_parts true h
  | false =>
      simp only [if_false, Bool.false_eq_true, List.nil_append]
      obtain ⟨d0, dtl, hnd⟩ : ∃ d0 dtl, natDecimal (h / 100) = d0 :: dtl := by
        cases hc : natDecimal (h / 100) with
        | nil => exact absurd hc (natDecimal_ne_nil _)
        | cons x xs => exact ⟨x, xs, rfl⟩
      have hd0 : isDigitCh d0 = true := by
        apply natDecimal_digits
        rw [hnd]; exact List.mem_cons_self _ _
      rw [hnd, List.cons_append]
      unfold pyFloatParse
      split
      · next heq =>
          injection heq with h1 h2
          exact absurd h1 (isDigitCh_ne_sign hd0).1
      · next heq =>
          injection heq with h1 h2
          exact absurd h1 (isDigitCh_ne_sign hd0).2
      · rw [← List.cons_append, ← hnd]
        exact pyFloatCore_parts false h

theorem mem_numKeys_ne_d {k : String} (hk : k ∈ numericAttrKeys) : k ≠ "d" := by
  intro hcon
  subst hcon
  exact absurd hk (by decide)

theorem roundAttr_num_stable (k : String) (hk : k ∈ numericAttrKeys)
    (neg : Bool) (h : ℕ) :
    roundAttr (k, ⟨fmtStr2 neg h⟩) = (k, ⟨fmtStr2 neg h⟩) := by
  unfold roundAttr
  rw [if_neg (mem_numKeys_ne_d hk), if_pos hk]
  rw [show ((⟨fmtStr2 neg h⟩ : String), (1 : ℕ)).1.data = fmtStr2 neg h from rfl]
  show (match pyFloatParse (fmtStr2 neg h) with
    | some d => (k, (⟨fmtStr2 d.neg (round2H d)⟩ : String))
    | none => (k, (⟨fmtStr2 neg h⟩ : String))) = _
  rw [pyFloatParse_fmtStr2]
  show (k, (⟨fmtStr2 neg (round2H ⟨neg, h / 100, fmtFrS h⟩)⟩ : String)) = _
  rw [round2H_fmtFrS]

theorem roundAttr_num_of_parse (k v : String) (hk : k ∈ numericAttrKeys)
    (hv : (pyFloatParse v.data).isSome = true) :
    ∃ (neg : Bool) (h : ℕ), roundAttr (k, v) = (k, ⟨fmtStr2 neg h⟩) := by
  obtain ⟨d, hd⟩ := Option.isSome_iff_exists.1 hv
  refine ⟨d.neg, round2H d, ?_⟩
  unfold roundAttr
  rw [if_neg (mem_numKeys_ne_d hk), if_pos hk]
  show (match pyFloatParse v.data with
    | some d => (k, (⟨fmtStr2 d.neg (round2H d)⟩ : String))
    | none => (k, v)) = _
  rw [hd]

theorem roundAttr_other (k v : String) (hkd : k ≠ "d") (hkn : k ∉ numericAttrKeys) :
    roundAttr (k, v) = (k, v) := by
  unfold roundAttr
  rw [if_neg hkd, if_neg hkn]

theorem roundAttr_fst (kv : String × String) : (roundAttr kv).1 = kv.1 := by
  unfold roundAttr
  split
  · rfl
  · split
    · split <;> rfl
    · rfl

/-! ### Pointwise attribute predicates over trees -/

theorem map_self_of {α : Type} {f : α → α} :
    ∀ (l : List α), (∀ x ∈ l, f x = x) → l.map f = l := by
  intro l h
  induction l with
  | nil => rfl
  | cons x xs ih =>
      rw [List.map_cons, h x (List.mem_cons_self _ _),
        ih fun y hy => h y (List.mem_cons_of_mem _ hy)]

mutual
/-- P holds of every attribute of every element. -/
def allAttrsT (P : String × String → Prop) : XTree → Prop
  | .node _ attrs c => (∀ kv ∈ attrs, P kv) ∧ allAttrsF P c
def allAttrsF (P : String × String → Prop) : XForest → Prop
  | .nil => True
  | .cons t ts => allAttrsT P t ∧ allAttrsF P ts
end

mutual
theorem roundTree_fix : ∀ (t : XTree),
    allAttrsT (fun kv => roundAttr kv = kv) t → roundTree t = t
  | .node n attrs c, h => by
      show XTree.node n (attrs.map roundAttr) (roundForest c) = _
      rw [map_self_of attrs h.1, roundForest_fix c h.2]
theorem roundForest_fix : ∀ (f : XForest),
    allAttrsF (fun kv => roundAttr kv = kv) f → roundForest f = f
  | .nil, _ => rfl
  | .cons t ts, h => by
      show XForest.cons (roundTree t) (roundForest ts) = _
      rw [roundTree_fix t h.1, roundForest_fix ts h.2]
end

/-! ### Fixed points of group collapsing and path merging -/

mutual
/-- No element is an unwrappable group (localName g with only an id
attribute). -/
def noGCollT : XTree → Prop
  | .node n attrs c => (localName n == "g" && onlyIdAttrs attrs) = false ∧ noGCollF c
def noGCollF : XForest → Prop
  | .nil => True
  | .cons t ts => noGCollT t ∧ noGCollF ts
end

mutual
theorem collapseT_fix : ∀ (t : XTree), noGCollT t → collapseT t = t
  | .node n attrs c, h => by
      show XTree.node n attrs (collapseF c) = _
      rw [collapseF_fix c h.2]
theorem collapseF_fix : ∀ (f : XForest), noGCollF f → collapseF f = f
  | .nil, _ => rfl
  | .cons (.node n attrs c) ts, h => by
      show (match collapseT (.node n attrs c) with
        | .node n2 attrs2 c2 =>
            if localName n2 == "g" && onlyIdAttrs attrs2 then
              fappend c2 (collapseF ts)
            else .cons (.node n2 attrs2 c2) (collapseF ts)) = _
      rw [collapseT_fix (.node n attrs c) h.1]
      show (if localName n == "g" && onlyIdAttrs attrs then _ else
        XForest.cons (.node n attrs c) (collapseF ts)) = _
      rw [h.1.1]
      simp only [Bool.false_eq_true, if_false]
      rw [collapseF_fix ts h.2]
end

/-- No two adjacent siblings are mergeable. -/
def noAdjMerge : XForest → Bool
  | .nil => true
  | .cons a rest =>
      (match rest with
       | .nil => true
       | .cons b _ => !mergeableB a b) && noAdjMerge rest

theorem mergeRun_fix : ∀ (fuel : ℕ) (f : XForest), noAdjMerge f = true →
    mergeRun fuel f = f := by
  intro fuel
  induction fuel with
  | zero => intro f _; rfl
  | succ fuel ih =>
      intro f h
      cases f with
      | nil => rfl
      | cons a rest =>
          cases rest with
          | nil => rfl
          | cons b rest2 =>
              unfold noAdjMerge at h
              rw [Bool.and_eq_true] at h
              have hm : mergeableB a b = false := by
                have h1 : (!mergeableB a b) = true := h.1
                rwa [Bool.not_eq_true'] at h1
              show (if mergeableB a b = true then
                  mergeRun fuel (.cons (mergeTwo a b) rest2)
                else XForest.cons a (mergeRun fuel (.cons b rest2))) = _
              rw [hm]
              simp only [Bool.false_eq_true, if_false]
              rw [ih _ h.2]

mutual
/-- At every level, no two adjacent siblings are mergeable. -/
def noAdjAllT : XTree → Prop
  | .node _ _ c => noAdjMerge c = true ∧ noAdjAllF c
def noAdjAllF : XForest → Prop
  | .nil => True
  | .cons t ts => noAdjAllT t ∧ noAdjAllF ts
end

mutual
theorem mergeT_fix : ∀ (t : XTree), noAdjAllT t → mergeT t = t
  | .node n attrs c, h => by
      show XTree.node n attrs (mergeRun (flen (mergeF c)) (mergeF c)) = _
      rw [mergeF_fix c h.2, mergeRun_fix _ _ h.1]
theorem mergeF_fix : ∀ (f : XForest), noAdjAllF f → mergeF f = f
  | .nil, _ => rfl
  | .cons t ts, h => by
      show XForest.cons (mergeT t) (mergeF ts) = _
      rw [mergeT_fix t h.1, mergeF_fix ts h.2]
end

/-! ### elem.set and elem.get -/

theorem attrGet_attrSet_same (k v : String) :
    ∀ attrs, attrGet (attrSet attrs k v) k = some v := by
  intro attrs
  unfold attrSet
  split
  · next hfind =>
      induction attrs with
      | nil => simp at hfind
      | cons kv rest ih =>
          by_cases hk : kv.1 = k
          · rw [List.map_cons, if_pos hk]
            unfold attrGet
            rw [List.find?_cons_of_pos _ (by simp)]
            rfl
          · rw [List.map_cons, if_neg hk]
            unfold attrGet
            rw [List.find?_cons_of_neg _ (by simp [hk])]
            apply ih
            rw [List.find?_cons_of_neg _ (by simp [hk])] at hfind
            exact hfind
  · next hfind =>
      induction attrs with
      | nil =>
          unfold attrGet
          rw [List.nil_append, List.find?_cons_of_pos _ (by simp)]
          rfl
      | cons kv rest ih =>
          by_cases hk : kv.1 = k
          · exact absurd (by rw [List.find?_cons_of_pos _ (by simp [hk])]; rfl) hfind
          · rw [List.cons_append]
            unfold attrGet
            rw [List.find?_cons_of_neg _ (by simp [hk])]
            apply ih
            intro hcon
            apply hfind
            rw [List.find?_cons_of_neg _ (by simp [hk])]
            exact hcon

theorem attrGet_map_other (k k2 v : String) (hne : k2 ≠ k) :
    ∀ attrs, attrGet (attrs.map fun kv => if kv.1 = k then (k, v) else kv) k2 =
      attrGet attrs k2 := by
  intro attrs
  induction attrs with
  | nil => rfl
  | cons kv rest ih =>
      rw [List.map_cons]
      by_cases hk : kv.1 = k
      · rw [if_pos hk]
        unfold attrGet
        rw [List.find?_cons_of_neg _ (by simp [Ne.symm hne]),
          List.find?_cons_of_neg _ (by simp [hk, Ne.symm hne])]
        exact ih
      · rw [if_neg hk]
        unfold attrGet
        by_cases hk2 : kv.1 = k2
        · rw [List.find?_cons_of_pos _ (by simp [hk2]),
            List.find?_cons_of_pos _ (by simp [hk2])]
        · rw [List.find?_cons_of_neg _ (by simp [hk2]),
            List.find?_cons_of_neg _ (by simp [hk2])]
          exact ih

theorem attrGet_append_other (k k2 v : String) (hne : k2 ≠ k) :
    ∀ attrs, attrGet (attrs ++ [(k, v)]) k2 = attrGet attrs k2 := by
  intro attrs
  induction attrs with
  | nil =>
      unfold attrGet
      rw [List.nil_append, List.find?_cons_of_neg _ (by simp [Ne.symm hne])]
  | cons kv rest ih =>
      rw [List.cons_append]
      unfold attrGet
      by_cases hk2 : kv.1 = k2
      · rw [List.find?_cons_of_pos _ (by simp [hk2]),
          List.find?_cons_of_pos _ (by simp [hk2])]
      · rw [List.find?_cons_of_neg _ (by simp [hk2]),
          List.find?_cons_of_neg _ (by simp [hk2])]
        exact ih

theorem attrGet_attrSet_other (k k2 v : String) (hne : k2 ≠ k) :
    ∀ attrs, attrGet (attrSet attrs k v) k2 = attrGet attrs k2 := by
  intro attrs
  unfold attrSet
  split
  · exact attrGet_map_other k k2 v hne attrs
  · exact attrGet_append_other k k2 v hne attrs

/-! ### The viewBox pass is idempotent -/

theorem viewboxFix_node (n : String) (attrs : List (String × String)) (c : XForest) :
    viewboxFix (.node n attrs c) =
      (match attrGet attrs "width", attrGet attrs "height", attrGet attrs "viewBox" with
      | some w, some h, none =>
          match pyFloatParse w.data, pyFloatParse h.data with
          | some dw, some dh =>
              .node n (attrSet attrs "viewBox"
                ⟨'0' :: ' ' :: '0' :: ' ' :: fmtFixed2 dw.neg (round2H dw) ++
                  ' ' :: fmtFixed2 dh.neg (round2H dh)⟩) c
          | _, _ => .node n attrs c
      | _, _, _ => .node n attrs c) := rfl

theorem viewboxFix_cases (t : XTree) :
    viewboxFix t = t ∨
    ∃ n attrs c dw dh, t = .node n attrs c ∧
      viewboxFix t = .node n (attrSet attrs "viewBox"
        ⟨'0' :: ' ' :: '0' :: ' ' :: fmtFixed2 dw.neg (round2H dw) ++
          ' ' :: fmtFixed2 dh.neg (round2H dh)⟩) c ∧
      attrGet attrs "width" ≠ none ∧ attrGet attrs "height" ≠ none := by
  cases t with
  | node n attrs c =>
      rcases hw : attrGet attrs "width" with _ | w
      · left
        rw [viewboxFix_node, hw]
      · rcases hh : attrGet attrs "height" with _ | hgt
        · left
          rw [viewboxFix_node, hw, hh]
        · rcases hvb : attrGet attrs "viewBox" with _ | vb
          · rcases hpw : pyFloatParse w.data with _ | dw
            · left
              rw [viewboxFix_node, hw, hh, hvb]
              show (match pyFloatParse w.data, pyFloatParse hgt.data with
                | some dw, some dh =>
                    XTree.node n (attrSet attrs "viewBox"
                      ⟨'0' :: ' ' :: '0' :: ' ' :: fmtFixed2 dw.neg (round2H dw) ++
                        ' ' :: fmtFixed2 dh.neg (round2H dh)⟩) c
                | _, _ => XTree.node n attrs c) = _
              rw [hpw]
            · rcases hph : pyFloatParse hgt.data with _ | dh
              · left
                rw [viewboxFix_node, hw, hh, hvb]
                show (match pyFloatParse w.data, pyFloatParse hgt.data with
                  | some dw, some dh =>
                      XTree.node n (attrSet attrs "viewBox"
                        ⟨'0' :: ' ' :: '0' :: ' ' :: fmtFixed2 dw.neg (round2H dw) ++
                          ' ' :: fmtFixed2 dh.neg (round2H dh)⟩) c
                  | _, _ => XTree.node n attrs c) = _
                rw [hpw, hph]
              · right
                refine ⟨n, attrs, c, dw, dh,
                  rfl, ?_, by rw [hw]; simp, by rw [hh]; simp⟩
                rw [viewboxFix_node, hw, hh, hvb]
                show (match pyFloatParse w.data, pyFloatParse hgt.data with
                  | some dw, some dh =>
                      XTree.node n (attrSet attrs "viewBox"
                        ⟨'0' :: ' ' :: '0' :: ' ' :: fmtFixed2 dw.neg (round2H dw) ++
                          ' ' :: fmtFixed2 dh.neg (round2H dh)⟩) c
                  | _, _ => XTree.node n attrs c) = _
                rw [hpw, hph]
          · left
            rw [viewboxFix_node, hw, hh, hvb]

theorem viewboxFix_idem (t : XTree) : viewboxFix (viewboxFix t) = viewboxFix t := by
  rcases viewboxFix_cases t with h | ⟨n, attrs, c, dw, dh, ht, hfix, hw, hh⟩
  · rw [h, h]
  · rw [hfix]
    obtain ⟨w, hw2⟩ := Option.ne_none_iff_exists'.1 hw
    obtain ⟨h2, hh2⟩ := Option.ne_none_iff_exists'.1 hh
    rw [viewboxFix_node, attrGet_attrSet_other _ _ _ (by decide),
      attrGet_attrSet_other _ _ _ (by decide),
      attrGet_attrSet_same, hw2, hh2]

/-! ### The clean-document predicate -/

/-- One clean attribute: a nonempty name-character key, a clean value,
clean path data under d, and a parseable number under a rounded
numeric key. -/
def cleanA (kv : String × String) : Bool :=
  !kv.1.data.isEmpty && kv.1.data.all nameChar && cleanVal kv.2 &&
  (if kv.1 = "d" then dOk kv.2 else true) &&
  (if kv.1 ∈ numericAttrKeys then (pyFloatParse kv.2.data).isSome else true)

mutual
/-- The optimizer's supported fragment: clean names and attributes
everywhere, no unwrappable group, no duplicate attribute keys (expat
rejects them), and no two adjacent mergeable path siblings. -/
def cleanT : XTree → Bool
  | .node n attrs c =>
      !n.data.isEmpty && n.data.all nameChar &&
      !(localName n == "g" && onlyIdAttrs attrs) &&
      attrs.all cleanA && decide ((attrs.map Prod.fst).Nodup) &&
      noAdjMerge c && cleanF c
def cleanF : XForest → Bool
  | .nil => true
  | .cons t ts => cleanT t && cleanF ts
end

/-! ### Character facts for generated values -/

theorem char_ne_of_toNat {c d : Char} (h : c.toNat ≠ d.toNat) : c ≠ d :=
  fun hc => h (congrArg Char.toNat hc)

theorem valOk_digit {c : Char} (hc : isDigitCh c = true) :
    valOkChar c = true ∧ c ≠ ' ' := by
  unfold isDigitCh at hc
  rw [Bool.and_eq_true, decide_eq_true_eq, decide_eq_true_eq] at hc
  have h9 : c ≠ Char.ofNat 9 := char_ne_of_toNat (by show c.toNat ≠ 9; omega)
  have h10 : c ≠ Char.ofNat 10 := char_ne_of_toNat (by show c.toNat ≠ 10; omega)
  have h11 : c ≠ Char.ofNat 11 := char_ne_of_toNat (by show c.toNat ≠ 11; omega)
  have h12 : c ≠ Char.ofNat 12 := char_ne_of_toNat (by show c.toNat ≠ 12; omega)
  have h13 : c ≠ Char.ofNat 13 := char_ne_of_toNat (by show c.toNat ≠ 13; omega)
  have h32 : c ≠ ' ' := char_ne_of_toNat (by show c.toNat ≠ 32; omega)
  have h33 : c ≠ '!' := char_ne_of_toNat (by show c.toNat ≠ 33; omega)
  have h34 : c ≠ '"' := char_ne_of_toNat (by show c.toNat ≠ 34; omega)
  have h38 : c ≠ '&' := char_ne_of_toNat (by show c.toNat ≠ 38; omega)
  have h60 : c ≠ '<' := char_ne_of_toNat (by show c.toNat ≠ 60; omega)
  have h61 : c ≠ '=' := char_ne_of_toNat (by show c.toNat ≠ 61; omega)
  have h62 : c ≠ '>' := char_ne_of_toNat (by show c.toNat ≠ 62; omega)
  refine ⟨?_, h32⟩
  simp [valOkChar, isCtlWs, pyIsSpace, h9, h10, h11, h12, h13, h32, h33, h34,
    h38, h60, h61, h62]

theorem fmt2strip_chars (neg : Bool) (h : ℕ) :
    ∀ c ∈ fmt2strip neg h, valOkChar c = true ∧ c ≠ ' ' := by
  rw [fmt2strip_eq]
  intro c hc
  rcases List.mem_append.1 hc with hc1 | hc2
  · cases neg with
    | true =>
        rw [if_pos rfl] at hc1
        rcases List.mem_singleton.1 hc1 with rfl
        exact ⟨by decide, by decide⟩
    | false => simp at hc1
  · rcases List.mem_append.1 hc2 with hc3 | hc4
    · exact valOk_digit (natDecimal_digits _ c hc3)
    · unfold dotPartOf at hc4
      split at hc4
      · rcases List.mem_cons.1 hc4 with rfl | hc5
        · exact ⟨by decide, by decide⟩
        · exact valOk_digit (fmtFr_map_digits h c hc5)
      · simp at hc4

theorem fmtStr2_chars (neg : Bool) (h : ℕ) :
    ∀ c ∈ fmtStr2 neg h, valOkChar c = true ∧ c ≠ ' ' := by
  rw [fmtStr2_eq]
  intro c hc
  rcases List.mem_append.1 hc with hc1 | hc2
  · cases neg with
    | true =>
        rw [if_pos rfl] at hc1
        rcases List.mem_singleton.1 hc1 with rfl
        exact ⟨by decide, by decide⟩
    | false => simp at hc1
  · rcases List.mem_append.1 hc2 with hc3 | hc4
    · exact valOk_digit (natDecimal_digits _ c hc3)
    · rcases List.mem_cons.1 hc4 with rfl | hc5
      · exact ⟨by decide, by decide⟩
      · exact valOk_digit (fmtFrS_map_digits h c hc5)

theorem fmtFixed2_chars (neg : Bool) (h : ℕ) :
    ∀ c ∈ fmtFixed2 neg h, valOkChar c = true ∧ c ≠ ' ' := by
  unfold fmtFixed2
  intro c hc
  cases neg with
  | true =>
      simp only [if_true] at hc
      rcases List.mem_cons.1 hc with rfl | hc1
      · exact ⟨by decide, by decide⟩
      · rcases List.mem_append.1 hc1 with hc2 | hc3
        · exact valOk_digit (natDecimal_digits _ c hc2)
        · rcases List.mem_cons.1 hc3 with rfl | hc4
          · exact ⟨by decide, by decide⟩
          · rcases List.mem_cons.1 hc4 with rfl | hc5
            · exact valOk_digit (digitChar_digit (by omega))
            · rcases List.mem_singleton.1 hc5 with rfl
              exact valOk_digit (digitChar_digit (by omega))
  | false =>
      simp only [if_false, Bool.false_eq_true] at hc
      rcases List.mem_append.1 hc with hc2 | hc3
      · exact valOk_digit (natDecimal_digits _ c hc2)
      · rcases List.mem_cons.1 hc3 with rfl | hc4
        · exact ⟨by decide, by decide⟩
        · rcases List.mem_cons.1 hc4 with rfl | hc5
          · exact valOk_digit (digitChar_digit (by omega))
          · rcases List.mem_singleton.1 hc5 with rfl
            exact valOk_digit (digitChar_digit (by omega))

theorem fmtFixed2_ne_nil (neg : Bool) (h : ℕ) : fmtFixed2 neg h ≠ [] := by
  unfold fmtFixed2
  cases neg with
  | true => simp
  | false =>
      simp only [if_false, Bool.false_eq_true]
      intro hcon
      exact natDecimal_ne_nil _ (List.append_eq_nil.1 hcon).1

/-! ### cleanVal of generated values -/

/-- The character before position len, threading an initial value. -/
def lastDO : Option Char → List Char → Option Char
  | p, [] => p
  | _, c :: cs => lastDO (some c) cs

theorem cleanValGo_append : ∀ (xs ys : List Char) (p : Option Char),
    cleanValGo p (xs ++ ys) = (cleanValGo p xs && cleanValGo (lastDO p xs) ys) := by
  intro xs
  induction xs with
  | nil => intro ys p; simp [cleanValGo, lastDO]
  | cons c cs ih =>
      intro ys p
      show cleanValGo p (c :: (cs ++ ys)) = _
      conv_lhs => unfold cleanValGo
      rw [ih ys (some c)]
      conv_rhs => rw [show cleanValGo p (c :: cs) =
          ((valOkChar c && !(decide (c = ' ') && decide (p = some ' '))) &&
            cleanValGo (some c) cs) from rfl,
        show lastDO p (c :: cs) = lastDO (some c) cs from rfl]
      exact (Bool.and_assoc _ _ _).symm

theorem cleanValGo_nospace {v : List Char}
    (h : ∀ c ∈ v, valOkChar c = true ∧ c ≠ ' ') :
    ∀ p, cleanValGo p v = true := by
  induction v with
  | nil => intro p; rfl
  | cons c cs ih =>
      intro p
      unfold cleanValGo
      rw [(h c (List.mem_cons_self _ _)).1,
        decide_eq_false (h c (List.mem_cons_self _ _)).2]
      rw [ih fun d hd => h d (List.mem_cons_of_mem _ hd)]
      rfl

theorem cleanValGo_space_cons (p : Option Char) (hp : p ≠ some ' ')
    (rest : List Char) :
    cleanValGo p (' ' :: rest) = cleanValGo (some ' ') rest := by
  conv_lhs => unfold cleanValGo
  rw [decide_eq_false hp]
  rw [show (valOkChar ' ' && !(decide ((' ' : Char) = ' ') && false)) = true from rfl,
    Bool.true_and]

theorem map_eq_self_mem {α : Type} {f : α → α} :
    ∀ {l : List α}, l.map f = l → ∀ x ∈ l, f x = x := by
  intro l
  induction l with
  | nil => intro _ x hx; cases hx
  | cons a as ih =>
      intro h x hx
      rw [List.map_cons] at h
      injection h with h1 h2
      rcases List.mem_cons.1 hx with rfl | hx2
      · exact h1
      · exact ih h2 x hx2

theorem lastDO_ne_space {w : List Char} (hne : w ≠ [])
    (h : ∀ c ∈ w, c ≠ ' ') : ∀ p, lastDO p w ≠ some ' ' := by
  induction w with
  | nil => exact absurd rfl hne
  | cons c cs ih =>
      intro p
      show lastDO (some c) cs ≠ some ' '
      cases cs with
      | nil =>
          show some c ≠ some ' '
          intro hcon
          injection hcon with hc
          exact absurd hc (h c (List.mem_cons_self _ _))
      | cons d ds =>
          exact ih (by simp) (fun e he => h e (List.mem_cons_of_mem _ he)) (some c)

/-- Word lists whose characters are clean and never a space. -/
def wsChars (ws : List (List Char)) : Prop :=
  ∀ w ∈ ws, w ≠ [] ∧ ∀ c ∈ w, valOkChar c = true ∧ c ≠ ' '

theorem cleanValGo_joinSpTail : ∀ (ws : List (List Char)), wsChars ws →
    ∀ p, p ≠ some ' ' → cleanValGo p (joinSpTail ws) = true := by
  intro ws
  induction ws with
  | nil => intro _ p _; rfl
  | cons w ws ih =>
      intro h p hp
      show cleanValGo p (' ' :: (w ++ joinSpTail ws)) = true
      rw [cleanValGo_space_cons p hp]
      rw [cleanValGo_append]
      rw [cleanValGo_nospace (h w (List.mem_cons_self _ _)).2 (some ' ')]
      rw [ih (fun u hu => h u (List.mem_cons_of_mem _ hu)) _
        (lastDO_ne_space (h w (List.mem_cons_self _ _)).1
          (fun c hc => ((h w (List.mem_cons_self _ _)).2 c hc).2) (some ' '))]
      rfl

theorem cleanValGo_joinSp (ws : List (List Char)) (h : wsChars ws)
    (p : Option Char) : cleanValGo p (joinSp ws) = true := by
  cases ws with
  | nil => rfl
  | cons w ws =>
      show cleanValGo p (w ++ joinSpTail ws) = true
      rw [cleanValGo_append,
        cleanValGo_nospace (h w (List.mem_cons_self _ _)).2 p,
        cleanValGo_joinSpTail ws (fun u hu => h u (List.mem_cons_of_mem _ hu)) _
          (lastDO_ne_space (h w (List.mem_cons_self _ _)).1
            (fun c hc => ((h w (List.mem_cons_self _ _)).2 c hc).2) p)]
      rfl

theorem wsChars_of_fixed {ws : List (List Char)} (hok : wordsOk ws = true)
    (hfix : ws.map roundWord = ws) : wsChars ws := by
  intro w hw
  unfold wordsOk at hok
  rw [List.all_eq_true] at hok
  obtain ⟨hne, hcase⟩ := wordOk_elim (hok w hw)
  refine ⟨hne, ?_⟩
  rcases hcase with hnum | hplain
  · have hfw : roundWord w = w := map_eq_self_mem hfix w hw
    rw [← hfw, roundWord_of_num hnum]
    exact fmt2strip_chars _ _
  · intro c hc
    rw [List.all_eq_true] at hplain
    have hp := hplain c hc
    unfold plainChar at hp
    simp only [Bool.and_eq_true, Bool.not_eq_true', decide_eq_true_eq] at hp
    exact ⟨hp.1.1.1.1, hp.2⟩

theorem cleanVal_of_stableD {v : String} (hv : stableD v) : cleanVal v = true := by
  obtain ⟨ws, hok, hfix, hdata⟩ := hv
  unfold cleanVal
  rw [hdata]
  exact cleanValGo_joinSp ws (wsChars_of_fixed hok hfix) none

theorem cleanVal_fmtStr2 (neg : Bool) (h : ℕ) :
    cleanVal ⟨fmtStr2 neg h⟩ = true :=
  cleanValGo_nospace (fmtStr2_chars neg h) none

theorem cleanVal_vbval (a : Bool) (b : ℕ) (a2 : Bool) (b2 : ℕ) :
    cleanVal ⟨'0' :: ' ' :: '0' :: ' ' :: fmtFixed2 a b ++
      ' ' :: fmtFixed2 a2 b2⟩ = true := by
  have hlast := lastDO_ne_space (fmtFixed2_ne_nil a b)
    (fun c hc => (fmtFixed2_chars a b c hc).2) (some ' ')
  show cleanValGo none ('0' :: ' ' :: '0' :: ' ' ::
    (fmtFixed2 a b ++ ' ' :: fmtFixed2 a2 b2)) = true
  rw [show cleanValGo none ('0' :: ' ' :: '0' :: ' ' ::
      (fmtFixed2 a b ++ ' ' :: fmtFixed2 a2 b2)) =
    cleanValGo (some ' ') (fmtFixed2 a b ++ ' ' :: fmtFixed2 a2 b2) from rfl]
  rw [cleanValGo_append]
  rw [cleanValGo_nospace (fmtFixed2_chars a b) (some ' ')]
  rw [cleanValGo_space_cons _ hlast]
  rw [cleanValGo_nospace (fmtFixed2_chars a2 b2) (some ' ')]
  rfl

/-! ### Serialization wellformedness -/

/-- An attribute fit for faithful serialization: nonempty
name-character key and a clean value. -/
def sOkA (kv : String × String) : Bool :=
  !kv.1.data.isEmpty && kv.1.data.all nameChar && cleanVal kv.2

mutual
def sOkT : XTree → Bool
  | .node n attrs c =>
      !n.data.isEmpty && n.data.all nameChar && attrs.all sOkA && sOkF c
def sOkF : XForest → Bool
  | .nil => true
  | .cons t ts => sOkT t && sOkF ts
end

theorem roundAttr_cleanA {kv : String × String} (h : cleanA kv = true) :
    roundAttr (roundAttr kv) = roundAttr kv ∧ (roundAttr kv).1 = kv.1 ∧
    sOkA (roundAttr kv) = true := by
  obtain ⟨k, v⟩ := kv
  unfold cleanA at h
  simp only [Bool.and_eq_true] at h
  obtain ⟨⟨⟨⟨hk1, hk2⟩, hval⟩, hdcond⟩, hncond⟩ := h
  by_cases hd : k = "d"
  · subst hd
    rw [if_pos rfl] at hdcond
    obtain ⟨v2, hv2eq, hv2st⟩ := roundAttr_d_of_dOk v hdcond
    rw [hv2eq]
    refine ⟨roundAttr_d_stable v2 hv2st, rfl, ?_⟩
    unfold sOkA
    rw [cleanVal_of_stableD hv2st]
    show (!("d" : String).data.isEmpty && ("d" : String).data.all nameChar &&
      true) = true
    decide
  · by_cases hn : k ∈ numericAttrKeys
    · rw [if_pos hn] at hncond
      obtain ⟨neg, h2, heq⟩ := roundAttr_num_of_parse k v hn hncond
      rw [heq]
      refine ⟨roundAttr_num_stable k hn neg h2, rfl, ?_⟩
      unfold sOkA
      rw [show (k, (⟨fmtStr2 neg h2⟩ : String)).1 = k from rfl]
      rw [hk1, hk2, cleanVal_fmtStr2]
      rfl
    · rw [roundAttr_other k v hd hn]
      exact ⟨roundAttr_other k v hd hn, rfl,
        by unfold sOkA; rw [hk1, hk2, hval]; rfl⟩

/-! ### Rounding preserves the structural clean facts -/

theorem onlyId_map_round (attrs : List (String × String)) :
    onlyIdAttrs (attrs.map roundAttr) = onlyIdAttrs attrs := by
  unfold onlyIdAttrs
  induction attrs with
  | nil => rfl
  | cons kv rest ih =>
      rw [List.map_cons]
      by_cases hkv : kv.1 ≠ "id"
      · rw [List.filter_cons_of_pos (by simp [roundAttr_fst, hkv]),
          List.filter_cons_of_pos (by simp [hkv])]
        rfl
      · rw [List.filter_cons_of_neg (by simp [roundAttr_fst]; simpa using hkv),
          List.filter_cons_of_neg (by simpa using hkv)]
        exact ih

theorem attrGet_map_round_other (attrs : List (String × String)) (k : String)
    (hkd : k ≠ "d") (hkn : k ∉ numericAttrKeys) :
    attrGet (attrs.map roundAttr) k = attrGet attrs k := by
  induction attrs with
  | nil => rfl
  | cons kv rest ih =>
      rw [List.map_cons]
      unfold attrGet
      by_cases hk : kv.1 = k
      · rw [List.find?_cons_of_pos _ (by simp [roundAttr_fst, hk]),
          List.find?_cons_of_pos _ (by simp [hk])]
        have hfx : roundAttr kv = kv := by
          obtain ⟨k1, v1⟩ := kv
          have hk1 : k1 = k := hk
          subst hk1
          exact roundAttr_other k1 v1 hkd hkn
        rw [hfx]
      · rw [List.find?_cons_of_neg _ (by simp [roundAttr_fst, hk]),
          List.find?_cons_of_neg _ (by simp [hk])]
        exact ih

theorem mergeableB_round (a b : XTree) :
    mergeableB (roundTree a) (roundTree b) = mergeableB a b := by
  obtain ⟨na, aa, ca⟩ := a
  obtain ⟨nb, ab, cb⟩ := b
  show (localName na == "path" && localName nb == "path" &&
      (attrGet (aa.map roundAttr) "fill").getD "" ==
        (attrGet (ab.map roundAttr) "fill").getD "" &&
      (attrGet (aa.map roundAttr) "fill-rule").getD "" ==
        (attrGet (ab.map roundAttr) "fill-rule").getD "" &&
      !((attrGet (aa.map roundAttr) "fill").getD "" == "")) =
    (localName na == "path" && localName nb == "path" &&
      (attrGet aa "fill").getD "" == (attrGet ab "fill").getD "" &&
      (attrGet aa "fill-rule").getD "" == (attrGet ab "fill-rule").getD "" &&
      !((attrGet aa "fill").getD "" == ""))
  rw [attrGet_map_round_other aa "fill" (by decide) (by decide),
    attrGet_map_round_other ab "fill" (by decide) (by decide),
    attrGet_map_round_other aa "fill-rule" (by decide) (by decide),
    attrGet_map_round_other ab "fill-rule" (by decide) (by decide)]

theorem noAdjMerge_round : ∀ (c : XForest),
    noAdjMerge (roundForest c) = noAdjMerge c
  | .nil => rfl
  | .cons t .nil => rfl
  | .cons t (.cons b ts2) => by
      show ((!mergeableB (roundTree t) (roundTree b)) &&
          noAdjMerge (.cons (roundTree b) (roundForest ts2))) =
        ((!mergeableB t b) && noAdjMerge (.cons b ts2))
      rw [mergeableB_round,
        show XForest.cons (roundTree b) (roundForest ts2) =
          roundForest (.cons b ts2) from rfl,
        noAdjMerge_round (.cons b ts2)]

mutual
theorem cleanT_round : ∀ (t : XTree), cleanT t = true →
    allAttrsT (fun kv => roundAttr kv = kv) (roundTree t) ∧
    sOkT (roundTree t) = true ∧ noGCollT (roundTree t) ∧ noAdjAllT (roundTree t)
  | .node n attrs c, h => by
      unfold cleanT at h
      simp only [Bool.and_eq_true] at h
      obtain ⟨⟨⟨⟨⟨⟨hn1, hn2⟩, hgc⟩, hattrs⟩, hnodup⟩, hadj⟩, hcf⟩ := h
      have hF := cleanF_round c hcf
      rw [List.all_eq_true] at hattrs
      refine ⟨⟨?_, hF.1⟩, ?_, ⟨?_, hF.2.2.1⟩, ⟨?_, hF.2.2.2⟩⟩
      · intro kv2 hkv2
        rcases List.mem_map.1 hkv2 with ⟨kv, hkv, rfl⟩
        exact (roundAttr_cleanA (hattrs kv hkv)).1
      · show (!n.data.isEmpty && n.data.all nameChar &&
          (attrs.map roundAttr).all sOkA && sOkF (roundForest c)) = true
        have hall : (attrs.map roundAttr).all sOkA = true := by
          rw [List.all_eq_true]
          intro kv2 hkv2
          rcases List.mem_map.1 hkv2 with ⟨kv, hkv, rfl⟩
          exact (roundAttr_cleanA (hattrs kv hkv)).2.2
        rw [hn1, hn2, hall, hF.2.1]
        rfl
      · show (localName n == "g" && onlyIdAttrs (attrs.map roundAttr)) = false
        rw [onlyId_map_round]
        rwa [Bool.not_eq_true'] at hgc
      · show noAdjMerge (roundForest c) = true
        rw [noAdjMerge_round c]
        exact hadj
theorem cleanF_round : ∀ (f : XForest), cleanF f = true →
    allAttrsF (fun kv => roundAttr kv = kv) (roundForest f) ∧
    sOkF (roundForest f) = true ∧ noGCollF (roundForest f) ∧ noAdjAllF (roundForest f)
  | .nil, _ => ⟨trivial, rfl, trivial, trivial⟩
  | .cons t ts, h => by
      unfold cleanF at h
      rw [Bool.and_eq_true] at h
      have h1 := cleanT_round t h.1
      have h2 := cleanF_round ts h.2
      refine ⟨⟨h1.1, h2.1⟩, ?_, ⟨h1.2.2.1, h2.2.2.1⟩, ⟨h1.2.2.2, h2.2.2.2⟩⟩
      show (sOkT (roundTree t) && sOkF (roundForest ts)) = true
      rw [h1.2.1, h2.2.1]
      rfl
end

/-! ### The viewBox pass preserves the clean facts -/

theorem mem_attrSet {attrs : List (String × String)} {k v : String} :
    ∀ kv ∈ attrSet attrs k v, kv ∈ attrs ∨ kv = (k, v) := by
  intro kv hkv
  unfold attrSet at hkv
  split at hkv
  · rcases List.mem_map.1 hkv with ⟨kv0, hkv0, rfl⟩
    by_cases hk : kv0.1 = k
    · rw [if_pos hk]
      right
      rfl
    · rw [if_neg hk]
      left
      exact hkv0
  · rcases List.mem_append.1 hkv with h1 | h2
    · left; exact h1
    · right; exact List.mem_singleton.1 h2

theorem onlyId_attrSet_vb (attrs : List (String × String)) (vb : String) :
    onlyIdAttrs (attrSet attrs "viewBox" vb) = false := by
  have hget := attrGet_attrSet_same "viewBox" vb attrs
  unfold attrGet at hget
  cases hfind : List.find? (fun kv => decide (kv.1 = "viewBox"))
      (attrSet attrs "viewBox" vb) with
  | none => rw [hfind] at hget; cases hget
  | some kv0 =>
      have hmem := List.mem_of_find?_eq_some hfind
      have hkey : kv0.1 = "viewBox" := by simpa using List.find?_some hfind
      have hmf : kv0 ∈ (attrSet attrs "viewBox" vb).filter
          (fun kv => decide (kv.1 ≠ "id")) :=
        List.mem_filter.2 ⟨hmem, by rw [hkey]; decide⟩
      unfold onlyIdAttrs
      cases hfl : (attrSet attrs "viewBox" vb).filter
          (fun kv => decide (kv.1 ≠ "id")) with
      | nil => rw [hfl] at hmf; cases hmf
      | cons x xs => rfl

theorem viewbox_preserve (r : XTree)
    (hA : allAttrsT (fun kv => roundAttr kv = kv) r) (hs : sOkT r = true)
    (hg : noGCollT r) (ha : noAdjAllT r) :
    allAttrsT (fun kv => roundAttr kv = kv) (viewboxFix r) ∧
    sOkT (viewboxFix r) = true ∧ noGCollT (viewboxFix r) ∧ noAdjAllT (viewboxFix r) := by
  rcases viewboxFix_cases r with h | ⟨n, attrs, c, dw, dh, hteq, hfix, hw, hh⟩
  · rw [h]
    exact ⟨hA, hs, hg, ha⟩
  · subst hteq
    rw [hfix]
    unfold sOkT at hs
    simp only [Bool.and_eq_true] at hs
    obtain ⟨⟨⟨hs1, hs2⟩, hs3⟩, hs4⟩ := hs
    rw [List.all_eq_true] at hs3
    refine ⟨⟨?_, hA.2⟩, ?_, ⟨?_, hg.2⟩, ⟨ha.1, ha.2⟩⟩
    · intro kv hkv
      rcases mem_attrSet kv hkv with hin | rfl
      · exact hA.1 kv hin
      · exact roundAttr_other _ _ (by decide) (by decide)
    · show (!n.data.isEmpty && n.data.all nameChar &&
        (attrSet attrs "viewBox" _).all sOkA && sOkF c) = true
      have hall : (attrSet attrs "viewBox"
          (⟨'0' :: ' ' :: '0' :: ' ' :: fmtFixed2 dw.neg (round2H dw) ++
            ' ' :: fmtFixed2 dh.neg (round2H dh)⟩ : String)).all sOkA = true := by
        rw [List.all_eq_true]
        intro kv hkv
        rcases mem_attrSet kv hkv with hin | rfl
        · exact hs3 kv hin
        · unfold sOkA
          rw [cleanVal_vbval]
          show (!("viewBox" : String).data.isEmpty &&
            ("viewBox" : String).data.all nameChar && true) = true
          decide
      rw [hs1, hs2, hall, hs4]
      rfl
    · show (localName n == "g" && onlyIdAttrs (attrSet attrs "viewBox" _)) = false
      rw [onlyId_attrSet_vb]
      rw [Bool.and_false]

/-! ### The first pass reaches a fixed point of all four transforms -/

theorem cleanT_pipeline (t : XTree) (h : cleanT t = true) :
    mergeT (collapseT (roundTree t)) = roundTree t ∧
    roundTree (viewboxFix (roundTree t)) = viewboxFix (roundTree t) ∧
    collapseT (viewboxFix (roundTree t)) = viewboxFix (roundTree t) ∧
    mergeT (viewboxFix (roundTree t)) = viewboxFix (roundTree t) ∧
    viewboxFix (viewboxFix (roundTree t)) = viewboxFix (roundTree t) ∧
    sOkT (viewboxFix (roundTree t)) = true := by
  obtain ⟨hA, hs, hg, ha⟩ := cleanT_round t h
  obtain ⟨hA2, hs2, hg2, ha2⟩ := viewbox_preserve (roundTree t) hA hs hg ha
  refine ⟨?_, roundTree_fix _ hA2, collapseT_fix _ hg2, mergeT_fix _ ha2,
    viewboxFix_idem _, hs2⟩
  rw [collapseT_fix _ hg, mergeT_fix _ ha]

/-! ### A scanner for minify-inert text

All five passes of _minify only act at whitespace.  minOk p s nxt
checks that every character of s is uncontrolled, not a comment
character, and that every space is a plain space whose neighbours are
neither whitespace nor one of the punctuation targets; p is the
character before s, nxt the one after. -/

def headD : List Char → Option Char → Option Char
  | [], nxt => nxt
  | c :: _, _ => some c

def tgtFree (c : Char) : Bool := !(c = '>' || c = '<' || c = '=')

def okNbr : Option Char → Bool
  | some d => !pyIsSpace d && tgtFree d
  | none => false

def minOk (p : Option Char) : List Char → Option Char → Bool
  | [], _ => true
  | c :: rest, nxt =>
      ((!isCtlWs c && c ≠ '!' &&
        (!pyIsSpace c || (c = ' ' && okNbr p && okNbr (headD rest nxt))))) &&
      minOk (some c) rest nxt

theorem minOk_cons (p : Option Char) (c : Char) (rest : List Char)
    (nxt : Option Char) :
    minOk p (c :: rest) nxt =
      (((!isCtlWs c && c ≠ '!' &&
        (!pyIsSpace c || (c = ' ' && okNbr p && okNbr (headD rest nxt))))) &&
      minOk (some c) rest nxt) := rfl

theorem headD_append (xs ys : List Char) (nxt : Option Char) :
    headD (xs ++ ys) nxt = headD xs (headD ys nxt) := by
  cases xs <;> rfl

theorem lastDO_append : ∀ (xs ys : List Char) (p : Option Char),
    lastDO p (xs ++ ys) = lastDO (lastDO p xs) ys := by
  intro xs
  induction xs with
  | nil => intro ys p; rfl
  | cons c cs ih => intro ys p; exact ih ys (some c)

theorem minOk_append : ∀ (xs ys : List Char) (p : Option Char) (nxt : Option Char),
    minOk p (xs ++ ys) nxt =
      (minOk p xs (headD ys nxt) && minOk (lastDO p xs) ys nxt) := by
  intro xs
  induction xs with
  | nil => intro ys p nxt; rw [show minOk p [] (headD ys nxt) = true from rfl]; rfl
  | cons c cs ih =>
      intro ys p nxt
      show minOk p (c :: (cs ++ ys)) nxt = _
      rw [minOk_cons, headD_append, ih ys (some c) nxt]
      conv_rhs => rw [minOk_cons, show lastDO p (c :: cs) = lastDO (some c) cs from rfl]
      exact (Bool.and_assoc _ _ _).symm

theorem minOk_noSpace {s : List Char}
    (h : ∀ c ∈ s, isCtlWs c = false ∧ c ≠ '!' ∧ pyIsSpace c = false) :
    ∀ (p nxt : Option Char), minOk p s nxt = true := by
  induction s with
  | nil => intro p nxt; rfl
  | cons c cs ih =>
      intro p nxt
      rw [minOk_cons]
      obtain ⟨h1, h2, h3⟩ := h c (List.mem_cons_self _ _)
      rw [h1, h3, decide_eq_true h2,
        ih (fun d hd => h d (List.mem_cons_of_mem _ hd)) (some c) nxt]
      rfl

theorem minOk_mem : ∀ {s : List Char} {p nxt : Option Char},
    minOk p s nxt = true → ∀ c ∈ s, isCtlWs c = false ∧ c ≠ '!' := by
  intro s
  induction s with
  | nil => intro p nxt _ c hc; cases hc
  | cons a as ih =>
      intro p nxt h c hc
      rw [minOk_cons, Bool.and_eq_true, Bool.and_eq_true, Bool.and_eq_true] at h
      rcases List.mem_cons.1 hc with rfl | hc2
      · exact ⟨by
          have := h.1.1.1
          rwa [Bool.not_eq_true'] at this,
          of_decide_eq_true h.1.1.2⟩
      · exact ih h.2 c hc2

/-! ### Character classes are minify-safe -/

theorem char_safe_range {c : Char}
    (h : (48 ≤ c.toNat ∧ c.toNat ≤ 57) ∨ (65 ≤ c.toNat ∧ c.toNat ≤ 90) ∨
      (97 ≤ c.toNat ∧ c.toNat ≤ 122)) :
    isCtlWs c = false ∧ c ≠ '!' ∧ pyIsSpace c = false ∧ tgtFree c = true ∧
      c ≠ '/' ∧ c ≠ '"' := by
  have h9 : c ≠ Char.ofNat 9 := char_ne_of_toNat (by show c.toNat ≠ 9; omega)
  have h10 : c ≠ Char.ofNat 10 := char_ne_of_toNat (by show c.toNat ≠ 10; omega)
  have h11 : c ≠ Char.ofNat 11 := char_ne_of_toNat (by show c.toNat ≠ 11; omega)
  have h12 : c ≠ Char.ofNat 12 := char_ne_of_toNat (by show c.toNat ≠ 12; omega)
  have h13 : c ≠ Char.ofNat 13 := char_ne_of_toNat (by show c.toNat ≠ 13; omega)
  have h32 : c ≠ ' ' := char_ne_of_toNat (by show c.toNat ≠ 32; omega)
  have h33 : c ≠ '!' := char_ne_of_toNat (by show c.toNat ≠ 33; omega)
  have h34 : c ≠ '"' := char_ne_of_toNat (by show c.toNat ≠ 34; omega)
  have h47 : c ≠ '/' := char_ne_of_toNat (by show c.toNat ≠ 47; omega)
  have h60 : c ≠ '<' := char_ne_of_toNat (by show c.toNat ≠ 60; omega)
  have h61 : c ≠ '=' := char_ne_of_toNat (by show c.toNat ≠ 61; omega)
  have h62 : c ≠ '>' := char_ne_of_toNat (by show c.toNat ≠ 62; omega)
  refine ⟨?_, h33, ?_, ?_, h47, h34⟩
  · simp [isCtlWs, h9, h10, h13]
  · simp [pyIsSpace, h9, h10, h11, h12, h13, h32]
  · simp [tgtFree, h60, h61, h62]

theorem nameChar_facts {c : Char} (h : nameChar c = true) :
    isCtlWs c = false ∧ c ≠ '!' ∧ pyIsSpace c = false ∧ tgtFree c = true ∧
      c ≠ '/' ∧ c ≠ '"' := by
  unfold nameChar at h
  simp only [Bool.or_eq_true, Bool.and_eq_true, decide_eq_true_eq] at h
  rcases h with ((((((hd | hu) | hl) | he) | he) | he) | he)
  · unfold isDigitCh at hd
    rw [Bool.and_eq_true, decide_eq_true_eq, decide_eq_true_eq] at hd
    exact char_safe_range (Or.inl hd)
  · exact char_safe_range (Or.inr (Or.inl hu))
  · exact char_safe_range (Or.inr (Or.inr hl))
  · subst he; refine ⟨rfl, by decide, rfl, rfl, by decide, by decide⟩
  · subst he; refine ⟨rfl, by decide, rfl, rfl, by decide, by decide⟩
  · subst he; refine ⟨rfl, by decide, rfl, rfl, by decide, by decide⟩
  · subst he; refine ⟨rfl, by decide, rfl, rfl, by decide, by decide⟩

theorem valOkChar_facts {c : Char} (h : valOkChar c = true) :
    isCtlWs c = false ∧ c ≠ '!' ∧ tgtFree c = true ∧
      (pyIsSpace c = true → c = ' ') := by
  unfold valOkChar at h
  simp only [Bool.and_eq_true, Bool.not_eq_true', Bool.or_eq_true,
    decide_eq_true_eq] at h
  obtain ⟨⟨⟨⟨⟨⟨⟨h1, h2⟩, h3⟩, h4⟩, h5⟩, h6⟩, h7⟩, h8⟩ := h
  refine ⟨h1, h7, ?_, ?_⟩
  · unfold tgtFree
    simp [h4, h5, h6]
  · intro hsp
    rcases h2 with h2 | h2
    · rw [h2] at hsp; cases hsp
    · exact h2

theorem okNbr_of_nameChar {c : Char} (h : nameChar c = true) :
    okNbr (some c) = true := by
  obtain ⟨_, _, h3, h4, _, _⟩ := nameChar_facts h
  show (!pyIsSpace c && tgtFree c) = true
  rw [h3, h4]
  rfl

theorem okNbr_of_valOk {c : Char} (h : valOkChar c = true) (hsp : c ≠ ' ') :
    okNbr (some c) = true := by
  obtain ⟨_, _, h3, h4⟩ := valOkChar_facts h
  show (!pyIsSpace c && tgtFree c) = true
  rw [h3]
  cases hp : pyIsSpace c with
  | false => rfl
  | true => exact absurd (h4 hp) hsp

theorem lastDO_of_ne_nil {l : List Char} (h : l ≠ []) (p : Option Char) :
    ∃ b ∈ l, lastDO p l = some b := by
  induction l generalizing p with
  | nil => exact absurd rfl h
  | cons c cs ih =>
      cases cs with
      | nil => exact ⟨c, List.mem_cons_self _ _, rfl⟩
      | cons d ds =>
          obtain ⟨b, hb, heq⟩ := ih (by simp) (some c)
          exact ⟨b, List.mem_cons_of_mem _ hb, heq⟩

theorem cleanValGo_p_irrel {p1 p2 : Option Char} (h1 : p1 ≠ some ' ')
    (h2 : p2 ≠ some ' ') (v : List Char) : cleanValGo p1 v = cleanValGo p2 v := by
  cases v with
  | nil => rfl
  | cons c cs =>
      show ((valOkChar c && !(decide (c = ' ') && decide (p1 = some ' '))) &&
          cleanValGo (some c) cs) =
        ((valOkChar c && !(decide (c = ' ') && decide (p2 = some ' '))) &&
          cleanValGo (some c) cs)
      rw [decide_eq_false h1, decide_eq_false h2]

theorem minOk_val : ∀ (v : List Char) (p : Option Char) (nxt : Option Char),
    (okNbr p = true ∨ p = some ' ') → cleanValGo p v = true →
    minOk p (v ++ ['"']) nxt = true := by
  intro v
  induction v with
  | nil =>
      intro p nxt _ _
      rfl
  | cons c cs ih =>
      intro p nxt hp hv
      have hv2 : ((valOkChar c && !(decide (c = ' ') && decide (p = some ' '))) &&
          cleanValGo (some c) cs) = true := hv
      rw [Bool.and_eq_true, Bool.and_eq_true] at hv2
      obtain ⟨⟨hvo, hdb⟩, hrest⟩ := hv2
      obtain ⟨hctl, hbang, htf, hws⟩ := valOkChar_facts hvo
      show minOk p (c :: (cs ++ ['"'])) nxt = true
      rw [minOk_cons, Bool.and_eq_true, Bool.and_eq_true, Bool.and_eq_true]
      refine ⟨⟨⟨by rw [hctl]; rfl, decide_eq_true hbang⟩, ?_⟩, ?_⟩
      · cases hsp : pyIsSpace c with
        | false => rfl
        | true =>
            have hceq : c = ' ' := hws hsp
            subst hceq
            have hop : okNbr p = true := by
              rcases hp with hp | hp
              · exact hp
              · rw [hp] at hdb
                exact absurd hdb (by decide)
            have hnx : okNbr (headD (cs ++ ['"']) nxt) = true := by
              cases cs with
              | nil => rfl
              | cons c2 cs2 =>
                  show okNbr (some c2) = true
                  have hr : ((valOkChar c2 &&
                      !(decide (c2 = ' ') &&
                        decide ((some ' ' : Option Char) = some ' '))) &&
                      cleanValGo (some c2) cs2) = true := hrest
                  rw [Bool.and_eq_true, Bool.and_eq_true] at hr
                  have hc2ne : c2 ≠ ' ' := by
                    intro hcon
                    have h3 := hr.1.2
                    rw [hcon] at h3
                    exact absurd h3 (by decide)
                  exact okNbr_of_valOk hr.1.1 hc2ne
            rw [hop, hnx]
            rfl
      · cases hsp : pyIsSpace c with
        | true =>
            have hceq : c = ' ' := hws hsp
            subst hceq
            exact ih (some ' ') nxt (Or.inr rfl) hrest
        | false =>
            have hcne : c ≠ ' ' := by
              intro hcon
              rw [hcon] at hsp
              exact absurd hsp (by decide)
            exact ih (some c) nxt (Or.inl (okNbr_of_valOk hvo hcne)) hrest

theorem minOk_attrPiece (k v : String) (hk1 : k.data ≠ [])
    (hk2 : ∀ ch ∈ k.data, nameChar ch = true) (hv : cleanVal v = true)
    (p : Option Char) (nxt : Option Char) (hp : okNbr p = true) :
    minOk p (' ' :: (k.data ++ '=' :: '"' :: v.data ++ ['"'])) nxt = true := by
  obtain ⟨k0, ktl, hkc⟩ : ∃ k0 ktl, k.data = k0 :: ktl := by
    cases hc : k.data with
    | nil => exact absurd hc hk1
    | cons x xs => exact ⟨x, xs, rfl⟩
  rw [minOk_cons, Bool.and_eq_true, Bool.and_eq_true, Bool.and_eq_true]
  refine ⟨⟨⟨rfl, by decide⟩, ?_⟩, ?_⟩
  · rw [hkc]
    show (!pyIsSpace ' ' ||
      (decide ((' ' : Char) = ' ') && okNbr p && okNbr (some k0))) = true
    rw [hp, okNbr_of_nameChar (hk2 k0 (by rw [hkc]; exact List.mem_cons_self _ _))]
    rfl
  · rw [show (k.data ++ '=' :: '"' :: v.data ++ ['"']) =
      (k.data ++ ('=' :: '"' :: (v.data ++ ['"']))) from by simp]
    rw [minOk_append]
    rw [minOk_noSpace (fun d hd => by
      obtain ⟨f1, f2, f3, _, _, _⟩ := nameChar_facts (hk2 d hd)
      exact ⟨f1, f2, f3⟩)]
    rw [Bool.true_and]
    show minOk (some '"') (v.data ++ ['"']) nxt = true
    apply minOk_val v.data (some '"') nxt (Or.inl rfl)
    rw [@cleanValGo_p_irrel (some '"') none (by simp) (by simp)]
    exact hv

theorem lastDO_attrPiece (kv : String × String) (p : Option Char) :
    lastDO p (' ' :: (kv.1.data ++ '=' :: '"' :: kv.2.data ++ ['"'])) = some '"' := by
  rw [show (' ' :: (kv.1.data ++ '=' :: '"' :: kv.2.data ++ ['"'])) =
    ((' ' :: (kv.1.data ++ '=' :: '"' :: kv.2.data)) ++ ['"']) from by simp]
  rw [lastDO_append]
  rfl

theorem minOk_attrsChars : ∀ (attrs : List (String × String)),
    attrs.all sOkA = true → ∀ (p nxt : Option Char), okNbr p = true →
    minOk p (attrsChars attrs) nxt = true := by
  intro attrs
  induction attrs with
  | nil => intro _ p nxt _; rfl
  | cons kv rest ih =>
      intro h p nxt hp
      rw [List.all_cons, Bool.and_eq_true] at h
      have hA : sOkA kv = true := h.1
      unfold sOkA at hA
      rw [Bool.and_eq_true, Bool.and_eq_true] at hA
      obtain ⟨⟨hA1, hA2⟩, hA3⟩ := hA
      have hk1 : kv.1.data ≠ [] := by
        intro hcon
        rw [hcon] at hA1
        exact absurd hA1 (by decide)
      rw [List.all_eq_true] at hA2
      show minOk p ((' ' :: (kv.1.data ++ '=' :: '"' :: kv.2.data ++ ['"'])) ++
        attrsChars rest) nxt = true
      rw [minOk_append,
        minOk_attrPiece kv.1 kv.2 hk1 hA2 hA3 p _ hp,
        lastDO_attrPiece kv p,
        ih h.2 (some '"') nxt rfl]
      rfl

/-! ### Serialized trees satisfy the scanner -/

theorem getLast?_append_right (l1 l2 : List Char) (h : l2 ≠ []) :
    (l1 ++ l2).getLast? = l2.getLast? := by
  rw [← List.head?_reverse, ← List.head?_reverse, List.reverse_append]
  obtain ⟨c, cs, hc⟩ : ∃ c cs, l2.reverse = c :: cs := by
    cases hr : l2.reverse with
    | nil =>
        rw [List.reverse_eq_nil_iff] at hr
        exact absurd hr h
    | cons x xs => exact ⟨x, xs, rfl⟩
  rw [hc]
  rfl

theorem serializeT_head : ∀ (t : XTree), (serializeT t).head? = some '<'
  | .node _ _ .nil => rfl
  | .node _ _ (.cons _ _) => rfl

theorem serializeT_ne_nil (t : XTree) : serializeT t ≠ [] := by
  intro h
  have h2 := serializeT_head t
  rw [h] at h2
  cases h2

theorem serializeT_last : ∀ (t : XTree), (serializeT t).getLast? = some '>'
  | .node n attrs .nil => by
      show ('<' :: (n.data ++ attrsChars attrs ++ [' ', '/', '>'])).getLast? = some '>'
      rw [show ('<' :: (n.data ++ attrsChars attrs ++ [' ', '/', '>'])) =
        (('<' :: (n.data ++ attrsChars attrs ++ [' ', '/'])) ++ ['>']) from by simp]
      rw [getLast?_append_right _ _ (by simp)]
      rfl
  | .node n attrs (.cons t2 ts) => by
      show ('<' :: (n.data ++ attrsChars attrs ++ '>' ::
        (serializeF (.cons t2 ts) ++ ('<' :: '/' :: n.data ++ ['>'])))).getLast? =
          some '>'
      rw [show ('<' :: (n.data ++ attrsChars attrs ++ '>' ::
          (serializeF (.cons t2 ts) ++ ('<' :: '/' :: n.data ++ ['>'])))) =
        (('<' :: (n.data ++ attrsChars attrs ++ '>' ::
          (serializeF (.cons t2 ts) ++ '<' :: '/' :: n.data))) ++ ['>']) from by simp]
      rw [getLast?_append_right _ _ (by simp)]
      rfl

theorem lastDO_attrsChars : ∀ (attrs : List (String × String)) (q : Option Char),
    lastDO q (attrsChars attrs) = q ∨ lastDO q (attrsChars attrs) = some '"' := by
  intro attrs
  induction attrs with
  | nil => intro q; left; rfl
  | cons kv rest ih =>
      intro q
      right
      show lastDO q ((' ' :: (kv.1.data ++ '=' :: '"' :: kv.2.data ++ ['"'])) ++
        attrsChars rest) = some '"'
      rw [lastDO_append, lastDO_attrPiece kv q]
      rcases ih (some '"') with h | h
      · exact h
      · exact h

theorem minOk_closeSelf (q : Option Char) (nxt : Option Char)
    (hq : okNbr q = true) : minOk q [' ', '/', '>'] nxt = true := by
  rw [minOk_cons, hq]
  rfl

mutual
theorem minOk_serializeT : ∀ (t : XTree), sOkT t = true →
    ∀ (p nxt : Option Char), minOk p (serializeT t) nxt = true
  | .node n attrs .nil, h => by
      intro p nxt
      unfold sOkT at h
      simp only [Bool.and_eq_true] at h
      obtain ⟨⟨⟨h1, h2⟩, h3⟩, h4⟩ := h
      rw [List.all_eq_true] at h2
      have hnne : n.data ≠ [] := by
        intro hcon
        rw [hcon] at h1
        exact absurd h1 (by decide)
      have hnoSp : ∀ d ∈ n.data, isCtlWs d = false ∧ d ≠ '!' ∧ pyIsSpace d = false :=
        fun d hd => by
          obtain ⟨f1, f2, f3, _, _, _⟩ := nameChar_facts (h2 d hd)
          exact ⟨f1, f2, f3⟩
      have hlastN : okNbr (lastDO (some '<') n.data) = true := by
        obtain ⟨b, hb, heq⟩ := lastDO_of_ne_nil hnne (some '<')
        rw [heq]
        exact okNbr_of_nameChar (h2 b hb)
      show minOk (some '<')
        (n.data ++ attrsChars attrs ++ [' ', '/', '>']) nxt = true
      rw [show (n.data ++ attrsChars attrs ++ [' ', '/', '>']) =
        (n.data ++ (attrsChars attrs ++ [' ', '/', '>'])) from by
          simp only [List.append_assoc]]
      rw [minOk_append, minOk_noSpace hnoSp, Bool.true_and]
      rw [minOk_append, minOk_attrsChars attrs h3 _ _ hlastN, Bool.true_and]
      apply minOk_closeSelf
      rcases lastDO_attrsChars attrs (lastDO (some '<') n.data) with heq | heq
      · rw [heq]
        exact hlastN
      · rw [heq]
        rfl
  | .node n attrs (.cons t2 ts), h => by
      intro p nxt
      unfold sOkT at h
      simp only [Bool.and_eq_true] at h
      obtain ⟨⟨⟨h1, h2⟩, h3⟩, h4⟩ := h
      rw [List.all_eq_true] at h2
      have hnne : n.data ≠ [] := by
        intro hcon
        rw [hcon] at h1
        exact absurd h1 (by decide)
      have hnoSp : ∀ d ∈ n.data, isCtlWs d = false ∧ d ≠ '!' ∧ pyIsSpace d = false :=
        fun d hd => by
          obtain ⟨f1, f2, f3, _, _, _⟩ := nameChar_facts (h2 d hd)
          exact ⟨f1, f2, f3⟩
      have hlastN : okNbr (lastDO (some '<') n.data) = true := by
        obtain ⟨b, hb, heq⟩ := lastDO_of_ne_nil hnne (some '<')
        rw [heq]
        exact okNbr_of_nameChar (h2 b hb)
      show minOk (some '<') (n.data ++ attrsChars attrs ++ '>' ::
        (serializeF (.cons t2 ts) ++ ('<' :: '/' :: n.data ++ ['>']))) nxt = true
      rw [show (n.data ++ attrsChars attrs ++ '>' ::
          (serializeF (.cons t2 ts) ++ ('<' :: '/' :: n.data ++ ['>']))) =
        (n.data ++ (attrsChars attrs ++ '>' ::
          (serializeF (.cons t2 ts) ++ ('<' :: '/' :: n.data ++ ['>'])))) from by
          simp only [List.append_assoc]]
      rw [minOk_append, minOk_noSpace hnoSp, Bool.true_and]
      rw [minOk_append, minOk_attrsChars attrs h3 _ _ hlastN, Bool.true_and]
      show minOk (some '>')
        (serializeF (.cons t2 ts) ++ ('<' :: '/' :: n.data ++ ['>'])) nxt = true
      rw [minOk_append, minOk_serializeF (.cons t2 ts) h4, Bool.true_and]
      show minOk (some '/') (n.data ++ ['>']) nxt = true
      rw [minOk_append, minOk_noSpace hnoSp, Bool.true_and]
      rfl
theorem minOk_serializeF : ∀ (f : XForest), sOkF f = true →
    ∀ (p nxt : Option Char), minOk p (serializeF f) nxt = true
  | .nil, _ => fun p nxt => rfl
  | .cons t ts, h => by
      intro p nxt
      unfold sOkF at h
      rw [Bool.and_eq_true] at h
      show minOk p (serializeT t ++ serializeF ts) nxt = true
      rw [minOk_append, minOk_serializeT t h.1, minOk_serializeF ts h.2]
      rfl
end

/-! ### Each minify pass fixes scanner-approved text -/

theorem rmCtl_id_of {s : List Char} (h : ∀ c ∈ s, isCtlWs c = false) :
    rmCtl s = s := by
  unfold rmCtl
  apply map_self_of
  intro c hc
  rw [h c hc]
  simp

theorem cwGo_id_of_minOk : ∀ (s : List Char) (p nxt : Option Char) (pb : Bool),
    minOk p s nxt = true →
    (pb = true → ∀ d, (s.head? = some d) → pyIsSpace d = false) →
    cwGo pb s = s := by
  intro s
  induction s with
  | nil => intro p nxt pb _ _; rfl
  | cons c cs ih =>
      intro p nxt pb h hpb
      rw [minOk_cons, Bool.and_eq_true, Bool.and_eq_true, Bool.and_eq_true] at h
      obtain ⟨⟨⟨hctl, hbang⟩, hspbr⟩, hrec⟩ := h
      show cwGo pb (c :: cs) = c :: cs
      unfold cwGo
      by_cases hsp : pyIsSpace c = true
      · rw [hsp] at hspbr
        simp only [Bool.not_true, Bool.false_or] at hspbr
        rw [Bool.and_eq_true, Bool.and_eq_true] at hspbr
        obtain ⟨⟨hce, hop⟩, hnx⟩ := hspbr
        have hce2 : c = ' ' := of_decide_eq_true hce
        have hpbf : pb = false := by
          cases pb with
          | false => rfl
          | true =>
              have h3 := hpb rfl c rfl
              rw [h3] at hsp
              exact (Bool.false_ne_true hsp).elim
        subst hpbf
        rw [if_pos hsp]
        simp only [Bool.false_eq_true, if_false]
        subst hce2
        rw [ih (some ' ') nxt true hrec ?_]
        intro _ d hd
        cases cs with
        | nil => cases hd
        | cons e es =>
            have he2 : d = e := by
              injection hd with he
              exact he.symm
            subst he2
            have h4 : (!pyIsSpace d && tgtFree d) = true := hnx
            rw [Bool.and_eq_true] at h4
            have h5 := h4.1
            rwa [Bool.not_eq_true'] at h5
      · rw [if_neg hsp]
        rw [ih (some c) nxt false hrec (fun hcon => (Bool.false_ne_true hcon).elim)]

theorem okNbr_ne_target {d t : Char} (hd : okNbr (some d) = true)
    (ht : t = '>' ∨ t = '<' ∨ t = '=') : d ≠ t := by
  intro hcon
  subst hcon
  rcases ht with rfl | rfl | rfl <;> exact absurd hd (by decide)

theorem dsnGo_id_of_minOk (t : Char) (ht : t = '>' ∨ t = '<' ∨ t = '=') :
    ∀ (s : List Char) (p nxt : Option Char),
    minOk p s nxt = true → dsnGo t p s = s := by
  intro s
  induction s with
  | nil => intro p nxt _; rfl
  | cons c cs ih =>
      intro p nxt h
      rw [minOk_cons, Bool.and_eq_true, Bool.and_eq_true, Bool.and_eq_true] at h
      obtain ⟨⟨⟨hctl, hbang⟩, hspbr⟩, hrec⟩ := h
      show dsnGo t p (c :: cs) = c :: cs
      unfold dsnGo
      have hcond : (decide (c = ' ') &&
          (decide (p = some t) || decide (cs.head? = some t))) = false := by
        by_cases hsp : c = ' '
        · subst hsp
          have h2 : (decide ((' ' : Char) = ' ') && okNbr p &&
              okNbr (headD cs nxt)) = true := by
            rw [show (!pyIsSpace ' ') = false from rfl, Bool.false_or] at hspbr
            exact hspbr
          rw [Bool.and_eq_true, Bool.and_eq_true] at h2
          obtain ⟨⟨_, hop⟩, hnx⟩ := h2
          have hpt : decide (p = some t) = false := by
            apply decide_eq_false
            intro hcon
            rw [hcon] at hop
            exact absurd rfl (okNbr_ne_target hop ht)
          have hrt : decide (cs.head? = some t) = false := by
            apply decide_eq_false
            intro hcon
            cases cs with
            | nil => cases hcon
            | cons d ds =>
                have hd : d = t := by
                  injection hcon with hd2
                have h4 : okNbr (some d) = true := hnx
                exact absurd hd (okNbr_ne_target h4 ht)
          rw [hpt, hrt]
          rfl
        · rw [decide_eq_false hsp]
          rfl
      rw [if_neg (by rw [hcond]; exact Bool.false_ne_true)]
      rw [ih (some c) nxt hrec]

theorem stripCommentsCs_id : ∀ (fuel : ℕ) (s : List Char),
    (∀ c ∈ s, c ≠ '!') → s.length ≤ fuel → stripCommentsCs fuel s = s := by
  intro fuel
  induction fuel with
  | zero => intro s _ _; rfl
  | succ fuel ih =>
      intro s h hlen
      cases s with
      | nil => rfl
      | cons c rest =>
          show stripCommentsCs (fuel + 1) (c :: rest) = c :: rest
          unfold stripCommentsCs
          split
          · next rest2 heq =>
              exfalso
              injection heq with hc hrest
              rw [hrest] at h
              exact h '!' (List.mem_cons_of_mem _ (List.mem_cons_self _ _)) rfl
          · next c2 rest2 heq =>
              injection heq with hc hrest
              subst hc
              subst hrest
              rw [ih rest (fun d hd => h d (List.mem_cons_of_mem _ hd))
                (by rw [List.length_cons] at hlen; omega)]
          · next heq => cases heq

theorem stripChars_id {s : List Char} {a b : Char} (h1 : s.head? = some a)
    (ha : pyIsSpace a = false) (h2 : s.getLast? = some b)
    (hb : pyIsSpace b = false) : stripChars s = s := by
  unfold stripChars
  obtain ⟨rest, rfl⟩ : ∃ rest, s = a :: rest := by
    cases s with
    | nil => cases h1
    | cons x xs => exact ⟨xs, by rw [Option.some.inj h1]⟩
  rw [List.dropWhile_cons, if_neg (by rw [ha]; exact Bool.false_ne_true)]
  have hrev : (a :: rest).reverse.head? = some b := by
    rw [List.head?_reverse]
    exact h2
  obtain ⟨rest2, hrw⟩ : ∃ rest2, (a :: rest).reverse = b :: rest2 := by
    cases hc : (a :: rest).reverse with
    | nil => rw [hc] at hrev; cases hrev
    | cons x xs =>
        rw [hc] at hrev
        exact ⟨xs, by rw [Option.some.inj hrev]⟩
  rw [hrw, List.dropWhile_cons, if_neg (by rw [hb]; exact Bool.false_ne_true),
    ← hrw, List.reverse_reverse]

/-! ### Parsing a serialized tree returns the tree -/

mutual
/-- Fuel needed by parseElemCs on the serialization. -/
def efT : XTree → ℕ
  | .node _ attrs c => 1 + attrs.length + ffF c
/-- Fuel needed by parseForestCs on the serialization. -/
def ffF : XForest → ℕ
  | .nil => 1
  | .cons t ts => 1 + efT t + ffF ts
end

theorem tgtFree_ne {c : Char} (h : tgtFree c = true) :
    c ≠ '>' ∧ c ≠ '<' ∧ c ≠ '=' := by
  unfold tgtFree at h
  simp only [Bool.not_eq_true', Bool.or_eq_false_iff, decide_eq_false_iff_not] at h
  exact ⟨h.1.1, h.1.2, h.2⟩

theorem cleanVal_mem : ∀ {v : List Char} {p : Option Char},
    cleanValGo p v = true → ∀ c ∈ v, valOkChar c = true := by
  intro v
  induction v with
  | nil => intro p _ c hc; cases hc
  | cons a as ih =>
      intro p h c hc
      have h2 : ((valOkChar a && !(decide (a = ' ') && decide (p = some ' '))) &&
          cleanValGo (some a) as) = true := h
      rw [Bool.and_eq_true, Bool.and_eq_true] at h2
      rcases List.mem_cons.1 hc with rfl | hc2
      · exact h2.1.1
      · exact ih h2.2 c hc2

theorem valOkChar_ne_quote {c : Char} (h : valOkChar c = true) : c ≠ '"' := by
  unfold valOkChar at h
  simp only [Bool.and_eq_true, decide_eq_true_eq] at h
  exact h.1.1.1.1.1.2

theorem parseNameCs_append (nm rest : List Char) (hne : nm ≠ [])
    (hnm : ∀ c ∈ nm, nameChar c = true) (hr : headNot nameChar rest) :
    parseNameCs (nm ++ rest) = some (⟨nm⟩, rest) := by
  unfold parseNameCs
  rw [takeWhile_append_all hnm hr, dropWhile_append_all hnm hr]
  rw [if_neg hne]

theorem skipWsCs_attrPiece (kv : String × String) (X : List Char)
    (hk : kv.1.data ≠ []) (hnm : ∀ c ∈ kv.1.data, nameChar c = true) :
    skipWsCs ((' ' :: (kv.1.data ++ '=' :: '"' :: kv.2.data ++ ['"'])) ++ X) =
      kv.1.data ++ ('=' :: '"' :: (kv.2.data ++ ('"' :: X))) := by
  obtain ⟨k0, ktl, hkc⟩ : ∃ k0 ktl, kv.1.data = k0 :: ktl := by
    cases hc : kv.1.data with
    | nil => exact absurd hc hk
    | cons x xs => exact ⟨x, xs, rfl⟩
  have hsp : pyIsSpace k0 = false :=
    (nameChar_facts (hnm k0 (by rw [hkc]; exact List.mem_cons_self _ _))).2.2.1
  show List.dropWhile pyIsSpace
    (' ' :: ((kv.1.data ++ '=' :: '"' :: kv.2.data ++ ['"']) ++ X)) = _
  rw [show List.dropWhile pyIsSpace
      (' ' :: ((kv.1.data ++ '=' :: '"' :: kv.2.data ++ ['"']) ++ X)) =
    List.dropWhile pyIsSpace
      ((kv.1.data ++ '=' :: '"' :: kv.2.data ++ ['"']) ++ X) from rfl]
  rw [hkc]
  simp only [List.cons_append]
  rw [List.dropWhile_cons, if_neg (by rw [hsp]; exact Bool.false_ne_true)]
  simp

theorem parseAttrsCs_rt : ∀ (attrs : List (String × String)) (fuel : ℕ),
    attrs.length < fuel → attrs.all sOkA = true →
    ∀ (tail : List Char) (c0 : Char), (skipWsCs tail).head? = some c0 →
    (c0 = '/' ∨ c0 = '>') →
    parseAttrsCs fuel (attrsChars attrs ++ tail) = some (attrs, skipWsCs tail) := by
  intro attrs
  induction attrs with
  | nil =>
      intro fuel hfuel _ tail c0 hc0 hv0
      cases fuel with
      | zero => omega
      | succ fuel =>
          show parseAttrsCs (fuel + 1) ([] ++ tail) = _
          rw [List.nil_append]
          unfold parseAttrsCs
          obtain ⟨r, hr⟩ : ∃ r, skipWsCs tail = c0 :: r := by
            cases hc : skipWsCs tail with
            | nil => rw [hc] at hc0; cases hc0
            | cons x xs =>
                rw [hc] at hc0
                exact ⟨xs, by rw [Option.some.inj hc0]⟩
          rw [hr]
          rcases hv0 with rfl | rfl
          · rfl
          · rfl
  | cons kv rest ih =>
      intro fuel hfuel h tail c0 hc0 hv0
      cases fuel with
      | zero => omega
      | succ fuel =>
          rw [List.all_cons, Bool.and_eq_true] at h
          have hA : sOkA kv = true := h.1
          unfold sOkA at hA
          rw [Bool.and_eq_true, Bool.and_eq_true] at hA
          obtain ⟨⟨hA1, hA2⟩, hA3⟩ := hA
          have hk1 : kv.1.data ≠ [] := by
            intro hcon
            rw [hcon] at hA1
            exact absurd hA1 (by decide)
          rw [List.all_eq_true] at hA2
          obtain ⟨k0, ktl, hkc⟩ : ∃ k0 ktl, kv.1.data = k0 :: ktl := by
            cases hc : kv.1.data with
            | nil => exact absurd hc hk1
            | cons x xs => exact ⟨x, xs, rfl⟩
          obtain ⟨kf1, kf2, kf3, kf4, kf5, kf6⟩ :=
            nameChar_facts (hA2 k0 (by rw [hkc]; exact List.mem_cons_self _ _))
          obtain ⟨kt1, kt2, kt3⟩ := tgtFree_ne kf4
          show parseAttrsCs (fuel + 1)
            (((' ' :: (kv.1.data ++ '=' :: '"' :: kv.2.data ++ ['"'])) ++
              attrsChars rest) ++ tail) = _
          rw [List.append_assoc]
          unfold parseAttrsCs
          rw [skipWsCs_attrPiece kv _ hk1 hA2]
          rw [hkc]
          simp only [List.cons_append]
          split
          · next heq =>
              injection heq with h1 h2
              exact absurd h1 kf5
          · next heq =>
              injection heq with h1 h2
              exact absurd h1 kt1
          · rw [show (k0 :: (ktl ++ '=' :: '"' ::
                (kv.2.data ++ '"' :: (attrsChars rest ++ tail)))) =
              ((k0 :: ktl) ++ ('=' :: '"' ::
                (kv.2.data ++ '"' :: (attrsChars rest ++ tail)))) from rfl, ← hkc]
            rw [parseNameCs_append kv.1.data _ hk1 hA2 (fun d hd => by
              rw [show ('=' :: '"' :: (kv.2.data ++ '"' :: (attrsChars rest ++
                tail))).head? = some '=' from rfl] at hd
              rw [← Option.some.inj hd]
              rfl)]
            have hvq : ∀ d ∈ kv.2.data, (decide (d ≠ '"')) = true := fun d hd =>
              decide_eq_true (valOkChar_ne_quote (cleanVal_mem hA3 d hd))
            have hstop : headNot (fun c => decide (c ≠ '"'))
                ('"' :: (attrsChars rest ++ tail)) := by
              intro d hd
              rw [show ('"' :: (attrsChars rest ++ tail)).head? = some '"' from rfl] at hd
              rw [← Option.some.inj hd]
              rfl
            show (match List.dropWhile (fun c => decide (c ≠ '"'))
                (kv.2.data ++ '"' :: (attrsChars rest ++ tail)) with
              | '"' :: rest3 =>
                  (match parseAttrsCs fuel rest3 with
                    | some (attrs2, rest4) => some (((⟨kv.1.data⟩ : String),
                        (⟨List.takeWhile (fun c => decide (c ≠ '"'))
                          (kv.2.data ++ '"' :: (attrsChars rest ++ tail))⟩ : String)) ::
                            attrs2, rest4)
                    | none => none)
              | _ => none) = some (kv :: rest, skipWsCs tail)
            rw [takeWhile_append_all hvq hstop, dropWhile_append_all hvq hstop]
            show (match parseAttrsCs fuel (attrsChars rest ++ tail) with
              | some (attrs2, rest4) => some (((⟨kv.1.data⟩ : String),
                  (⟨kv.2.data⟩ : String)) :: attrs2, rest4)
              | none => none) = some (kv :: rest, skipWsCs tail)
            rw [ih fuel (by rw [List.length_cons] at hfuel; omega) h.2 tail c0 hc0 hv0]

theorem parseElemCs_lt (fuel : ℕ) (X : List Char) :
    parseElemCs (fuel + 1) ('<' :: X) =
      (match parseNameCs X with
      | none => none
      | some (n, rest2) =>
          match parseAttrsCs (fuel + 1) rest2 with
          | none => none
          | some (attrs, rest3) =>
              match rest3 with
              | '/' :: '>' :: rest4 => some (.node n attrs .nil, rest4)
              | '>' :: rest4 =>
                  match parseForestCs fuel rest4 with
                  | none => none
                  | some (c, rest5) =>
                      match rest5 with
                      | '<' :: '/' :: rest6 =>
                          match parseNameCs rest6 with
                          | some (n2, rest7) =>
                              if n2 = n then
                                match skipWsCs rest7 with
                                | '>' :: rest8 => some (.node n attrs c, rest8)
                                | _ => none
                              else none
                          | none => none
                      | _ => none
              | _ => none) := rfl

theorem parseForestCs_lt (fuel : ℕ) (cs : List Char) :
    parseForestCs (fuel + 1) cs =
      (match skipWsCs cs with
      | '<' :: '/' :: rest => some (.nil, '<' :: '/' :: rest)
      | '<' :: rest =>
          match parseElemCs fuel ('<' :: rest) with
          | none => none
          | some (t, rest2) =>
              match parseForestCs fuel rest2 with
              | some (ts, rest3) => some (.cons t ts, rest3)
              | none => none
      | [] => some (.nil, [])
      | _ => none) := rfl

theorem attrsChars_headNot (attrs : List (String × String)) (c : Char)
    (Z : List Char) (hc : nameChar c = false) :
    headNot nameChar (attrsChars attrs ++ (c :: Z)) := by
  intro d hd
  cases attrs with
  | nil =>
      rw [show ((attrsChars [] ++ (c :: Z)).head? : Option Char) = some c from rfl] at hd
      rw [← Option.some.inj hd]
      exact hc
  | cons kv rest =>
      rw [show ((attrsChars (kv :: rest) ++ (c :: Z)).head? : Option Char) =
        some ' ' from rfl] at hd
      rw [← Option.some.inj hd]
      rfl

theorem serializeT_shape : ∀ (t : XTree), sOkT t = true →
    ∃ (d : Char) (Y : List Char),
      serializeT t = '<' :: d :: Y ∧ nameChar d = true
  | .node n attrs .nil, h => by
      unfold sOkT at h
      simp only [Bool.and_eq_true] at h
      obtain ⟨⟨⟨h1, h2⟩, _⟩, _⟩ := h
      rw [List.all_eq_true] at h2
      obtain ⟨d, ntl, hnd⟩ : ∃ d ntl, n.data = d :: ntl := by
        cases hc : n.data with
        | nil => rw [hc] at h1; exact absurd h1 (by decide)
        | cons x xs => exact ⟨x, xs, rfl⟩
      refine ⟨d, ntl ++ attrsChars attrs ++ [' ', '/', '>'], ?_,
        h2 d (by rw [hnd]; exact List.mem_cons_self _ _)⟩
      show '<' :: (n.data ++ attrsChars attrs ++ [' ', '/', '>']) = _
      rw [hnd]
      simp
  | .node n attrs (.cons t2 ts), h => by
      unfold sOkT at h
      simp only [Bool.and_eq_true] at h
      obtain ⟨⟨⟨h1, h2⟩, _⟩, _⟩ := h
      rw [List.all_eq_true] at h2
      obtain ⟨d, ntl, hnd⟩ : ∃ d ntl, n.data = d :: ntl := by
        cases hc : n.data with
        | nil => rw [hc] at h1; exact absurd h1 (by decide)
        | cons x xs => exact ⟨x, xs, rfl⟩
      refine ⟨d, ntl ++ attrsChars attrs ++ '>' ::
        (serializeF (.cons t2 ts) ++ ('<' :: '/' :: n.data ++ ['>'])), ?_,
        h2 d (by rw [hnd]; exact List.mem_cons_self _ _)⟩
      show '<' :: (n.data ++ attrsChars attrs ++ '>' ::
        (serializeF (.cons t2 ts) ++ ('<' :: '/' :: n.data ++ ['>']))) = _
      rw [hnd]
      simp

mutual
theorem parseElemCs_rt : ∀ (t : XTree), sOkT t = true →
    ∀ (fuel : ℕ), efT t ≤ fuel → ∀ (rest : List Char),
    parseElemCs fuel (serializeT t ++ rest) = some (t, rest)
  | .node n attrs .nil, h => by
      intro fuel hfuel rest
      have hef : efT (.node n attrs .nil) = 2 + attrs.length := by
        show 1 + attrs.length + ffF .nil = _
        show 1 + attrs.length + 1 = _
        omega
      rw [hef] at hfuel
      cases fuel with
      | zero => omega
      | succ fuel =>
          unfold sOkT at h
          simp only [Bool.and_eq_true] at h
          obtain ⟨⟨⟨h1, h2⟩, h3⟩, _⟩ := h
          rw [List.all_eq_true] at h2
          have hnne : n.data ≠ [] := by
            intro hcon
            rw [hcon] at h1
            exact absurd h1 (by decide)
          have e1 : serializeT (.node n attrs .nil) ++ rest =
              '<' :: (n.data ++ (attrsChars attrs ++ (' ' :: '/' :: '>' :: rest))) := by
            show ('<' :: (n.data ++ attrsChars attrs ++ [' ', '/', '>'])) ++ rest = _
            simp
          rw [e1, parseElemCs_lt]
          have e2 := parseNameCs_append n.data
            (attrsChars attrs ++ (' ' :: '/' :: '>' :: rest)) hnne h2
            (attrsChars_headNot attrs ' ' ('/' :: '>' :: rest) (by decide))
          have e3 := parseAttrsCs_rt attrs (fuel + 1) (by omega) h3
            (' ' :: '/' :: '>' :: rest) '/' rfl (Or.inl rfl)
          rw [show skipWsCs (' ' :: '/' :: '>' :: rest) = '/' :: '>' :: rest
            from rfl] at e3
          simp only [e2, e3]
  | .node n attrs (.cons t2 ts), h => by
      intro fuel hfuel rest
      have hef : efT (.node n attrs (.cons t2 ts)) =
          1 + attrs.length + ffF (.cons t2 ts) := rfl
      rw [hef] at hfuel
      cases fuel with
      | zero =>
          exfalso
          have : 1 ≤ ffF (.cons t2 ts) := by
            show 1 ≤ 1 + efT t2 + ffF ts
            omega
          omega
      | succ fuel =>
          unfold sOkT at h
          simp only [Bool.and_eq_true] at h
          obtain ⟨⟨⟨h1, h2⟩, h3⟩, h4⟩ := h
          rw [List.all_eq_true] at h2
          have hnne : n.data ≠ [] := by
            intro hcon
            rw [hcon] at h1
            exact absurd h1 (by decide)
          have e1 : serializeT (.node n attrs (.cons t2 ts)) ++ rest =
              '<' :: (n.data ++ (attrsChars attrs ++ ('>' ::
                (serializeF (.cons t2 ts) ++
                  ('<' :: '/' :: (n.data ++ ('>' :: rest))))))) := by
            show ('<' :: (n.data ++ attrsChars attrs ++ '>' ::
              (serializeF (.cons t2 ts) ++ ('<' :: '/' :: n.data ++ ['>'])))) ++
                rest = _
            simp
          rw [e1, parseElemCs_lt]
          have e2 := parseNameCs_append n.data
            (attrsChars attrs ++ ('>' :: (serializeF (.cons t2 ts) ++
              ('<' :: '/' :: (n.data ++ ('>' :: rest)))))) hnne h2
            (attrsChars_headNot attrs '>' _ (by decide))
          have e3 := parseAttrsCs_rt attrs (fuel + 1) (by omega) h3
            ('>' :: (serializeF (.cons t2 ts) ++
              ('<' :: '/' :: (n.data ++ ('>' :: rest))))) '>' rfl (Or.inr rfl)
          rw [show skipWsCs ('>' :: (serializeF (.cons t2 ts) ++
            ('<' :: '/' :: (n.data ++ ('>' :: rest))))) =
            '>' :: (serializeF (.cons t2 ts) ++
              ('<' :: '/' :: (n.data ++ ('>' :: rest)))) from rfl] at e3
          have hffle : ffF (.cons t2 ts) ≤ fuel := by omega
          have e5 := parseForestCs_rt (.cons t2 ts) h4 fuel hffle
            (n.data ++ ('>' :: rest))
          have e6 := parseNameCs_append n.data ('>' :: rest) hnne h2
            (fun d hd => by
              rw [show (('>' :: rest).head? : Option Char) = some '>' from rfl] at hd
              rw [← Option.some.inj hd]
              rfl)
          simp only [e2, e3, e5, e6]
          rfl
theorem parseForestCs_rt : ∀ (f : XForest), sOkF f = true →
    ∀ (fuel : ℕ), ffF f ≤ fuel → ∀ (rest : List Char),
    parseForestCs fuel (serializeF f ++ ('<' :: '/' :: rest)) =
      some (f, '<' :: '/' :: rest)
  | .nil, _ => by
      intro fuel hfuel rest
      cases fuel with
      | zero => exact absurd hfuel (by rw [show ffF .nil = 1 from rfl]; omega)
      | succ fuel =>
          show parseForestCs (fuel + 1) ('<' :: '/' :: rest) = _
          rw [parseForestCs_lt]
          rfl
  | .cons t2 ts, h => by
      intro fuel hfuel rest
      have hff : ffF (.cons t2 ts) = 1 + efT t2 + ffF ts := rfl
      rw [hff] at hfuel
      cases fuel with
      | zero => omega
      | succ fuel =>
          unfold sOkF at h
          rw [Bool.and_eq_true] at h
          obtain ⟨d, Y, hshape, hdname⟩ := serializeT_shape t2 h.1
          have e1 : serializeF (.cons t2 ts) ++ ('<' :: '/' :: rest) =
              serializeT t2 ++ (serializeF ts ++ ('<' :: '/' :: rest)) := by
            show (serializeT t2 ++ serializeF ts) ++ ('<' :: '/' :: rest) = _
            simp
          rw [e1, parseForestCs_lt]
          rw [hshape]
          rw [show skipWsCs (('<' :: d :: Y) ++ (serializeF ts ++
            ('<' :: '/' :: rest))) = '<' :: d :: (Y ++ (serializeF ts ++
              ('<' :: '/' :: rest))) from rfl]
          split
          · next heq =>
              exfalso
              injection heq with ha hb
              injection hb with hb1
              exact absurd hb1 (nameChar_facts hdname).2.2.2.2.1
          · next heq =>
              injection heq with ha hb
              rw [← hb]
              rw [show ('<' :: d :: (Y ++ (serializeF ts ++ ('<' :: '/' :: rest)))) =
                (('<' :: d :: Y) ++ (serializeF ts ++ ('<' :: '/' :: rest)))
                  from rfl, ← hshape]
              simp only [parseElemCs_rt t2 h.1 fuel (by omega),
                parseForestCs_rt ts h.2 fuel (by omega) rest]
          · next heq => cases heq
          · next q f1 f2 f3 =>
              exact absurd rfl (f2 (d :: (Y ++ (serializeF ts ++ ('<' :: '/' :: rest)))))
end

/-! ### Fuel adequacy for the document parse -/

theorem attrsChars_length : ∀ (attrs : List (String × String)),
    attrs.length ≤ (attrsChars attrs).length := by
  intro attrs
  induction attrs with
  | nil => exact Nat.le_refl 0
  | cons kv rest ih =>
      have he : attrsChars (kv :: rest) =
          (' ' :: (kv.1.data ++ '=' :: '"' :: kv.2.data ++ ['"'])) ++
            attrsChars rest := rfl
      rw [he]
      simp only [List.length_append, List.length_cons]
      omega

mutual
theorem efT_le : ∀ (t : XTree), efT t + 2 ≤ (serializeT t).length
  | .node n attrs .nil => by
      have h1 := attrsChars_length attrs
      have he : serializeT (.node n attrs .nil) =
          '<' :: (n.data ++ attrsChars attrs ++ [' ', '/', '>']) := rfl
      have hf : efT (.node n attrs .nil) = 1 + attrs.length + 1 := rfl
      rw [he, hf]
      simp only [List.length_append, List.length_cons]
      have h3 : ([' ', '/', '>'] : List Char).length = 3 := rfl
      omega
  | .node n attrs (.cons t2 ts) => by
      have h1 := attrsChars_length attrs
      have h2 := ffF_le (.cons t2 ts)
      have he : serializeT (.node n attrs (.cons t2 ts)) =
          '<' :: (n.data ++ attrsChars attrs ++ '>' ::
            (serializeF (.cons t2 ts) ++ ('<' :: '/' :: n.data ++ ['>']))) := rfl
      have hf : efT (.node n attrs (.cons t2 ts)) =
          1 + attrs.length + ffF (.cons t2 ts) := rfl
      rw [he, hf]
      simp only [List.length_append, List.length_cons]
      omega
theorem ffF_le : ∀ (f : XForest), ffF f ≤ (serializeF f).length + 1
  | .nil => by
      have h1 : ffF .nil = 1 := rfl
      have h2 : (serializeF .nil).length = 0 := rfl
      omega
  | .cons t2 ts => by
      have h1 := efT_le t2
      have h2 := ffF_le ts
      have he : (serializeF (.cons t2 ts)).length =
          (serializeT t2).length + (serializeF ts).length := by
        show (serializeT t2 ++ serializeF ts).length = _
        rw [List.length_append]
      have hf : ffF (.cons t2 ts) = 1 + efT t2 + ffF ts := rfl
      rw [he, hf]
      omega
end

/-! ### The declaration prefix of the serialized document -/

theorem dropThroughQgt_xmlDecl (f : ℕ) (ser : List Char) :
    dropThroughQgt (f + 37) (xmlDecl ++ ser) = some ser := rfl

theorem parseDocCs_decl (t4 : XTree) (h : sOkT t4 = true) :
    parseDocCs (xmlDecl ++ serializeT t4) = some t4 := by
  obtain ⟨Y, hY⟩ : ∃ Y, serializeT t4 = '<' :: Y := by
    have hh := serializeT_head t4
    cases hc : serializeT t4 with
    | nil => rw [hc] at hh; cases hh
    | cons a as =>
        rw [hc] at hh
        exact ⟨as, by rw [Option.some.inj hh]⟩
  have hbound : efT t4 ≤ 2 * (serializeT t4).length + 4 := by
    have := efT_le t4
    omega
  have hrt := parseElemCs_rt t4 h (2 * (serializeT t4).length + 4) hbound []
  rw [List.append_nil] at hrt
  have hskip : skipWsCs (serializeT t4) = serializeT t4 := by
    rw [hY]
    rfl
  unfold parseDocCs
  simp only []
  rw [if_pos (show hasPrefixCs "<?xml ".data (xmlDecl ++ serializeT t4) = true
    from rfl)]
  rw [show (xmlDecl ++ serializeT t4).length = ((serializeT t4).length + 1) + 37
    from by rw [List.length_append, show xmlDecl.length = 38 from rfl]; omega]
  rw [dropThroughQgt_xmlDecl ((serializeT t4).length + 1) (serializeT t4)]
  simp only [hskip, hrt]
  rfl

/-! ### Minification of the serialized document -/

theorem minify_decl (ser : List Char)
    (hm : ∀ (p nxt : Option Char), minOk p ser nxt = true)
    (hh : ser.head? = some '<') (hl : ser.getLast? = some '>') :
    minifyChars (xmlDecl ++ '\n' :: ser) = xmlDecl ++ ser := by
  have hmem := minOk_mem (hm none none)
  have eA : rmCtl (xmlDecl ++ '\n' :: ser) = xmlDecl ++ ' ' :: ser := by
    unfold rmCtl
    rw [List.map_append]
    rw [show List.map (fun c => if isCtlWs c then ' ' else c) xmlDecl = xmlDecl
      from rfl]
    show xmlDecl ++ (' ' :: List.map (fun c => if isCtlWs c then ' ' else c) ser) = _
    rw [show List.map (fun c => if isCtlWs c then ' ' else c) ser = ser
      from rmCtl_id_of (fun c hc => (hmem c hc).1)]
  have eB : collapseWs (xmlDecl ++ ' ' :: ser) = xmlDecl ++ ' ' :: ser := by
    show cwGo false (xmlDecl ++ ' ' :: ser) = _
    rw [show cwGo false (xmlDecl ++ ' ' :: ser) = xmlDecl ++ ' ' :: cwGo true ser
      from rfl]
    rw [cwGo_id_of_minOk ser none none true (hm none none)
      (fun _ d hd => by rw [hh] at hd; rw [← Option.some.inj hd]; rfl)]
  have eC : dropSpacesNear '>' (xmlDecl ++ ' ' :: ser) = xmlDecl ++ ser := by
    show dsnGo '>' none (xmlDecl ++ ' ' :: ser) = _
    rw [show dsnGo '>' none (xmlDecl ++ ' ' :: ser) =
      xmlDecl ++ dsnGo '>' (some ' ') ser from rfl]
    rw [dsnGo_id_of_minOk '>' (Or.inl rfl) ser (some ' ') none (hm (some ' ') none)]
  have eD : dropSpacesNear '<' (xmlDecl ++ ser) = xmlDecl ++ ser := by
    show dsnGo '<' none (xmlDecl ++ ser) = _
    rw [show dsnGo '<' none (xmlDecl ++ ser) =
      xmlDecl ++ dsnGo '<' (some '>') ser from rfl]
    rw [dsnGo_id_of_minOk '<' (Or.inr (Or.inl rfl)) ser (some '>') none
      (hm (some '>') none)]
  have eE : dropSpacesNear '=' (xmlDecl ++ ser) = xmlDecl ++ ser := by
    show dsnGo '=' none (xmlDecl ++ ser) = _
    rw [show dsnGo '=' none (xmlDecl ++ ser) =
      xmlDecl ++ dsnGo '=' (some '>') ser from rfl]
    rw [dsnGo_id_of_minOk '=' (Or.inr (Or.inr rfl)) ser (some '>') none
      (hm (some '>') none)]
  have hsne : ser ≠ [] := by
    intro hcon
    rw [hcon] at hh
    cases hh
  have eF : stripChars (xmlDecl ++ ser) = xmlDecl ++ ser := by
    have hgl : (xmlDecl ++ ser).getLast? = some '>' := by
      rw [getLast?_append_right _ _ hsne]
      exact hl
    exact stripChars_id (show (xmlDecl ++ ser).head? = some '<' from rfl)
      (by decide) hgl (by decide)
  unfold minifyChars
  rw [eA, eB, eC, eD, eE, eF]

/-! ### Claim C7, amended: idempotence on the supported fragment -/

/-- A clean SVG document: nonempty, parses after comment stripping,
and the parsed tree lies in the optimizer's supported fragment. -/
def cleanSvgDoc (s : String) : Bool :=
  !s.data.isEmpty &&
  (match parseDocCs (stripCommentsCs s.data.length s.data) with
   | none => false
   | some t => cleanT t)

/-- C7 (amended): optimize_svg with every flag on is idempotent on
clean SVG documents - nonempty documents that parse after comment
stripping into the supported fragment: element and attribute names
made of name characters, attribute values free of markup, control and
double-space characters, numeric attributes that parse as floats,
well-formed space-separated path data, no duplicate attribute keys,
no unwrappable only-id group, and no two adjacent same-fill mergeable
path siblings.  On such documents the second pass parses the first
pass's output back to the same tree, every transform fixes it, and
minification returns the same serialized bytes. -/
theorem C7_idempotent_on_clean (s : String) (h : cleanSvgDoc s = true) :
    optimizeSvg (optimizeSvg s) = optimizeSvg s := by
  unfold cleanSvgDoc at h
  rw [Bool.and_eq_true] at h
  obtain ⟨hne, hp⟩ := h
  obtain ⟨t, hpt, hct⟩ : ∃ t, parseDocCs (stripCommentsCs s.data.length s.data) =
      some t ∧ cleanT t = true := by
    cases hcase : parseDocCs (stripCommentsCs s.data.length s.data) with
    | none => rw [hcase] at hp; exact absurd hp (by decide)
    | some t0 => rw [hcase] at hp; exact ⟨t0, rfl, hp⟩
  have hsne : s ≠ "" := by
    intro hcon
    rw [hcon] at hne
    exact absurd hne (by decide)
  have hpipe := cleanT_pipeline t hct
  have hs4 : sOkT (viewboxFix (roundTree t)) = true := hpipe.2.2.2.2.2
  have hm := minOk_serializeT (viewboxFix (roundTree t)) hs4
  have hh := serializeT_head (viewboxFix (roundTree t))
  have hl := serializeT_last (viewboxFix (roundTree t))
  have e1 : optimizeSvg s = ⟨xmlDecl ++ serializeT (viewboxFix (roundTree t))⟩ := by
    unfold optimizeSvg
    rw [if_neg hsne]
    simp only [hpt]
    rw [hpipe.1]
    rw [minify_decl _ hm hh hl]
  rw [e1]
  have hne2 : (⟨xmlDecl ++ serializeT (viewboxFix (roundTree t))⟩ : String) ≠ "" := by
    intro hcon
    have h2 := congrArg String.data hcon
    exact List.cons_ne_nil '<' _ h2
  have hsc : stripCommentsCs
      (String.data (⟨xmlDecl ++ serializeT (viewboxFix (roundTree t))⟩ : String)).length
      (String.data (⟨xmlDecl ++ serializeT (viewboxFix (roundTree t))⟩ : String)) =
      xmlDecl ++ serializeT (viewboxFix (roundTree t)) := by
    show stripCommentsCs (xmlDecl ++ serializeT (viewboxFix (roundTree t))).length
      (xmlDecl ++ serializeT (viewboxFix (roundTree t))) = _
    refine stripCommentsCs_id _ _ ?_ (Nat.le_refl _)
    intro c hc
    rcases List.mem_append.1 hc with h1 | h2
    · exact (show ∀ x ∈ xmlDecl, x ≠ '!' from by decide) c h1
    · exact (minOk_mem (hm none none) c h2).2
  have hdoc := parseDocCs_decl (viewboxFix (roundTree t)) hs4
  unfold optimizeSvg
  rw [if_neg hne2]
  simp only [hsc, hdoc]
  rw [hpipe.2.1, hpipe.2.2.1, hpipe.2.2.2.1, hpipe.2.2.2.2.1]
  rw [minify_decl _ hm hh hl]

/-- C7 (amended) at a concrete clean document: a two-element SVG with
numeric attributes and path data, on which the optimizer is verified
idempotent by the theorem. -/
theorem C7_idempotent_on_clean_witness :
    cleanSvgDoc
      "<svg width=\"10\" height=\"20.5\"><path fill=\"#ff0000\" d=\"M 1.2 3.4\"/></svg>"
      = true ∧
    optimizeSvg (optimizeSvg
      "<svg width=\"10\" height=\"20.5\"><path fill=\"#ff0000\" d=\"M 1.2 3.4\"/></svg>") =
    optimizeSvg
      "<svg width=\"10\" height=\"20.5\"><path fill=\"#ff0000\" d=\"M 1.2 3.4\"/></svg>" :=
  ⟨by decide, C7_idempotent_on_clean _ (by decide)⟩

end VectorEasy
